import Mathlib

/-!
# Parallel graph traversal on a worker-thread pool

A shallow embedding of `src/os_threadpool.c` and `src/parallel.c`.

The program is multi-threaded, so it is embedded as a transition system: a `State`
holds the shared memory (the thread pool, the `visited` array, `sum`, the two mutexes)
and one program counter per thread; `step` executes the next statement(s) of one thread.
Every interleaving of the threads is a list of `Event`s, and `exec` runs such a list.

Granularity.  A thread blocks only at `pthread_mutex_lock`, inside `pthread_cond_wait`
and at `pthread_join`, so these are program points of their own.  Statements that touch
only data protected by a mutex the thread holds are executed together with the next
synchronisation action.  `tp->started_working` is written by `main` *without* the pool
mutex, hence reading it (`os_threadpool.c:68`) is a step of its own, separate from the
`aux_wait_cnt++; pthread_cond_wait(...)` that follows it.

Three kinds of log are kept next to the program's own data: `next_id` numbers the
`malloc`ed task arguments, `created` lists every task ever made by `create_task` and
`freed` lists every `destroy_arg` call.  The program never reads them.
-/

namespace ParallelGraph

/-! ## Data model -/

/-- The visitation state of a node (`graph->visited[i]`). -/
inductive Visit where
  | NOT_VISITED
  | PROCESSING
  | DONE
  deriving DecidableEq, Repr

/-- A graph node: its value and its neighbour list (`num_neighbours` is the length). -/
structure os_node_t where
  info : Int
  neighbours : List Nat
  deriving DecidableEq, Repr

/-- The graph: node `i` is `nodes[i]`, `num_nodes` is the length. -/
structure os_graph_t where
  nodes : List os_node_t
  deriving DecidableEq, Repr

/-- Number of neighbours of a node. -/
def os_node_t.num_neighbours (n : os_node_t) : Nat := n.neighbours.length

/-- Number of nodes of a graph. -/
def os_graph_t.num_nodes (g : os_graph_t) : Nat := g.nodes.length

/-- A task.  The action is always `process_node_wrapper`; `argument` is the
`unsigned int` stored in the `malloc`ed cell the task points to, `id` identifies that
allocation, and `destroy_arg` tells whether the destroy function is non-`NULL`. -/
structure os_task_t where
  id : Nat
  argument : Nat
  destroy_arg : Bool
  deriving DecidableEq, Repr

/-- The thread pool (`os_threadpool_t`): `head` is the task list, `mutex` tells whether
the pool mutex is locked. -/
structure os_threadpool_t where
  num_threads : Nat
  head : List os_task_t
  started_working : Bool
  still_working : Bool
  aux_wait_cnt : Nat
  mutex : Bool
  deriving DecidableEq, Repr

/-- Program points of a worker thread (`thread_loop_function`, with `dequeue_task`,
`process_node` and `destroy_task` inlined). -/
inductive WorkerPc where
  /-- At `os_threadpool.c:65`: about to lock the pool mutex. -/
  | dq_lock
  /-- At `os_threadpool.c:68`: holds the mutex, about to test `!tp->started_working`. -/
  | dq_check_started
  /-- At `os_threadpool.c:69-71`: about to do `aux_wait_cnt++` and enter `pthread_cond_wait`. -/
  | dq_wait_start
  /-- At `os_threadpool.c:71`: blocked inside `pthread_cond_wait`. -/
  | dq_blocked_start
  /-- At `os_threadpool.c:71-72`: woken; has to get the mutex back, then `aux_wait_cnt--`. -/
  | dq_woken_start
  /-- At `os_threadpool.c:75-85`: holds the mutex, about to test the second loop condition. -/
  | dq_check_queue
  /-- At `os_threadpool.c:82`: blocked inside `pthread_cond_wait`. -/
  | dq_blocked_work
  /-- At `os_threadpool.c:82-83`: woken; has to get the mutex back, then `aux_wait_cnt--`. -/
  | dq_woken_work
  /-- At `os_threadpool.c:86-92`: holds the mutex, about to take the head and unlock. -/
  | dq_take
  /-- At `os_threadpool.c:103-105`: `dequeue_task` has returned `t`. -/
  | loop_got (t : Option os_task_t)
  /-- At `parallel.c:35`: about to lock `graph_mutex`. -/
  | pn_lock (t : os_task_t)
  /-- At `parallel.c:36-39`: about to add `info` to `sum` and mark the node `DONE`. -/
  | pn_visit (t : os_task_t)
  /-- At `parallel.c:41-46`: at the head of the neighbour loop with counter `i`. -/
  | pn_loop (t : os_task_t) (i : Nat)
  /-- At `parallel.c:48`: about to enqueue the new task `nt`. -/
  | pn_enqueue (t : os_task_t) (i : Nat) (nt : os_task_t)
  /-- At `parallel.c:49`: about to signal the condition variable. -/
  | pn_signal (t : os_task_t) (i : Nat)
  /-- At `parallel.c:51`: about to unlock `graph_mutex`. -/
  | pn_unlock (t : os_task_t)
  /-- At `os_threadpool.c:107`: about to call `destroy_task`. -/
  | loop_destroy (t : os_task_t)
  /-- At `os_threadpool.c:110`: the thread has returned. -/
  | exited
  deriving DecidableEq, Repr

/-- Program points of the main thread, from `parallel.c:73` on. -/
inductive MainPc where
  /-- At `parallel.c:73-76`: about to mark node 0 and create its task. -/
  | claim_root
  /-- At `parallel.c:79`: about to enqueue the root task. -/
  | enqueue_root (t : os_task_t)
  /-- At `parallel.c:82`: about to set `started_working`. -/
  | set_started
  /-- At `parallel.c:83`: about to broadcast. -/
  | broadcast
  /-- At `parallel.c:85`: in `wait_for_completion`, about to join thread `i`. -/
  | join (i : Nat)
  /-- At `parallel.c:86`: about to call `destroy_threadpool`. -/
  | destroy
  /-- At `parallel.c:89`: the pool is gone; `sum` is printed. -/
  | finished
  deriving DecidableEq, Repr

/-- The whole machine state. -/
structure State where
  tp : os_threadpool_t
  visited : List Visit
  sum : Int
  graph_mutex : Bool
  main_pc : MainPc
  threads : List WorkerPc
  next_id : Nat
  created : List os_task_t
  freed : List Nat
  deriving DecidableEq, Repr

/-- Outcome of a step: a new state, not enabled (the thread is blocked, has finished, or
the scheduling choice does not exist), or an array access outside its bounds. -/
inductive Res where
  | ok (s : State)
  | disabled
  | out_of_bounds
  deriving DecidableEq, Repr

/-- One scheduling decision. -/
inductive Event where
  /-- The main thread runs its next step. -/
  | main_thread
  /-- Worker `w` runs its next step; `pick` is the waiter a `pthread_cond_signal`
  executed in this step wakes. -/
  | worker (w : Nat) (pick : Nat)
  /-- A spurious wake-up of the blocked worker `w`. -/
  | spurious_wakeup (w : Nat)
  deriving DecidableEq, Repr

/-! ## Machine arithmetic -/

/-- The value an `int` holds after a computation whose exact result is `x`
(32-bit two's complement wrap-around). -/
def wrap_int (x : Int) : Int := (x + 2147483648) % 4294967296 - 2147483648

/-! ## The task list -/

/-- Modelled from the spec: `list_add_tail` of the list header that is not part of the
sources; "append to tail". -/
def list_add_tail (head : List os_task_t) (t : os_task_t) : List os_task_t := head ++ [t]

/-- Modelled from the spec: `list_empty` of the list header that is not part of the
sources. -/
def list_empty (head : List os_task_t) : Bool := head.isEmpty

/-- Modelled from the spec: `list_entry(tp->head.next, ...)`, the first task of the list. -/
def list_entry_next (head : List os_task_t) : Option os_task_t := head.head?

/-- Modelled from the spec: `list_del(tp->head.next)`, the list without its first task. -/
def list_del_next (head : List os_task_t) : List os_task_t := head.tail

/-! ## `os_threadpool.c` -/

/-- Function `create_task`: `id` stands for the freshly allocated argument. -/
def create_task (id : Nat) (arg : Nat) (destroy_arg : Bool) : os_task_t :=
  { id := id, argument := arg, destroy_arg := destroy_arg }

/-- Function `destroy_task`: calls `destroy_arg` on the argument when it is not `NULL`; the call is
recorded in the log `freed`. -/
def destroy_task (t : os_task_t) (freed : List Nat) : List Nat :=
  if t.destroy_arg then freed ++ [t.id] else freed

/-- Function `enqueue_task`, the part between lock and unlock. -/
def enqueue_task (tp : os_threadpool_t) (t : os_task_t) : os_threadpool_t :=
  { tp with head := list_add_tail tp.head t }

/-- Function `queue_is_empty`. -/
def queue_is_empty (tp : os_threadpool_t) : Bool := list_empty tp.head

/-- A worker blocked inside `pthread_cond_wait`. -/
def is_blocked : WorkerPc → Bool
  | .dq_blocked_start => true
  | .dq_blocked_work => true
  | _ => false

/-- The effect of a wake-up on a worker: a blocked worker becomes runnable again
(it still has to reacquire the mutex), any other worker is unaffected. -/
def wake : WorkerPc → WorkerPc
  | .dq_blocked_start => .dq_woken_start
  | .dq_blocked_work => .dq_woken_work
  | pc => pc

/-- Function `pthread_cond_broadcast`: wakes every thread blocked on the condition variable. -/
def pthread_cond_broadcast (threads : List WorkerPc) : List WorkerPc := threads.map wake

/-- Function `pthread_cond_signal`: no effect when nobody is blocked, otherwise wakes the blocked
thread `pick`; `none` when `pick` is not a blocked thread although one exists. -/
def pthread_cond_signal (threads : List WorkerPc) (pick : Nat) : Option (List WorkerPc) :=
  if threads.all (fun pc => !is_blocked pc) then some threads
  else
    match threads[pick]? with
    | some pc => if is_blocked pc then some (threads.set pick (wake pc)) else none
    | none => none

/-- Set the program counter of worker `w`. -/
def set_pc (s : State) (w : Nat) (pc : WorkerPc) : State :=
  { s with threads := s.threads.set w pc }

/-- The end of `dequeue_task` (`os_threadpool.c:86-89`): when the list is not empty its
first task is unlinked and returned, otherwise `NULL` is returned. -/
def dequeue_task_take (tp : os_threadpool_t) : Option os_task_t × os_threadpool_t :=
  if !queue_is_empty tp then
    (list_entry_next tp.head, { tp with head := list_del_next tp.head })
  else (none, tp)

/-- Function `dequeue_task` as executed by worker `w` standing at `pc`. -/
def dequeue_task (s : State) (w : Nat) (pc : WorkerPc) : Res :=
  match pc with
  | .dq_lock =>
    if s.tp.mutex then .disabled
    else .ok (set_pc { s with tp := { s.tp with mutex := true } } w .dq_check_started)
  | .dq_check_started =>
    if !s.tp.started_working then .ok (set_pc s w .dq_wait_start)
    else .ok (set_pc s w .dq_check_queue)
  | .dq_wait_start =>
    .ok (set_pc { s with tp := { s.tp with aux_wait_cnt := s.tp.aux_wait_cnt + 1,
                                            mutex := false } } w .dq_blocked_start)
  | .dq_woken_start =>
    if s.tp.mutex then .disabled
    else .ok (set_pc { s with tp := { s.tp with aux_wait_cnt := s.tp.aux_wait_cnt - 1,
                                                mutex := true } } w .dq_check_started)
  | .dq_check_queue =>
    if queue_is_empty s.tp && s.tp.still_working then
      if s.tp.aux_wait_cnt == s.tp.num_threads - 1 then
        .ok (set_pc { s with tp := { s.tp with still_working := false },
                             threads := pthread_cond_broadcast s.threads } w .dq_check_queue)
      else
        .ok (set_pc { s with tp := { s.tp with aux_wait_cnt := s.tp.aux_wait_cnt + 1,
                                                mutex := false } } w .dq_blocked_work)
    else .ok (set_pc s w .dq_take)
  | .dq_woken_work =>
    if s.tp.mutex then .disabled
    else .ok (set_pc { s with tp := { s.tp with aux_wait_cnt := s.tp.aux_wait_cnt - 1,
                                                mutex := true } } w .dq_check_queue)
  | .dq_take =>
    .ok (set_pc { s with tp := { (dequeue_task_take s.tp).2 with mutex := false } } w
          (.loop_got (dequeue_task_take s.tp).1))
  | _ => .disabled

/-! ## `parallel.c` -/

/-- Function `process_node` on the task `t` (`idx = t.argument`) as executed by worker `w`
standing at `pc`. -/
def process_node (g : os_graph_t) (s : State) (w : Nat) (pick : Nat) (pc : WorkerPc) : Res :=
  match pc with
  | .pn_lock t =>
    if s.graph_mutex then .disabled
    else .ok (set_pc { s with graph_mutex := true } w (.pn_visit t))
  | .pn_visit t =>
    match g.nodes[t.argument]? with
    | none => .out_of_bounds
    | some node =>
      if t.argument < s.visited.length then
        .ok (set_pc { s with sum := wrap_int (s.sum + node.info),
                             visited := s.visited.set t.argument .DONE } w (.pn_loop t 0))
      else .out_of_bounds
  | .pn_loop t i =>
    match g.nodes[t.argument]? with
    | none => .out_of_bounds
    | some node =>
      if i < node.num_neighbours then
        match node.neighbours[i]? with
        | none => .out_of_bounds
        | some j =>
          match s.visited[j]? with
          | none => .out_of_bounds
          | some v =>
            if v = .NOT_VISITED then
              .ok (set_pc { s with visited := s.visited.set j .PROCESSING,
                                   next_id := s.next_id + 1,
                                   created := s.created ++ [create_task s.next_id j true] }
                    w (.pn_enqueue t i (create_task s.next_id j true)))
            else .ok (set_pc s w (.pn_loop t (i + 1)))
      else .ok (set_pc s w (.pn_unlock t))
  | .pn_enqueue t i nt =>
    if s.tp.mutex then .disabled
    else .ok (set_pc { s with tp := enqueue_task s.tp nt } w (.pn_signal t i))
  | .pn_signal t i =>
    match pthread_cond_signal s.threads pick with
    | none => .disabled
    | some ths => .ok (set_pc { s with threads := ths } w (.pn_loop t (i + 1)))
  | .pn_unlock t =>
    .ok (set_pc { s with graph_mutex := false } w (.loop_destroy t))
  | _ => .disabled

/-- Function `thread_loop_function` as executed by worker `w` standing at `pc`. -/
def thread_loop_function (g : os_graph_t) (s : State) (w : Nat) (pick : Nat)
    (pc : WorkerPc) : Res :=
  match pc with
  | .loop_got none => .ok (set_pc s w .exited)
  | .loop_got (some t) => .ok (set_pc s w (.pn_lock t))
  | .loop_destroy t => .ok (set_pc { s with freed := destroy_task t s.freed } w .dq_lock)
  | .exited => .disabled
  | .dq_blocked_start => .disabled
  | .dq_blocked_work => .disabled
  | .dq_lock => dequeue_task s w pc
  | .dq_check_started => dequeue_task s w pc
  | .dq_wait_start => dequeue_task s w pc
  | .dq_woken_start => dequeue_task s w pc
  | .dq_check_queue => dequeue_task s w pc
  | .dq_woken_work => dequeue_task s w pc
  | .dq_take => dequeue_task s w pc
  | .pn_lock _ => process_node g s w pick pc
  | .pn_visit _ => process_node g s w pick pc
  | .pn_loop _ _ => process_node g s w pick pc
  | .pn_enqueue _ _ _ => process_node g s w pick pc
  | .pn_signal _ _ => process_node g s w pick pc
  | .pn_unlock _ => process_node g s w pick pc

/-- Function `wait_for_completion`: one iteration of the join loop with counter `i`. -/
def wait_for_completion (s : State) (i : Nat) : Res :=
  if i < s.tp.num_threads then
    match s.threads[i]? with
    | some .exited => .ok { s with main_pc := .join (i + 1) }
    | _ => .disabled
  else .ok { s with main_pc := .destroy }

/-- The loop of `destroy_threadpool`: every task still in the list is unlinked and
destroyed; returns the log of `destroy_arg` calls. -/
def destroy_threadpool_loop : List os_task_t → List Nat → List Nat
  | [], freed => freed
  | t :: rest, freed => destroy_threadpool_loop rest (destroy_task t freed)

/-- Function `destroy_threadpool`: drains the task list. -/
def destroy_threadpool (s : State) : State :=
  { s with tp := { s.tp with head := [] },
           freed := destroy_threadpool_loop s.tp.head s.freed }

/-- The main thread of `parallel.c`, from line 73 on. -/
def main (s : State) : Res :=
  match s.main_pc with
  | .claim_root =>
    if 0 < s.visited.length then
      .ok { s with visited := s.visited.set 0 .PROCESSING,
                   next_id := s.next_id + 1,
                   created := s.created ++ [create_task s.next_id 0 true],
                   main_pc := .enqueue_root (create_task s.next_id 0 true) }
    else .out_of_bounds
  | .enqueue_root t =>
    if s.tp.mutex then .disabled
    else .ok { s with tp := enqueue_task s.tp t, main_pc := .set_started }
  | .set_started =>
    .ok { s with tp := { s.tp with started_working := true }, main_pc := .broadcast }
  | .broadcast =>
    .ok { s with threads := pthread_cond_broadcast s.threads, main_pc := .join 0 }
  | .join i => wait_for_completion s i
  | .destroy => .ok { destroy_threadpool s with main_pc := .finished }
  | .finished => .disabled

/-- Function `create_threadpool`: the pool right after its creation. -/
def create_threadpool (num_threads : Nat) : os_threadpool_t :=
  { num_threads := num_threads, head := [], started_working := false,
    still_working := true, aux_wait_cnt := 0, mutex := false }

/-- The state in which `main` reaches line 73: the graph is loaded with every node
`NOT_VISITED`, `sum` is 0, and the pool has `num_threads` workers that have not run yet. -/
def init (g : os_graph_t) (num_threads : Nat) : State :=
  { tp := create_threadpool num_threads,
    visited := List.replicate g.num_nodes .NOT_VISITED,
    sum := 0,
    graph_mutex := false,
    main_pc := .claim_root,
    threads := List.replicate num_threads .dq_lock,
    next_id := 0,
    created := [],
    freed := [] }

/-! ## The transition system -/

/-- One step of the machine under the scheduling decision `e`. -/
def step (g : os_graph_t) (s : State) : Event → Res
  | .main_thread => main s
  | .worker w pick =>
    match s.threads[w]? with
    | some pc => thread_loop_function g s w pick pc
    | none => .disabled
  | .spurious_wakeup w =>
    match s.threads[w]? with
    | some pc => if is_blocked pc then .ok (set_pc s w (wake pc)) else .disabled
    | none => .disabled

/-- Run a schedule. -/
def exec (g : os_graph_t) : State → List Event → Res
  | s, [] => .ok s
  | s, e :: es =>
    match step g s e with
    | .ok s1 => exec g s1 es
    | r => r

/-- The states the program can be in: those some schedule leads to. -/
def Reachable (g : os_graph_t) (num_threads : Nat) (s : State) : Prop :=
  ∃ es, exec g (init g num_threads) es = .ok s

/-! ## Definitions used in the proofs -/

/-! ### Counting over the worker threads: definitions -/

/-- The sum of `f` over the workers. -/
def tally (f : WorkerPc → Nat) : List WorkerPc → Nat
  | [] => 0
  | pc :: l => f pc + tally f l

/-- Some of the workers are woken: worker `i` is if the mask says so at `i`. -/
def wake_mask : List Bool → List WorkerPc → List WorkerPc
  | _, [] => []
  | [], pc :: l => pc :: l
  | b :: bs, pc :: l => (if b then wake pc else pc) :: wake_mask bs l

/-- The worker is blocked inside `pthread_cond_wait` and has not been woken. -/
def blocked : WorkerPc → Nat
  | .dq_blocked_start => 1
  | .dq_blocked_work => 1
  | _ => 0

/-! ### The steps of the machine, case by case: definitions -/

/-- Whether an event is a spurious wake-up. -/
def Event.is_spurious : Event → Bool
  | .spurious_wakeup _ => true
  | _ => false

/-- The steps of the machine case by case, with the position of the stepping worker made
explicit: the workers are `pre ++ pc :: post` before the step and `pre ++ pc1 :: post`
after it.  Where a signal or a spurious wake-up wakes threads, which ones is left open
(`wake_mask`).  Every step of `step` is one of these (`step_sound`), so what every `Step`
keeps holds in every reachable state. -/
inductive Step (g : os_graph_t) : Bool → State → State → Prop where
  | claim_root (s : State) (h : s.main_pc = .claim_root) (hb : 0 < s.visited.length) :
    Step g false s { s with visited := s.visited.set 0 .PROCESSING,
                            next_id := s.next_id + 1,
                            created := s.created ++ [create_task s.next_id 0 true],
                            main_pc := .enqueue_root (create_task s.next_id 0 true) }
  | enqueue_root (s : State) (t : os_task_t) (h : s.main_pc = .enqueue_root t)
      (hm : s.tp.mutex = false) :
    Step g false s { s with tp := enqueue_task s.tp t, main_pc := .set_started }
  | set_started (s : State) (h : s.main_pc = .set_started) :
    Step g false s { s with tp := { s.tp with started_working := true }, main_pc := .broadcast }
  | broadcast (s : State) (h : s.main_pc = .broadcast) :
    Step g false s { s with threads := wake_mask (List.replicate s.threads.length true) s.threads,
                            main_pc := .join 0 }
  | join (s : State) (i : Nat) (h : s.main_pc = .join i) (hi : i < s.tp.num_threads)
      (hex : s.threads[i]? = some .exited) :
    Step g false s { s with main_pc := .join (i + 1) }
  | join_end (s : State) (i : Nat) (h : s.main_pc = .join i) (hi : ¬ i < s.tp.num_threads) :
    Step g false s { s with main_pc := .destroy }
  | destroy (s : State) (h : s.main_pc = .destroy) :
    Step g false s { destroy_threadpool s with main_pc := .finished }
  | spurious (s : State) (bs : List Bool) :
    Step g true s { s with threads := wake_mask bs s.threads }
  | dq_lock (s : State) (pre post : List WorkerPc)
      (hm : s.tp.mutex = false)
      (hth : s.threads = pre ++ .dq_lock :: post) :
    Step g false s { s with tp := { s.tp with mutex := true },
                            threads := pre ++ .dq_check_started :: post }
  | dq_not_started (s : State) (pre post : List WorkerPc)
      (hst : s.tp.started_working = false)
      (hth : s.threads = pre ++ .dq_check_started :: post) :
    Step g false s { s with threads := pre ++ .dq_wait_start :: post }
  | dq_started (s : State) (pre post : List WorkerPc)
      (hst : s.tp.started_working = true)
      (hth : s.threads = pre ++ .dq_check_started :: post) :
    Step g false s { s with threads := pre ++ .dq_check_queue :: post }
  | dq_wait_start (s : State) (pre post : List WorkerPc)
      (hth : s.threads = pre ++ .dq_wait_start :: post) :
    Step g false s { s with tp := { s.tp with aux_wait_cnt := s.tp.aux_wait_cnt + 1,
                                               mutex := false },
                            threads := pre ++ .dq_blocked_start :: post }
  | dq_woken_start (s : State) (pre post : List WorkerPc)
      (hm : s.tp.mutex = false)
      (hth : s.threads = pre ++ .dq_woken_start :: post) :
    Step g false s { s with tp := { s.tp with aux_wait_cnt := s.tp.aux_wait_cnt - 1,
                                               mutex := true },
                            threads := pre ++ .dq_check_started :: post }
  | dq_detect (s : State) (pre post : List WorkerPc)
      (hq : s.tp.head = []) (hsw : s.tp.still_working = true)
      (hc : s.tp.aux_wait_cnt = s.tp.num_threads - 1)
      (hth : s.threads = pre ++ .dq_check_queue :: post) :
    Step g false s { s with tp := { s.tp with still_working := false },
                            threads := wake_mask (List.replicate pre.length true) pre ++
                              .dq_check_queue :: wake_mask (List.replicate post.length true) post }
  | dq_wait_work (s : State) (pre post : List WorkerPc)
      (hq : s.tp.head = []) (hsw : s.tp.still_working = true)
      (hc : s.tp.aux_wait_cnt ≠ s.tp.num_threads - 1)
      (hth : s.threads = pre ++ .dq_check_queue :: post) :
    Step g false s { s with tp := { s.tp with aux_wait_cnt := s.tp.aux_wait_cnt + 1,
                                               mutex := false },
                            threads := pre ++ .dq_blocked_work :: post }
  | dq_leave_loop (s : State) (pre post : List WorkerPc)
      (hq : s.tp.head ≠ [] ∨ s.tp.still_working = false)
      (hth : s.threads = pre ++ .dq_check_queue :: post) :
    Step g false s { s with threads := pre ++ .dq_take :: post }
  | dq_woken_work (s : State) (pre post : List WorkerPc)
      (hm : s.tp.mutex = false)
      (hth : s.threads = pre ++ .dq_woken_work :: post) :
    Step g false s { s with tp := { s.tp with aux_wait_cnt := s.tp.aux_wait_cnt - 1,
                                               mutex := true },
                            threads := pre ++ .dq_check_queue :: post }
  | dq_take_task (s : State) (pre post : List WorkerPc) (t : os_task_t)
      (rest : List os_task_t)
      (hq : s.tp.head = t :: rest)
      (hth : s.threads = pre ++ .dq_take :: post) :
    Step g false s { s with tp := { s.tp with head := rest, mutex := false },
                            threads := pre ++ .loop_got (some t) :: post }
  | dq_take_null (s : State) (pre post : List WorkerPc)
      (hq : s.tp.head = [])
      (hth : s.threads = pre ++ .dq_take :: post) :
    Step g false s { s with tp := { s.tp with mutex := false },
                            threads := pre ++ .loop_got none :: post }
  | loop_exit (s : State) (pre post : List WorkerPc)
      (hth : s.threads = pre ++ .loop_got none :: post) :
    Step g false s { s with threads := pre ++ .exited :: post }
  | loop_run (s : State) (pre post : List WorkerPc) (t : os_task_t)
      (hth : s.threads = pre ++ .loop_got (some t) :: post) :
    Step g false s { s with threads := pre ++ .pn_lock t :: post }
  | pn_lock (s : State) (pre post : List WorkerPc) (t : os_task_t)
      (hm : s.graph_mutex = false)
      (hth : s.threads = pre ++ .pn_lock t :: post) :
    Step g false s { s with graph_mutex := true, threads := pre ++ .pn_visit t :: post }
  | pn_visit (s : State) (pre post : List WorkerPc) (t : os_task_t) (node : os_node_t)
      (hn : g.nodes[t.argument]? = some node) (hb : t.argument < s.visited.length)
      (hth : s.threads = pre ++ .pn_visit t :: post) :
    Step g false s { s with sum := wrap_int (s.sum + node.info),
                            visited := s.visited.set t.argument .DONE,
                            threads := pre ++ .pn_loop t 0 :: post }
  | pn_claim (s : State) (pre post : List WorkerPc) (t : os_task_t) (i : Nat)
      (node : os_node_t) (j : Nat)
      (hn : g.nodes[t.argument]? = some node) (hj : node.neighbours[i]? = some j)
      (hv : s.visited[j]? = some .NOT_VISITED)
      (hth : s.threads = pre ++ .pn_loop t i :: post) :
    Step g false s { s with visited := s.visited.set j .PROCESSING,
                            next_id := s.next_id + 1,
                            created := s.created ++ [create_task s.next_id j true],
                            threads := pre ++ .pn_enqueue t i (create_task s.next_id j true) :: post }
  | pn_skip (s : State) (pre post : List WorkerPc) (t : os_task_t) (i : Nat)
      (node : os_node_t) (j : Nat) (v : Visit)
      (hn : g.nodes[t.argument]? = some node) (hj : node.neighbours[i]? = some j)
      (hv : s.visited[j]? = some v) (hne : v ≠ .NOT_VISITED)
      (hth : s.threads = pre ++ .pn_loop t i :: post) :
    Step g false s { s with threads := pre ++ .pn_loop t (i + 1) :: post }
  | pn_loop_end (s : State) (pre post : List WorkerPc) (t : os_task_t) (i : Nat)
      (node : os_node_t)
      (hn : g.nodes[t.argument]? = some node) (hi : ¬ i < node.neighbours.length)
      (hth : s.threads = pre ++ .pn_loop t i :: post) :
    Step g false s { s with threads := pre ++ .pn_unlock t :: post }
  | pn_enqueue (s : State) (pre post : List WorkerPc) (t : os_task_t) (i : Nat)
      (nt : os_task_t)
      (hm : s.tp.mutex = false)
      (hth : s.threads = pre ++ .pn_enqueue t i nt :: post) :
    Step g false s { s with tp := enqueue_task s.tp nt,
                            threads := pre ++ .pn_signal t i :: post }
  | pn_signal (s : State) (pre post : List WorkerPc) (b1 b2 : List Bool) (t : os_task_t)
      (i : Nat)
      (hone : tally blocked pre + tally blocked post ≤
        tally blocked (wake_mask b1 pre) + tally blocked (wake_mask b2 post) + 1)
      (hth : s.threads = pre ++ .pn_signal t i :: post) :
    Step g false s { s with threads := wake_mask b1 pre ++ .pn_loop t (i + 1) :: wake_mask b2 post }
  | pn_unlock (s : State) (pre post : List WorkerPc) (t : os_task_t)
      (hth : s.threads = pre ++ .pn_unlock t :: post) :
    Step g false s { s with graph_mutex := false, threads := pre ++ .loop_destroy t :: post }
  | loop_destroy (s : State) (pre post : List WorkerPc) (t : os_task_t)
      (hth : s.threads = pre ++ .loop_destroy t :: post) :
    Step g false s { s with freed := destroy_task t s.freed, threads := pre ++ .dq_lock :: post }

/-! ### The pool protocol: definitions -/

/-- Inside `pthread_cond_wait` (blocked, or woken and not yet back in possession of the
mutex): the threads `aux_wait_cnt` counts. -/
def waiting : WorkerPc → Nat
  | .dq_blocked_start => 1
  | .dq_woken_start => 1
  | .dq_blocked_work => 1
  | .dq_woken_work => 1
  | _ => 0

/-- The worker holds the pool mutex. -/
def holds_mutex : WorkerPc → Nat
  | .dq_check_started => 1
  | .dq_wait_start => 1
  | .dq_check_queue => 1
  | .dq_take => 1
  | _ => 0

/-- The worker holds `graph_mutex`. -/
def holds_graph : WorkerPc → Nat
  | .pn_visit _ => 1
  | .pn_loop _ _ => 1
  | .pn_enqueue _ _ _ => 1
  | .pn_signal _ _ => 1
  | .pn_unlock _ => 1
  | _ => 0

/-- The worker has been given a task and has not finished destroying it. -/
def running : WorkerPc → Nat
  | .loop_got (some _) => 1
  | .pn_lock _ => 1
  | .pn_visit _ => 1
  | .pn_loop _ _ => 1
  | .pn_enqueue _ _ _ => 1
  | .pn_signal _ _ => 1
  | .pn_unlock _ => 1
  | .loop_destroy _ => 1
  | _ => 0

/-- The worker has passed the first loop of `dequeue_task` at least once. -/
def past_start : WorkerPc → Nat
  | .dq_lock => 0
  | .dq_check_started => 0
  | .dq_wait_start => 0
  | .dq_blocked_start => 0
  | .dq_woken_start => 0
  | _ => 1

/-- The worker stands at the end of `dequeue_task`. -/
def at_take : WorkerPc → Nat
  | .dq_take => 1
  | _ => 0

/-- The worker has received `NULL` from `dequeue_task`. -/
def got_null : WorkerPc → Nat
  | .loop_got none => 1
  | .exited => 1
  | _ => 0

/-- The worker thread has returned. -/
def has_exited : WorkerPc → Nat
  | .exited => 1
  | _ => 0

/-- The main thread has set `started_working`. -/
def main_started : MainPc → Bool
  | .claim_root => false
  | .enqueue_root _ => false
  | .set_started => false
  | _ => true

/-- Number of worker threads `main` has joined. -/
def joined (n : Nat) : MainPc → Nat
  | .join i => i
  | .destroy => n
  | .finished => n
  | _ => 0

/-- What holds of the pool in every reachable state of a run with `n` workers. -/
structure PoolInv (n : Nat) (s : State) : Prop where
  len : s.threads.length = n
  nth : s.tp.num_threads = n
  cnt : tally waiting s.threads = s.tp.aux_wait_cnt
  mtx : tally holds_mutex s.threads = if s.tp.mutex then 1 else 0
  gmtx : tally holds_graph s.threads = if s.graph_mutex then 1 else 0
  started : s.tp.started_working = main_started s.main_pc
  pre : s.tp.started_working = false → tally past_start s.threads = 0
  quiet : s.tp.still_working = false →
    s.tp.started_working = true ∧ s.tp.head = [] ∧ tally running s.threads = 0
  take : 0 < tally at_take s.threads → s.tp.head ≠ [] ∨ s.tp.still_working = false
  null : 0 < tally got_null s.threads → s.tp.still_working = false
  join : ∀ k, k < joined n s.main_pc → s.threads[k]? = some .exited

/-! ### Reachability in the graph and counting tasks: definitions -/

/-- There is an edge from `a` to `b`: `b` is in the neighbour list of node `a`. -/
def edge (g : os_graph_t) (a b : Nat) : Prop :=
  ∃ node, g.nodes[a]? = some node ∧ b ∈ node.neighbours

/-- Node `v` is reachable from the root node 0. -/
def Reach (g : os_graph_t) (v : Nat) : Prop := Relation.ReflTransGen (edge g) 0 v

/-- Every entry of every neighbour list is a node id. -/
def valid_graph (g : os_graph_t) : Prop :=
  ∀ node, node ∈ g.nodes → ∀ j, j ∈ node.neighbours → j < g.nodes.length

/-- The value of node `v` (0 outside the graph). -/
def info_of (g : os_graph_t) (v : Nat) : Int :=
  match g.nodes[v]? with
  | some node => node.info
  | none => 0

/-- The sum of `info` over the nodes marked `DONE`. -/
def done_sum : List os_node_t → List Visit → Int
  | n :: ns, v :: vs => (if v = .DONE then n.info else 0) + done_sum ns vs
  | _, _ => 0

/-- Number of tasks of a list that target node `v`. -/
def count_arg (v : Nat) : List os_task_t → Nat
  | [] => 0
  | t :: l => (if t.argument = v then 1 else 0) + count_arg v l

/-- The worker holds a task for node `v` whose `process_node` has not yet reached line 39,
or a new task for `v` that it has not enqueued yet. -/
def pending_at (v : Nat) : WorkerPc → Nat
  | .loop_got (some t) => if t.argument = v then 1 else 0
  | .pn_lock t => if t.argument = v then 1 else 0
  | .pn_visit t => if t.argument = v then 1 else 0
  | .pn_enqueue _ _ nt => if nt.argument = v then 1 else 0
  | _ => 0

/-- The main thread holds the root task for node `v` and has not enqueued it yet. -/
def main_pending (v : Nat) : MainPc → Nat
  | .enqueue_root t => if t.argument = v then 1 else 0
  | _ => 0

/-- The worker runs a task for node `v` and is past line 39 of `process_node`. -/
def scanning_at (v : Nat) : WorkerPc → Nat
  | .pn_loop t _ => if t.argument = v then 1 else 0
  | .pn_enqueue t _ _ => if t.argument = v then 1 else 0
  | .pn_signal t _ => if t.argument = v then 1 else 0
  | .pn_unlock t => if t.argument = v then 1 else 0
  | .loop_destroy t => if t.argument = v then 1 else 0
  | _ => 0

/-- The worker is in the neighbour loop of node `u` and has not yet looked at
neighbour number `k`. -/
def scan_before (u k : Nat) : WorkerPc → Nat
  | .pn_loop t i => if t.argument = u ∧ i ≤ k then 1 else 0
  | .pn_enqueue t i _ => if t.argument = u ∧ i < k then 1 else 0
  | .pn_signal t i => if t.argument = u ∧ i < k then 1 else 0
  | _ => 0

/-! ### The traversal: definitions -/

/-- What holds of the graph data in every reachable state. -/
structure GraphInv (g : os_graph_t) (s : State) : Prop where
  vlen : s.visited.length = g.nodes.length
  pend : ∀ v, count_arg v s.tp.head + main_pending v s.main_pc +
      tally (pending_at v) s.threads = if s.visited[v]? = some .PROCESSING then 1 else 0
  made : ∀ v, count_arg v s.created =
      if s.visited[v]? = some .PROCESSING ∨ s.visited[v]? = some .DONE then 1 else 0
  total : s.sum = wrap_int (done_sum g.nodes s.visited)
  sound : ∀ v, s.visited[v]? = some .PROCESSING ∨ s.visited[v]? = some .DONE → Reach g v
  scan : ∀ v, 0 < tally (scanning_at v) s.threads → s.visited[v]? = some .DONE
  closed : ∀ u node k j, s.visited[u]? = some .DONE → g.nodes[u]? = some node →
      node.neighbours[k]? = some j → s.visited[j]? = some .NOT_VISITED →
      0 < tally (scan_before u k) s.threads
  root : s.main_pc = .claim_root ∨ s.visited[0]? = some .PROCESSING ∨
      s.visited[0]? = some .DONE
  fresh : s.main_pc = .claim_root → ∀ (v : Nat) (x : Visit), s.visited[v]? = some x → x = .NOT_VISITED

/-! ### The life of a task: definitions -/

/-- Number of tasks of a list with allocation `id`. -/
def count_id (id : Nat) : List os_task_t → Nat
  | [] => 0
  | t :: l => (if t.id = id then 1 else 0) + count_id id l

/-- Number of tasks of a list whose `destroy_arg` is `NULL`. -/
def count_null (l : List os_task_t) : Nat :=
  match l with
  | [] => 0
  | t :: l => (if t.destroy_arg = false then 1 else 0) + count_null l

/-- The tasks a worker holds: dequeued or created, and not yet destroyed or enqueued. -/
def held : WorkerPc → List os_task_t
  | .loop_got (some t) => [t]
  | .pn_lock t => [t]
  | .pn_visit t => [t]
  | .pn_loop t _ => [t]
  | .pn_enqueue t _ nt => [t, nt]
  | .pn_signal t _ => [t]
  | .pn_unlock t => [t]
  | .loop_destroy t => [t]
  | _ => []

/-- The task the main thread holds. -/
def main_held : MainPc → List os_task_t
  | .enqueue_root t => [t]
  | _ => []

/-- Number of tasks with allocation `id` a worker holds. -/
def held_id (id : Nat) (pc : WorkerPc) : Nat := count_id id (held pc)

/-- Number of tasks without destroy function a worker holds. -/
def held_null (pc : WorkerPc) : Nat := count_null (held pc)

/-- What holds of the tasks and the `destroy_arg` log in every reachable state. -/
structure TaskInv (s : State) : Prop where
  ids : ∀ id, count_id id s.tp.head + count_id id (main_held s.main_pc) +
      tally (held_id id) s.threads + s.freed.count id = if id < s.next_id then 1 else 0
  nonnull : count_null s.tp.head + count_null (main_held s.main_pc) +
      tally held_null s.threads = 0
  made_ids : ∀ t, t ∈ s.created → t.id < s.next_id ∧ t.destroy_arg = true
  fin : s.main_pc = .finished → s.tp.head = []

/-! ### Task arguments and array bounds: definitions -/

/-- Number of tasks of a list whose argument is not below `m`. -/
def count_big (m : Nat) : List os_task_t → Nat
  | [] => 0
  | t :: l => (if m ≤ t.argument then 1 else 0) + count_big m l

/-- Number of tasks a worker holds whose argument is not below `m`. -/
def held_big (m : Nat) (pc : WorkerPc) : Nat := count_big m (held pc)

/-- Every task in the state and every task ever created targets a node of the graph. -/
structure ArgInv (g : os_graph_t) (s : State) : Prop where
  vlen : s.visited.length = g.nodes.length
  args : count_big g.nodes.length s.tp.head + count_big g.nodes.length (main_held s.main_pc)
      + tally (held_big g.nodes.length) s.threads = 0
  made_args : ∀ t, t ∈ s.created → t.argument < g.nodes.length

/-! ### The state after quiescence: definitions -/

/-- All workers have returned from `thread_loop_function`. -/
def all_exited (s : State) : Prop := ∀ pc, pc ∈ s.threads → pc = .exited

instance (s : State) : Decidable (all_exited s) := by
  unfold all_exited; infer_instance

/-! ### No deadlock with two or more workers: the invariant: definitions -/

/-- The worker has read `started_working == 0` and is about to wait. -/
def at_wait_start : WorkerPc → Nat
  | .dq_wait_start => 1
  | _ => 0

/-- The worker has read `started_working == 0` and has not been woken since. -/
def start_stuck : WorkerPc → Nat
  | .dq_wait_start => 1
  | .dq_blocked_start => 1
  | _ => 0

/-- The main thread has executed its broadcast. -/
def main_broadcasted : MainPc → Bool
  | .join _ => true
  | .destroy => true
  | .finished => true
  | _ => false

/-- What keeps a pool of `n` workers from blocking as a whole. -/
structure LiveInv (n : Nat) (s : State) : Prop where
  stuck : main_broadcasted s.main_pc = true → tally start_stuck s.threads ≤ 1
  fresh_wait : 0 < tally at_wait_start s.threads → tally past_start s.threads = 0
  quiet_awake : s.tp.still_working = false →
    tally at_wait_start s.threads = 0 ∧ tally blocked s.threads = 0
  awake : main_broadcasted s.main_pc = true → s.tp.still_working = true →
    tally blocked s.threads + 1 ≤ n

/-! ### Every run is finite: definitions -/

/-- Number of neighbours of node `v` (0 when there is no such node). -/
def degree (g : os_graph_t) (v : Nat) : Nat :=
  match g.nodes[v]? with
  | some node => node.neighbours.length
  | none => 0

/-- Steps a queued task still stands for, wake-ups of its `pthread_cond_signal`s
included. -/
def task_cost (g : os_graph_t) (t : os_task_t) : Nat := 13 + degree g t.argument

/-- The cost of the tasks in the list. -/
def queue_cost (g : os_graph_t) : List os_task_t → Nat
  | [] => 0
  | t :: rest => task_cost g t + queue_cost g rest

/-- The cost of the nodes that are still `NOT_VISITED`; `k` is the index of the first
entry of the list. -/
def visit_cost (g : os_graph_t) : Nat → List Visit → Nat
  | _, [] => 0
  | k, v :: rest =>
    (if v = .NOT_VISITED then 19 + degree g k else 0) + visit_cost g (k + 1) rest

/-- Steps a worker at this program point can still make without being woken and without
taking a task. -/
def worker_rank (g : os_graph_t) : WorkerPc → Nat
  | .exited => 0
  | .loop_got none => 1
  | .dq_take => 2
  | .dq_blocked_work => 2
  | .dq_check_queue => 3
  | .dq_woken_work => 5
  | .dq_blocked_start => 5
  | .dq_wait_start => 6
  | .dq_check_started => 7
  | .dq_woken_start => 8
  | .dq_lock => 8
  | .loop_destroy _ => 9
  | .pn_unlock _ => 10
  | .pn_loop t i => 11 + (degree g t.argument - i)
  | .pn_signal t i => 15 + (degree g t.argument - (i + 1))
  | .pn_enqueue t i nt => 16 + (degree g t.argument - (i + 1)) + task_cost g nt
  | .pn_visit t => 12 + degree g t.argument
  | .pn_lock t => 13 + degree g t.argument
  | .loop_got (some t) => 14 + degree g t.argument

/-- Steps the main thread can still make, the wake-ups of its broadcast included; `len`
is the number of workers. -/
def main_rank (g : os_graph_t) (len : Nat) : MainPc → Nat
  | .finished => 0
  | .destroy => 1
  | .join i => 2 + (len - i)
  | .broadcast => 4 * len + 3
  | .set_started => 4 * len + 4
  | .enqueue_root t => 4 * len + 5 + task_cost g t
  | .claim_root => 4 * len + 19 + degree g 0

/-- The wake-ups of the broadcast that ends the work, as long as it is still to come. -/
def still_cost (len : Nat) (still_working : Bool) : Nat :=
  if still_working then 3 * len + 1 else 0

/-- The measure of a state: a bound on the number of steps the threads can still make
(spurious wake-ups apart). -/
def run_measure (g : os_graph_t) (s : State) : Nat :=
  main_rank g s.threads.length s.main_pc + tally (worker_rank g) s.threads +
    queue_cost g s.tp.head + visit_cost g 0 s.visited +
    still_cost s.threads.length s.tp.still_working

/-- Number of spurious wake-ups in a schedule. -/
def count_spurious : List Event → Nat
  | [] => 0
  | e :: es => (if e.is_spurious then 1 else 0) + count_spurious es

/-- The schedule has no spurious wake-up. -/
def no_spurious (es : List Event) : Prop := ∀ e, e ∈ es → e.is_spurious = false

/-! ### Concrete runs and the claims: definitions -/

/-- A schedule written as runs of equal events. -/
def schedule : List (Event × Nat) → List Event
  | [] => []
  | (e, k) :: l => List.replicate k e ++ schedule l

/-- The triangle 0 - 1 - 2 - 0 with values 1, 2, 3. -/
def g_triangle : os_graph_t := ⟨[⟨1, [1, 2]⟩, ⟨2, [0, 2]⟩, ⟨3, [0, 1]⟩]⟩

/-- Nodes 0 and 1 joined, node 2 on its own. -/
def g_disconnected : os_graph_t := ⟨[⟨3, [1]⟩, ⟨4, [0]⟩, ⟨9, []⟩]⟩

/-- Node 1 is twice in the list of node 0, nodes 0 and 1 are their own neighbours, and
node 2 is reachable from nobody. -/
def g_repeated : os_graph_t := ⟨[⟨1, [1, 1, 0]⟩, ⟨2, [0, 1]⟩, ⟨5, [0]⟩]⟩

/-- Two nodes whose values add up to more than an `int` holds. -/
def g_overflow : os_graph_t := ⟨[⟨2147483647, [1]⟩, ⟨1, []⟩]⟩

/-- A single node without edges. -/
def g_single : os_graph_t := ⟨[⟨7, []⟩]⟩

/-- The pool after a complete run. -/
def tp_finished (n : Nat) : os_threadpool_t :=
  { num_threads := n, head := [], started_working := true, still_working := false,
    aux_wait_cnt := 0, mutex := false }

/-- A complete run on the triangle with one worker. -/
def sched_triangle : List Event :=
  schedule [(.main_thread, 1), (.worker 0 0, 3), (.main_thread, 3), (.worker 0 0, 46),
    (.main_thread, 3)]

/-- The state at the end of `sched_triangle`. -/
def s_triangle : State :=
  { tp := tp_finished 1, visited := [.DONE, .DONE, .DONE], sum := 6, graph_mutex := false,
    main_pc := .finished, threads := [.exited], next_id := 3,
    created := [⟨0, 0, true⟩, ⟨1, 1, true⟩, ⟨2, 2, true⟩], freed := [0, 1, 2] }

/-- A complete run on `g_disconnected` with one worker. -/
def sched_disconnected : List Event :=
  schedule [(.main_thread, 1), (.worker 0 0, 3), (.main_thread, 3), (.worker 0 0, 30),
    (.main_thread, 3)]

/-- The state at the end of `sched_disconnected`. -/
def s_disconnected : State :=
  { tp := tp_finished 1, visited := [.DONE, .DONE, .NOT_VISITED], sum := 7,
    graph_mutex := false, main_pc := .finished, threads := [.exited], next_id := 2,
    created := [⟨0, 0, true⟩, ⟨1, 1, true⟩], freed := [0, 1] }

/-- A complete run on `g_repeated` with one worker. -/
def sched_repeated : List Event :=
  schedule [(.main_thread, 1), (.worker 0 0, 3), (.main_thread, 3), (.worker 0 0, 33),
    (.main_thread, 3)]

/-- The state at the end of `sched_repeated`. -/
def s_repeated : State :=
  { tp := tp_finished 1, visited := [.DONE, .DONE, .NOT_VISITED], sum := 3,
    graph_mutex := false, main_pc := .finished, threads := [.exited], next_id := 2,
    created := [⟨0, 0, true⟩, ⟨1, 1, true⟩], freed := [0, 1] }

/-- A complete run on `g_overflow` with one worker. -/
def sched_overflow : List Event :=
  schedule [(.main_thread, 1), (.worker 0 0, 3), (.main_thread, 3), (.worker 0 0, 29),
    (.main_thread, 3)]

/-- The state at the end of `sched_overflow`. -/
def s_overflow : State :=
  { tp := tp_finished 1, visited := [.DONE, .DONE], sum := -2147483648,
    graph_mutex := false, main_pc := .finished, threads := [.exited], next_id := 2,
    created := [⟨0, 0, true⟩, ⟨1, 1, true⟩], freed := [0, 1] }

/-- The schedule of the lost wake-up: the only worker tests `started_working` before
`main` sets it, and enters `pthread_cond_wait` after `main` has broadcast. -/
def sched_lost_wakeup : List Event :=
  [.main_thread, .main_thread, .worker 0 0, .worker 0 0, .main_thread, .main_thread,
    .worker 0 0]

/-- The state at the end of `sched_lost_wakeup`. -/
def s_lost_wakeup : State :=
  { tp := { num_threads := 1, head := [⟨0, 0, true⟩], started_working := true,
            still_working := true, aux_wait_cnt := 1, mutex := false },
    visited := [.PROCESSING], sum := 0, graph_mutex := false, main_pc := .join 0,
    threads := [.dq_blocked_start], next_id := 1, created := [⟨0, 0, true⟩], freed := [] }

/-- A run on the single node up to the end of the first `dequeue_task`. -/
def sched_take : List Event :=
  schedule [(.main_thread, 4), (.worker 0 0, 3)]

/-- The state at the end of `sched_take`: the worker is about to take the root task. -/
def s_take : State :=
  { tp := { num_threads := 1, head := [⟨0, 0, true⟩], started_working := true,
            still_working := true, aux_wait_cnt := 0, mutex := true },
    visited := [.PROCESSING], sum := 0, graph_mutex := false, main_pc := .join 0,
    threads := [.dq_take], next_id := 1, created := [⟨0, 0, true⟩], freed := [] }

/-- A run on the single node with two workers up to the point where worker 0 is about
to declare quiescence: worker 1 waits, worker 0 has run the only task. -/
def sched_detect : List Event :=
  schedule [(.main_thread, 4), (.worker 0 0, 4), (.worker 1 0, 3), (.worker 0 0, 8)]

/-- The state at the end of `sched_detect`. -/
def s_detect : State :=
  { tp := { num_threads := 2, head := [], started_working := true, still_working := true,
            aux_wait_cnt := 1, mutex := true },
    visited := [.DONE], sum := 7, graph_mutex := false, main_pc := .join 0,
    threads := [.dq_check_queue, .dq_blocked_work], next_id := 1,
    created := [⟨0, 0, true⟩], freed := [0] }

/-- The state one step of worker 0 after `s_detect`. -/
def s_detected : State :=
  { tp := { num_threads := 2, head := [], started_working := true, still_working := false,
            aux_wait_cnt := 1, mutex := true },
    visited := [.DONE], sum := 7, graph_mutex := false, main_pc := .join 0,
    threads := [.dq_check_queue, .dq_woken_work], next_id := 1,
    created := [⟨0, 0, true⟩], freed := [0] }

/-- A run on the single node up to the neighbour loop of `process_node`. -/
def sched_scan : List Event :=
  schedule [(.main_thread, 4), (.worker 0 0, 7)]

/-- The state at the end of `sched_scan`: the task for node 0 is running, past line 39. -/
def s_scan : State :=
  { tp := { num_threads := 1, head := [], started_working := true, still_working := true,
            aux_wait_cnt := 0, mutex := false },
    visited := [.DONE], sum := 7, graph_mutex := true, main_pc := .join 0,
    threads := [.pn_loop ⟨0, 0, true⟩ 0], next_id := 1, created := [⟨0, 0, true⟩],
    freed := [] }

/-- The graph without nodes. -/
def g_empty : os_graph_t := ⟨[]⟩

/-- An operation on the task list. -/
inductive QueueOp where
  | enqueue (t : os_task_t)
  | dequeue

/-- Run a sequence of `enqueue_task` and `dequeue_task` calls on a pool; the first
component lists the tasks the dequeues returned, in the order of the calls. -/
def run_queue_ops : os_threadpool_t → List QueueOp → List os_task_t × os_threadpool_t
  | tp, [] => ([], tp)
  | tp, .enqueue t :: ops => run_queue_ops (enqueue_task tp t) ops
  | tp, .dequeue :: ops =>
    match (dequeue_task_take tp).1 with
    | some t =>
      (t :: (run_queue_ops (dequeue_task_take tp).2 ops).1,
        (run_queue_ops (dequeue_task_take tp).2 ops).2)
    | none => run_queue_ops (dequeue_task_take tp).2 ops

/-- The tasks a sequence of operations enqueues, in order. -/
def enqueued : List QueueOp → List os_task_t
  | [] => []
  | .enqueue t :: ops => t :: enqueued ops
  | .dequeue :: ops => enqueued ops

instance (g : os_graph_t) : Decidable (valid_graph g) := by
  unfold valid_graph; infer_instance

/-! ## Theorems -/

/-! ### Counting over the worker threads -/

@[simp] theorem tally_nil (f : WorkerPc → Nat) : tally f [] = 0 := rfl

@[simp] theorem tally_cons (f : WorkerPc → Nat) (pc : WorkerPc) (l : List WorkerPc) :
    tally f (pc :: l) = f pc + tally f l := rfl

@[simp] theorem tally_append (f : WorkerPc → Nat) (l1 l2 : List WorkerPc) :
    tally f (l1 ++ l2) = tally f l1 + tally f l2 := by
  induction l1 with
  | nil => simp
  | cons a l ih => simp [ih, Nat.add_assoc]

theorem tally_replicate (f : WorkerPc → Nat) (n : Nat) (pc : WorkerPc) :
    tally f (List.replicate n pc) = n * f pc := by
  induction n with
  | zero => simp
  | succ n ih => simp [List.replicate_succ, ih, Nat.succ_mul, Nat.add_comm]

theorem tally_le_length (f : WorkerPc → Nat) (hf : ∀ pc, f pc ≤ 1) (l : List WorkerPc) :
    tally f l ≤ l.length := by
  induction l with
  | nil => simp
  | cons a l ih => have := hf a; simp; omega

theorem tally_le_tally (f k : WorkerPc → Nat) (hf : ∀ pc, f pc ≤ k pc) (l : List WorkerPc) :
    tally f l ≤ tally k l := by
  induction l with
  | nil => simp
  | cons a l ih => have := hf a; simp; omega

theorem tally_add_le_length (f k : WorkerPc → Nat) (hf : ∀ pc, f pc + k pc ≤ 1)
    (l : List WorkerPc) : tally f l + tally k l ≤ l.length := by
  induction l with
  | nil => simp
  | cons a l ih => have := hf a; simp; omega

theorem tally_eq_zero (f : WorkerPc → Nat) (l : List WorkerPc) (h : tally f l = 0)
    (pc : WorkerPc) (hpc : pc ∈ l) : f pc = 0 := by
  induction l with
  | nil => simp at hpc
  | cons a l ih =>
    simp at h hpc
    rcases hpc with rfl | hpc
    · exact h.1
    · exact ih h.2 hpc

theorem tally_pos_of_mem (f : WorkerPc → Nat) (l : List WorkerPc) (pc : WorkerPc)
    (hpc : pc ∈ l) (h : 0 < f pc) : 0 < tally f l := by
  rcases Nat.eq_zero_or_pos (tally f l) with h0 | h0
  · have := tally_eq_zero f l h0 pc hpc; omega
  · exact h0

theorem exists_of_tally_pos (f : WorkerPc → Nat) (l : List WorkerPc) (h : 0 < tally f l) :
    ∃ pc, pc ∈ l ∧ 0 < f pc := by
  induction l with
  | nil => simp at h
  | cons a l ih =>
    simp at h
    rcases Nat.eq_zero_or_pos (f a) with h0 | h0
    · have : 0 < tally f l := by omega
      obtain ⟨pc, hm, hp⟩ := ih this
      exact ⟨pc, List.mem_cons_of_mem _ hm, hp⟩
    · exact ⟨a, List.mem_cons_self _ _, h0⟩

theorem tally_eq_length (f : WorkerPc → Nat) (hf : ∀ pc, f pc ≤ 1) (l : List WorkerPc)
    (h : tally f l = l.length) (pc : WorkerPc) (hpc : pc ∈ l) : f pc = 1 := by
  induction l with
  | nil => simp at hpc
  | cons a l ih =>
    have h1 := hf a
    have h2 := tally_le_length f hf l
    simp at h hpc
    rcases hpc with rfl | hpc
    · omega
    · exact ih (by omega) hpc

@[simp] theorem wake_mask_nil (bs : List Bool) : wake_mask bs [] = [] := by
  cases bs <;> rfl

@[simp] theorem wake_mask_nil_left (l : List WorkerPc) : wake_mask [] l = l := by
  cases l <;> rfl

@[simp] theorem wake_mask_length (bs : List Bool) (l : List WorkerPc) :
    (wake_mask bs l).length = l.length := by
  induction l generalizing bs with
  | nil => simp
  | cons a l ih => cases bs <;> simp [wake_mask, ih]

theorem tally_wake_mask (f : WorkerPc → Nat) (hf : ∀ pc, f (wake pc) = f pc)
    (bs : List Bool) (l : List WorkerPc) : tally f (wake_mask bs l) = tally f l := by
  induction l generalizing bs with
  | nil => simp
  | cons a l ih =>
    cases bs with
    | nil => simp
    | cons b bs => cases b <;> simp [wake_mask, ih, hf]

theorem wake_mask_append (bs : List Bool) (l1 l2 : List WorkerPc) :
    wake_mask bs (l1 ++ l2) =
      wake_mask (bs.take l1.length) l1 ++ wake_mask (bs.drop l1.length) l2 := by
  induction l1 generalizing bs with
  | nil => simp
  | cons a l ih =>
    cases bs with
    | nil => simp
    | cons b bs => simp [wake_mask, ih]

theorem wake_of_not_blocked (pc : WorkerPc) (h : is_blocked pc = false) : wake pc = pc := by
  cases pc <;> simp_all [is_blocked, wake]

theorem wake_mask_cons_not_blocked (bs : List Bool) (pc : WorkerPc) (l : List WorkerPc)
    (h : is_blocked pc = false) : wake_mask bs (pc :: l) = pc :: wake_mask bs.tail l := by
  cases bs with
  | nil => simp
  | cons b bs => cases b <;> simp [wake_mask, wake_of_not_blocked pc h]

theorem broadcast_eq_wake_mask (l : List WorkerPc) :
    pthread_cond_broadcast l = wake_mask (List.replicate l.length true) l := by
  induction l with
  | nil => simp [pthread_cond_broadcast]
  | cons a l ih =>
    simp only [pthread_cond_broadcast] at ih
    simp [pthread_cond_broadcast, List.replicate_succ, wake_mask, ih]

theorem set_wake_eq_wake_mask (l : List WorkerPc) (w : Nat) (pc : WorkerPc)
    (h : l[w]? = some pc) : ∃ bs, l.set w (wake pc) = wake_mask bs l := by
  induction l generalizing w with
  | nil => simp at h
  | cons a l ih =>
    cases w with
    | zero =>
      simp at h
      subst h
      exact ⟨[true], by simp [wake_mask]⟩
    | succ w =>
      simp at h
      obtain ⟨bs, hbs⟩ := ih w h
      exact ⟨false :: bs, by simp [wake_mask, hbs]⟩

theorem signal_eq_wake_mask (l ths : List WorkerPc) (pick : Nat)
    (h : pthread_cond_signal l pick = some ths) : ∃ bs, ths = wake_mask bs l := by
  unfold pthread_cond_signal at h
  split at h
  · exact ⟨[], by simp_all⟩
  · split at h
    · rename_i pc hpc
      split at h
      · simp at h
        obtain ⟨bs, hbs⟩ := set_wake_eq_wake_mask l pick pc hpc
        exact ⟨bs, by rw [← h, hbs]⟩
      · simp at h
    · simp at h

theorem split_at (l : List WorkerPc) (w : Nat) (pc : WorkerPc) (h : l[w]? = some pc) :
    l = l.take w ++ pc :: l.drop (w + 1) ∧ (l.take w).length = w := by
  induction l generalizing w with
  | nil => simp at h
  | cons a l ih =>
    cases w with
    | zero => simp at h; simp [h]
    | succ w =>
      simp at h
      obtain ⟨h1, h2⟩ := ih w h
      refine ⟨?_, by simp at h2 ⊢; exact h2⟩
      simp
      exact h1

theorem set_append_cons (pre post : List WorkerPc) (pc pc1 : WorkerPc) :
    (pre ++ pc :: post).set pre.length pc1 = pre ++ pc1 :: post := by
  induction pre with
  | nil => simp
  | cons a l ih => simp [ih]

theorem getElem?_append_cons (pre post : List WorkerPc) (pc : WorkerPc) :
    (pre ++ pc :: post)[pre.length]? = some pc := by
  induction pre with
  | nil => simp
  | cons a l ih => simpa using ih

theorem blocked_le_one (pc : WorkerPc) : blocked pc ≤ 1 := by
  cases pc <;> simp [blocked]

theorem blocked_eq_zero_of_not_blocked (pc : WorkerPc) (h : is_blocked pc = false) :
    blocked pc = 0 := by
  cases pc <;> simp_all [is_blocked, blocked]

theorem signal_blocked (l ths : List WorkerPc) (pick : Nat)
    (h : pthread_cond_signal l pick = some ths) :
    tally blocked l ≤ tally blocked ths + 1 := by
  unfold pthread_cond_signal at h
  split at h
  · simp at h; subst h; omega
  · split at h
    · rename_i pc hpc
      split at h
      · simp at h
        subst h
        obtain ⟨h1, h2⟩ := split_at l pick pc hpc
        have h3 := set_append_cons (l.take pick) (l.drop (pick + 1)) pc (wake pc)
        rw [h2, ← h1] at h3
        rw [h3]
        have h4 := blocked_le_one pc
        conv => lhs; rw [h1]
        simp
        omega
      · simp at h
    · simp at h

/-! ### The steps of the machine, case by case -/

theorem wake_mask_set_mid (bs : List Bool) (pre post : List WorkerPc) (pc pc1 : WorkerPc) :
    (wake_mask bs (pre ++ pc :: post)).set pre.length pc1 =
      wake_mask (bs.take pre.length) pre ++ pc1 ::
        wake_mask (bs.drop (pre.length + 1)) post := by
  induction pre generalizing bs with
  | nil =>
    cases bs with
    | nil => simp
    | cons b bs => simp [wake_mask]
  | cons a l ih =>
    cases bs with
    | nil => simp
    | cons b bs => simp [wake_mask, ih]

theorem main_sound (g : os_graph_t) (s s1 : State) (h : main s = .ok s1) :
    Step g false s s1 := by
  unfold main at h
  split at h
  · rename_i hpc
    split at h
    · simp at h; subst h; exact Step.claim_root s hpc (by assumption)
    · simp at h
  · rename_i t hpc
    split at h
    · simp at h
    · rename_i hm
      simp at h; subst h; exact Step.enqueue_root s t hpc (by simpa using hm)
  · rename_i hpc
    simp at h; subst h; exact Step.set_started s hpc
  · rename_i hpc
    simp at h; subst h
    rw [broadcast_eq_wake_mask]
    exact Step.broadcast s hpc
  · rename_i i hpc
    unfold wait_for_completion at h
    split at h
    · rename_i hi
      split at h
      · rename_i hex
        simp at h; subst h; exact Step.join s i hpc hi hex
      · simp at h
    · rename_i hi
      simp at h; subst h; exact Step.join_end s i hpc hi
  · rename_i hpc
    simp at h; subst h; exact Step.destroy s hpc
  · simp at h

theorem worker_sound (g : os_graph_t) (s s1 : State) (w pick : Nat) (pc : WorkerPc)
    (hw : s.threads[w]? = some pc) (h : thread_loop_function g s w pick pc = .ok s1) :
    Step g false s s1 := by
  obtain ⟨hsplit, hlen⟩ := split_at s.threads w pc hw
  generalize hpre : s.threads.take w = pre at hsplit hlen
  generalize hpost : s.threads.drop (w + 1) = post at hsplit
  subst hlen
  have hset : ∀ pc1, s.threads.set pre.length pc1 = pre ++ pc1 :: post := by
    intro pc1; rw [hsplit]; exact set_append_cons pre post pc pc1
  cases pc with
  | dq_lock =>
    simp only [thread_loop_function, dequeue_task] at h
    split at h
    · simp at h
    · rename_i hm
      simp only [set_pc, hset, Res.ok.injEq] at h; subst h
      exact Step.dq_lock s pre post (by simpa using hm) hsplit
  | dq_check_started =>
    simp only [thread_loop_function, dequeue_task] at h
    split at h
    · rename_i hst
      simp only [set_pc, hset, Res.ok.injEq] at h; subst h
      exact Step.dq_not_started s pre post (by simpa using hst) hsplit
    · rename_i hst
      simp only [set_pc, hset, Res.ok.injEq] at h; subst h
      exact Step.dq_started s pre post (by simpa using hst) hsplit
  | dq_wait_start =>
    simp only [thread_loop_function, dequeue_task, set_pc, hset, Res.ok.injEq] at h; subst h
    exact Step.dq_wait_start s pre post hsplit
  | dq_blocked_start => simp [thread_loop_function] at h
  | dq_woken_start =>
    simp only [thread_loop_function, dequeue_task] at h
    split at h
    · simp at h
    · rename_i hm
      simp only [set_pc, hset, Res.ok.injEq] at h; subst h
      exact Step.dq_woken_start s pre post (by simpa using hm) hsplit
  | dq_check_queue =>
    simp only [thread_loop_function, dequeue_task] at h
    split at h
    · rename_i hc
      simp [queue_is_empty, list_empty] at hc
      split at h
      · rename_i hcnt
        simp only [set_pc, Res.ok.injEq] at h; subst h
        have hlen : s.threads.length = pre.length + (post.length + 1) := by
          rw [hsplit]; simp
        have e1 : (pthread_cond_broadcast s.threads).set pre.length .dq_check_queue =
            wake_mask (List.replicate pre.length true) pre ++ .dq_check_queue ::
              wake_mask (List.replicate post.length true) post := by
          rw [broadcast_eq_wake_mask]
          conv => lhs; arg 1; arg 2; rw [hsplit]
          rw [wake_mask_set_mid, hlen, List.take_replicate, List.drop_replicate]
          have h1 : min pre.length (pre.length + (post.length + 1)) = pre.length := by omega
          have h2 : pre.length + (post.length + 1) - (pre.length + 1) = post.length := by omega
          rw [h1, h2]
        simp only [e1]
        exact Step.dq_detect s pre post hc.1 hc.2 (by simpa using hcnt) hsplit
      · rename_i hcnt
        simp only [set_pc, hset, Res.ok.injEq] at h; subst h
        exact Step.dq_wait_work s pre post hc.1 hc.2 (by simpa using hcnt) hsplit
    · rename_i hc
      simp only [set_pc, hset, Res.ok.injEq] at h; subst h
      refine Step.dq_leave_loop s pre post ?_ hsplit
      simp [queue_is_empty, list_empty] at hc
      by_cases hq : s.tp.head = []
      · exact Or.inr (hc hq)
      · exact Or.inl hq
  | dq_blocked_work => simp [thread_loop_function] at h
  | dq_woken_work =>
    simp only [thread_loop_function, dequeue_task] at h
    split at h
    · simp at h
    · rename_i hm
      simp only [set_pc, hset, Res.ok.injEq] at h; subst h
      exact Step.dq_woken_work s pre post (by simpa using hm) hsplit
  | dq_take =>
    simp only [thread_loop_function, dequeue_task, set_pc, hset, Res.ok.injEq] at h; subst h
    cases hq : s.tp.head with
    | nil =>
      have := @Step.dq_take_null g s pre post hq hsplit
      simpa [dequeue_task_take, queue_is_empty, list_empty, hq] using this
    | cons t rest =>
      have := @Step.dq_take_task g s pre post t rest hq hsplit
      simpa [dequeue_task_take, queue_is_empty, list_empty, hq, list_entry_next,
        list_del_next] using this
  | loop_got t =>
    cases t with
    | none =>
      simp only [thread_loop_function, set_pc, hset, Res.ok.injEq] at h; subst h
      exact Step.loop_exit s pre post hsplit
    | some t =>
      simp only [thread_loop_function, set_pc, hset, Res.ok.injEq] at h; subst h
      exact Step.loop_run s pre post t hsplit
  | pn_lock t =>
    simp only [thread_loop_function, process_node] at h
    split at h
    · simp at h
    · rename_i hm
      simp only [set_pc, hset, Res.ok.injEq] at h; subst h
      exact Step.pn_lock s pre post t (by simpa using hm) hsplit
  | pn_visit t =>
    simp only [thread_loop_function, process_node] at h
    split at h
    · simp at h
    · rename_i node hn
      split at h
      · rename_i hb
        simp only [set_pc, hset, Res.ok.injEq] at h; subst h
        exact Step.pn_visit s pre post t node hn hb hsplit
      · simp at h
  | pn_loop t i =>
    simp only [thread_loop_function, process_node] at h
    split at h
    · simp at h
    · rename_i node hn
      split at h
      · rename_i hi
        split at h
        · simp at h
        · rename_i j hj
          split at h
          · simp at h
          · rename_i v hv
            split at h
            · rename_i hnv
              subst hnv
              simp only [set_pc, hset, Res.ok.injEq] at h; subst h
              exact Step.pn_claim s pre post t i node j hn hj hv hsplit
            · rename_i hnv
              simp only [set_pc, hset, Res.ok.injEq] at h; subst h
              exact Step.pn_skip s pre post t i node j v hn hj hv hnv hsplit
      · rename_i hi
        simp only [set_pc, hset, Res.ok.injEq] at h; subst h
        exact Step.pn_loop_end s pre post t i node hn hi hsplit
  | pn_enqueue t i nt =>
    simp only [thread_loop_function, process_node] at h
    split at h
    · simp at h
    · rename_i hm
      simp only [set_pc, hset, Res.ok.injEq] at h; subst h
      exact Step.pn_enqueue s pre post t i nt (by simpa using hm) hsplit
  | pn_signal t i =>
    simp only [thread_loop_function, process_node] at h
    split at h
    · simp at h
    · rename_i ths hsig
      obtain ⟨bs, hbs⟩ := signal_eq_wake_mask _ _ _ hsig
      have hone := signal_blocked _ _ _ hsig
      simp only [set_pc, Res.ok.injEq] at h; subst h
      have e1 : ths.set pre.length (.pn_loop t (i + 1)) =
          wake_mask (bs.take pre.length) pre ++ .pn_loop t (i + 1) ::
            wake_mask (bs.drop (pre.length + 1)) post := by
        rw [hbs, hsplit]
        exact wake_mask_set_mid _ pre post _ _
      have e2 : ths = wake_mask (bs.take pre.length) pre ++ .pn_signal t i ::
            wake_mask (bs.drop (pre.length + 1)) post := by
        rw [hbs]
        conv => lhs; arg 2; rw [hsplit]
        rw [wake_mask_append, wake_mask_cons_not_blocked _ _ _ (by rfl), List.tail_drop]
      simp only [e1]
      refine Step.pn_signal s pre post _ _ t i ?_ hsplit
      rw [e2] at hone
      conv at hone => lhs; rw [hsplit]
      simpa [blocked] using hone
  | pn_unlock t =>
    simp only [thread_loop_function, process_node, set_pc, hset, Res.ok.injEq] at h; subst h
    exact Step.pn_unlock s pre post t hsplit
  | loop_destroy t =>
    simp only [thread_loop_function, set_pc, hset, Res.ok.injEq] at h; subst h
    exact Step.loop_destroy s pre post t hsplit
  | exited => simp [thread_loop_function] at h

/-- Every step of the machine is one of the listed steps. -/
theorem step_sound (g : os_graph_t) (s s1 : State) (e : Event) (h : step g s e = .ok s1) :
    Step g e.is_spurious s s1 := by
  cases e with
  | main_thread => exact main_sound g s s1 h
  | worker w pick =>
    simp only [step] at h
    split at h
    · rename_i pc hpc
      exact worker_sound g s s1 w pick pc hpc h
    · simp at h
  | spurious_wakeup w =>
    simp only [step] at h
    split at h
    · rename_i pc hpc
      split at h
      · simp only [set_pc, Res.ok.injEq] at h; subst h
        obtain ⟨bs, hbs⟩ := set_wake_eq_wake_mask s.threads w pc hpc
        rw [hbs]
        exact Step.spurious s bs
      · simp at h
    · simp at h

/-- Induction over the reachable states. -/
theorem reachable_induction (g : os_graph_t) (n : Nat) (P : State → Prop)
    (h0 : P (init g n)) (hstep : ∀ b s s1, P s → Step g b s s1 → P s1) :
    ∀ s, Reachable g n s → P s := by
  intro s ⟨es, hes⟩
  have key : ∀ (es : List Event) (s0 : State), P s0 → exec g s0 es = .ok s → P s := by
    intro es
    induction es with
    | nil => intro s0 h0 h; simp [exec] at h; subst h; exact h0
    | cons e es ih =>
      intro s0 h0 h
      simp only [exec] at h
      split at h
      · rename_i s1 hs1
        exact ih s1 (hstep _ s0 s1 h0 (step_sound g s0 s1 e hs1)) h
      · rename_i hr
        exact absurd h (hr s)
  exact key es _ h0 hes

/-! ### The pool protocol -/

@[simp] theorem main_started_claim_root : main_started .claim_root = false := rfl

@[simp] theorem main_started_enqueue_root (t : os_task_t) :
    main_started (.enqueue_root t) = false := rfl

@[simp] theorem main_started_set_started : main_started .set_started = false := rfl

@[simp] theorem main_started_broadcast : main_started .broadcast = true := rfl

@[simp] theorem main_started_join (i : Nat) : main_started (.join i) = true := rfl

@[simp] theorem main_started_destroy : main_started .destroy = true := rfl

@[simp] theorem main_started_finished : main_started .finished = true := rfl

@[simp] theorem waiting_wake (pc : WorkerPc) : waiting (wake pc) = waiting pc := by
  cases pc <;> rfl

@[simp] theorem holds_mutex_wake (pc : WorkerPc) : holds_mutex (wake pc) = holds_mutex pc := by
  cases pc <;> rfl

@[simp] theorem holds_graph_wake (pc : WorkerPc) : holds_graph (wake pc) = holds_graph pc := by
  cases pc <;> rfl

@[simp] theorem running_wake (pc : WorkerPc) : running (wake pc) = running pc := by
  cases pc <;> rfl

@[simp] theorem past_start_wake (pc : WorkerPc) : past_start (wake pc) = past_start pc := by
  cases pc <;> rfl

@[simp] theorem at_take_wake (pc : WorkerPc) : at_take (wake pc) = at_take pc := by
  cases pc <;> rfl

@[simp] theorem got_null_wake (pc : WorkerPc) : got_null (wake pc) = got_null pc := by
  cases pc <;> rfl

@[simp] theorem has_exited_wake (pc : WorkerPc) : has_exited (wake pc) = has_exited pc := by
  cases pc <;> rfl

@[simp] theorem tally_waiting_wake (bs : List Bool) (l : List WorkerPc) :
    tally waiting (wake_mask bs l) = tally waiting l := tally_wake_mask _ waiting_wake bs l

@[simp] theorem tally_holds_mutex_wake (bs : List Bool) (l : List WorkerPc) :
    tally holds_mutex (wake_mask bs l) = tally holds_mutex l := tally_wake_mask _ holds_mutex_wake bs l

@[simp] theorem tally_holds_graph_wake (bs : List Bool) (l : List WorkerPc) :
    tally holds_graph (wake_mask bs l) = tally holds_graph l := tally_wake_mask _ holds_graph_wake bs l

@[simp] theorem tally_running_wake (bs : List Bool) (l : List WorkerPc) :
    tally running (wake_mask bs l) = tally running l := tally_wake_mask _ running_wake bs l

@[simp] theorem tally_past_start_wake (bs : List Bool) (l : List WorkerPc) :
    tally past_start (wake_mask bs l) = tally past_start l := tally_wake_mask _ past_start_wake bs l

@[simp] theorem tally_at_take_wake (bs : List Bool) (l : List WorkerPc) :
    tally at_take (wake_mask bs l) = tally at_take l := tally_wake_mask _ at_take_wake bs l

@[simp] theorem tally_got_null_wake (bs : List Bool) (l : List WorkerPc) :
    tally got_null (wake_mask bs l) = tally got_null l := tally_wake_mask _ got_null_wake bs l

@[simp] theorem tally_has_exited_wake (bs : List Bool) (l : List WorkerPc) :
    tally has_exited (wake_mask bs l) = tally has_exited l := tally_wake_mask _ has_exited_wake bs l

theorem waiting_running_le (pc : WorkerPc) : running pc + waiting pc ≤ 1 := by
  cases pc with
  | loop_got t => cases t <;> simp [running, waiting]
  | _ => simp [running, waiting]

theorem waiting_le_one (pc : WorkerPc) : waiting pc ≤ 1 := by
  cases pc <;> simp [waiting]

theorem at_take_le (pc : WorkerPc) : at_take pc ≤ holds_mutex pc := by
  cases pc <;> simp [at_take, holds_mutex]

theorem getElem?_wake_mask_exited (bs : List Bool) (l : List WorkerPc) (k : Nat)
    (h : l[k]? = some .exited) : (wake_mask bs l)[k]? = some .exited := by
  induction l generalizing bs k with
  | nil => simp at h
  | cons a l ih =>
    cases bs with
    | nil => simpa using h
    | cons b bs =>
      cases k with
      | zero =>
        simp at h
        subst h
        cases b <;> simp [wake_mask, wake]
      | succ k =>
        simp at h
        simpa [wake_mask] using ih bs k h

theorem exited_frame (b1 b2 : List Bool) (pre post : List WorkerPc) (pc pc1 : WorkerPc)
    (k : Nat) (h : (pre ++ pc :: post)[k]? = some .exited) (hpc : pc ≠ .exited) :
    (wake_mask b1 pre ++ pc1 :: wake_mask b2 post)[k]? = some .exited := by
  rcases Nat.lt_trichotomy k pre.length with hlt | heq | hgt
  · rw [List.getElem?_append_left hlt] at h
    rw [List.getElem?_append_left (by simpa using hlt)]
    exact getElem?_wake_mask_exited b1 pre k h
  · subst heq
    rw [getElem?_append_cons] at h
    simp at h
    exact absurd h hpc
  · rw [List.getElem?_append_right (by omega)] at h
    rw [List.getElem?_append_right (by simp; omega)]
    obtain ⟨m, hm⟩ : ∃ m, k - pre.length = m + 1 := ⟨k - pre.length - 1, by omega⟩
    simp only [wake_mask_length]
    rw [hm] at h ⊢
    simp at h ⊢
    exact getElem?_wake_mask_exited b2 post m h

theorem exited_frame_plain (pre post : List WorkerPc) (pc pc1 : WorkerPc)
    (k : Nat) (h : (pre ++ pc :: post)[k]? = some .exited) (hpc : pc ≠ .exited) :
    (pre ++ pc1 :: post)[k]? = some .exited := by
  simpa using exited_frame [] [] pre post pc pc1 k h hpc

theorem len_step (g : os_graph_t) (s s1 : State) {b : Bool} (h : Step g b s s1) :
    s1.threads.length = s.threads.length ∧ s1.tp.num_threads = s.tp.num_threads := by
  cases h <;> simp_all [enqueue_task, destroy_threadpool]

theorem cnt_step (g : os_graph_t) (s s1 : State) {b : Bool} (h : Step g b s s1)
    (hi : tally waiting s.threads = s.tp.aux_wait_cnt) :
    tally waiting s1.threads = s1.tp.aux_wait_cnt := by
  cases h <;> simp_all [waiting, enqueue_task, destroy_threadpool] <;> omega

theorem mtx_step (g : os_graph_t) (s s1 : State) {b : Bool} (h : Step g b s s1)
    (hi : tally holds_mutex s.threads = if s.tp.mutex then 1 else 0) :
    tally holds_mutex s1.threads = if s1.tp.mutex then 1 else 0 := by
  cases h <;> simp_all [holds_mutex, enqueue_task, destroy_threadpool] <;>
    first | omega | (split at hi <;> omega)

theorem gmtx_step (g : os_graph_t) (s s1 : State) {b : Bool} (h : Step g b s s1)
    (hi : tally holds_graph s.threads = if s.graph_mutex then 1 else 0) :
    tally holds_graph s1.threads = if s1.graph_mutex then 1 else 0 := by
  cases h <;> simp_all [holds_graph, enqueue_task, destroy_threadpool] <;>
    first | omega | (split at hi <;> omega)

theorem started_step (g : os_graph_t) (s s1 : State) {b : Bool} (h : Step g b s s1)
    (hi : s.tp.started_working = main_started s.main_pc) :
    s1.tp.started_working = main_started s1.main_pc := by
  cases h <;> simp_all [enqueue_task, destroy_threadpool]

theorem pre_step (g : os_graph_t) (s s1 : State) {b : Bool} (h : Step g b s s1)
    (hi : s.tp.started_working = false → tally past_start s.threads = 0) :
    s1.tp.started_working = false → tally past_start s1.threads = 0 := by
  cases h <;> simp_all [past_start, enqueue_task, destroy_threadpool]

theorem mem_eq_exited (l : List WorkerPc) (h : ∀ k, k < l.length → l[k]? = some .exited)
    (pc : WorkerPc) (hpc : pc ∈ l) : pc = .exited := by
  obtain ⟨k, hk, rfl⟩ := List.getElem_of_mem hpc
  have := h k hk
  rw [List.getElem?_eq_getElem hk] at this
  exact Option.some.inj this

theorem tally_all_exited (f : WorkerPc → Nat) (hf : f .exited = 0) (l : List WorkerPc)
    (h : ∀ k, k < l.length → l[k]? = some .exited) : tally f l = 0 := by
  rcases Nat.eq_zero_or_pos (tally f l) with h0 | h0
  · exact h0
  · obtain ⟨pc, hm, hp⟩ := exists_of_tally_pos f l h0
    rw [mem_eq_exited l h pc hm] at hp
    omega

theorem quiet_step (g : os_graph_t) (n : Nat) (s s1 : State) {b : Bool} (h : Step g b s s1)
    (hi : PoolInv n s) :
    s1.tp.still_working = false →
      s1.tp.started_working = true ∧ s1.tp.head = [] ∧ tally running s1.threads = 0 := by
  obtain ⟨hlen, hnth, hcnt, -, -, hst, hpre, hq, -, -, -⟩ := hi
  cases h
  case dq_detect pre post hq0 hsw hc hth =>
    have h1 := tally_add_le_length running waiting waiting_running_le pre
    have h2 := tally_add_le_length running waiting waiting_running_le post
    intro _
    rw [hth] at hlen hcnt hpre
    simp [waiting, past_start] at hlen hcnt hpre
    simp [running]
    refine ⟨?_, hq0, ?_, ?_⟩
    · exact hpre
    · omega
    · omega
  all_goals simp_all [running, enqueue_task, destroy_threadpool]

theorem take_step (g : os_graph_t) (n : Nat) (s s1 : State) {b : Bool} (h : Step g b s s1)
    (hi : PoolInv n s) :
    0 < tally at_take s1.threads → s1.tp.head ≠ [] ∨ s1.tp.still_working = false := by
  obtain ⟨hlen, -, -, hmtx, -, -, -, -, htk, -, hj⟩ := hi
  cases h
  case dq_take_task pre post t rest hq0 hth =>
    have h1 := tally_le_tally at_take holds_mutex at_take_le pre
    have h2 := tally_le_tally at_take holds_mutex at_take_le post
    rw [hth] at hmtx
    simp [at_take, holds_mutex] at hmtx ⊢
    intro h3
    split at hmtx <;> omega
  case destroy hpc =>
    intro h3
    have := tally_all_exited at_take rfl s.threads
      (fun k hk => hj k (by simp [hpc, joined, hlen] at hk ⊢; exact hk))
    simp [destroy_threadpool] at h3
    omega
  all_goals simp_all [at_take, enqueue_task, list_add_tail]

theorem null_step (g : os_graph_t) (n : Nat) (s s1 : State) {b : Bool} (h : Step g b s s1)
    (hi : PoolInv n s) :
    0 < tally got_null s1.threads → s1.tp.still_working = false := by
  obtain ⟨-, -, -, -, -, -, -, -, htk, hnl, -⟩ := hi
  cases h <;> simp_all [got_null, at_take, enqueue_task, destroy_threadpool]

theorem join_step (g : os_graph_t) (n : Nat) (s s1 : State) {b : Bool} (h : Step g b s s1)
    (hi : PoolInv n s) :
    ∀ k, k < joined n s1.main_pc → s1.threads[k]? = some .exited := by
  obtain ⟨-, hnth, -, -, -, -, -, -, -, -, hj⟩ := hi
  intro k hk
  cases h
  case join i hpc hi hex =>
    simp_all [joined]
    rcases Nat.lt_or_ge k i with h1 | h1
    · exact hj k h1
    · have : k = i := by omega
      subst this; exact hex
  case join_end i hpc hi =>
    simp_all [joined]
    exact hj k (by omega)
  case broadcast hpc => simp_all [joined]
  case spurious bs => exact getElem?_wake_mask_exited _ _ _ (hj k hk)
  case dq_detect pre post hq0 hsw hc hth =>
    have := hj k hk; rw [hth] at this
    exact exited_frame _ _ _ _ _ _ k this (by simp)
  case pn_signal pre post b1 b2 t i hone hth =>
    have := hj k hk; rw [hth] at this
    exact exited_frame _ _ _ _ _ _ k this (by simp)
  all_goals first
    | (rename_i hth; have := hj k hk; rw [hth] at this;
       exact exited_frame_plain _ _ _ _ k this (by simp))
    | simp_all [joined, destroy_threadpool]

theorem pool_init (g : os_graph_t) (n : Nat) : PoolInv n (init g n) := by
  constructor <;>
    simp [init, create_threadpool, tally_replicate, waiting, holds_mutex, holds_graph,
      past_start, running, at_take, got_null, joined]

theorem pool_step (g : os_graph_t) (n : Nat) (s s1 : State) (hi : PoolInv n s)
    {b : Bool} (h : Step g b s s1) : PoolInv n s1 where
  len := (len_step g s s1 h).1.trans hi.len
  nth := (len_step g s s1 h).2.trans hi.nth
  cnt := cnt_step g s s1 h hi.cnt
  mtx := mtx_step g s s1 h hi.mtx
  gmtx := gmtx_step g s s1 h hi.gmtx
  started := started_step g s s1 h hi.started
  pre := pre_step g s s1 h hi.pre
  quiet := quiet_step g n s s1 h hi
  take := take_step g n s s1 h hi
  null := null_step g n s s1 h hi
  join := join_step g n s s1 h hi

/-- The pool invariant holds in every reachable state. -/
theorem pool_inv (g : os_graph_t) (n : Nat) (s : State) (h : Reachable g n s) :
    PoolInv n s :=
  reachable_induction g n (PoolInv n) (pool_init g n)
    (fun _ s s1 hi hs => pool_step g n s s1 hi hs) s h

/-! ### Reachability in the graph and counting tasks -/

@[simp] theorem count_arg_nil (v : Nat) : count_arg v [] = 0 := rfl

@[simp] theorem count_arg_cons (v : Nat) (t : os_task_t) (l : List os_task_t) :
    count_arg v (t :: l) = (if t.argument = v then 1 else 0) + count_arg v l := rfl

@[simp] theorem count_arg_append (v : Nat) (l1 l2 : List os_task_t) :
    count_arg v (l1 ++ l2) = count_arg v l1 + count_arg v l2 := by
  induction l1 with
  | nil => simp
  | cons a l ih => simp [ih, Nat.add_assoc]

@[simp] theorem main_pending_claim_root (v : Nat) : main_pending v .claim_root = 0 := rfl

@[simp] theorem main_pending_enqueue_root (v : Nat) (t : os_task_t) :
    main_pending v (.enqueue_root t) = if t.argument = v then 1 else 0 := rfl

@[simp] theorem main_pending_set_started (v : Nat) : main_pending v .set_started = 0 := rfl

@[simp] theorem main_pending_broadcast (v : Nat) : main_pending v .broadcast = 0 := rfl

@[simp] theorem main_pending_join (v i : Nat) : main_pending v (.join i) = 0 := rfl

@[simp] theorem main_pending_destroy (v : Nat) : main_pending v .destroy = 0 := rfl

@[simp] theorem main_pending_finished (v : Nat) : main_pending v .finished = 0 := rfl

@[simp] theorem pending_at_wake (v : Nat) (pc : WorkerPc) :
    pending_at v (wake pc) = pending_at v pc := by
  cases pc <;> rfl

@[simp] theorem scanning_at_wake (v : Nat) (pc : WorkerPc) :
    scanning_at v (wake pc) = scanning_at v pc := by
  cases pc <;> rfl

@[simp] theorem scan_before_wake (u k : Nat) (pc : WorkerPc) :
    scan_before u k (wake pc) = scan_before u k pc := by
  cases pc <;> rfl

@[simp] theorem tally_pending_at_wake (v : Nat) (bs : List Bool) (l : List WorkerPc) :
    tally (pending_at v) (wake_mask bs l) = tally (pending_at v) l :=
  tally_wake_mask _ (pending_at_wake v) bs l

@[simp] theorem tally_scanning_at_wake (v : Nat) (bs : List Bool) (l : List WorkerPc) :
    tally (scanning_at v) (wake_mask bs l) = tally (scanning_at v) l :=
  tally_wake_mask _ (scanning_at_wake v) bs l

@[simp] theorem tally_scan_before_wake (u k : Nat) (bs : List Bool) (l : List WorkerPc) :
    tally (scan_before u k) (wake_mask bs l) = tally (scan_before u k) l :=
  tally_wake_mask _ (scan_before_wake u k) bs l

theorem pending_le_running (v : Nat) (pc : WorkerPc) : pending_at v pc ≤ running pc := by
  cases pc with
  | loop_got t => cases t <;> simp [pending_at, running]; split <;> omega
  | _ => simp [pending_at, running] <;> split <;> omega

theorem wrap_int_add (a b : Int) : wrap_int (wrap_int a + b) = wrap_int (a + b) := by
  simp only [wrap_int]; omega

theorem wrap_int_of_range (a : Int) (h1 : -2147483648 ≤ a) (h2 : a < 2147483648) :
    wrap_int a = a := by
  simp only [wrap_int]; omega

theorem done_sum_set_same (nodes : List os_node_t) (vis : List Visit) (k : Nat)
    (old new : Visit) (hk : vis[k]? = some old) (h1 : old ≠ .DONE) (h2 : new ≠ .DONE) :
    done_sum nodes (vis.set k new) = done_sum nodes vis := by
  induction nodes generalizing vis k with
  | nil => cases vis <;> simp [done_sum]
  | cons n ns ih =>
    cases vis with
    | nil => simp at hk
    | cons v vs =>
      cases k with
      | zero =>
        simp at hk; subst hk
        simp [done_sum, h1, h2]
      | succ k =>
        simp at hk
        simp [done_sum, ih vs k hk]

theorem done_sum_set_done (nodes : List os_node_t) (vis : List Visit) (k : Nat)
    (node : os_node_t) (old : Visit) (hn : nodes[k]? = some node) (hk : vis[k]? = some old)
    (h1 : old ≠ .DONE) :
    done_sum nodes (vis.set k .DONE) = done_sum nodes vis + node.info := by
  induction nodes generalizing vis k with
  | nil => simp at hn
  | cons n ns ih =>
    cases vis with
    | nil => simp at hk
    | cons v vs =>
      cases k with
      | zero =>
        simp at hk hn; subst hk hn
        simp [done_sum, h1]
        omega
      | succ k =>
        simp at hk hn
        simp [done_sum, ih vs k hn hk]
        omega

/-! ### The traversal -/

theorem vlen_step (g : os_graph_t) (s s1 : State) {b : Bool} (h : Step g b s s1) :
    s1.visited.length = s.visited.length := by
  cases h <;> simp [destroy_threadpool]

theorem processing_of_pending (g : os_graph_t) (s : State) (hi : GraphInv g s) (v : Nat)
    (h : 0 < count_arg v s.tp.head + main_pending v s.main_pc +
      tally (pending_at v) s.threads) : s.visited[v]? = some .PROCESSING := by
  have := hi.pend v
  by_cases hv : s.visited[v]? = some .PROCESSING
  · exact hv
  · rw [if_neg hv] at this; omega

theorem made_step (g : os_graph_t) (s s1 : State) {b : Bool} (h : Step g b s s1) (hi : GraphInv g s) :
    ∀ v, count_arg v s1.created =
      if s1.visited[v]? = some .PROCESSING ∨ s1.visited[v]? = some .DONE then 1 else 0 := by
  intro v
  have hv := hi.made v
  cases h
  case claim_root hpc hb =>
    have hf := hi.fresh hpc
    by_cases h0 : 0 = v
    · subst h0
      have : ∀ x, s.visited[0]? = some x → x = .NOT_VISITED := hf 0
      simp [create_task, List.getElem?_set, hb]
      rw [hv]
      split
      · rename_i h1
        rcases h1 with h1 | h1 <;> simpa using this _ h1
      · rfl
    · simp [create_task, List.getElem?_set, h0]
      exact hv
  case pn_visit pre post t node hn hb hth =>
    have hp := processing_of_pending g s hi t.argument (by rw [hth]; simp [pending_at])
    by_cases h0 : t.argument = v
    · subst h0
      simp [List.getElem?_set, hb]
      simpa [hp] using hv
    · simp [List.getElem?_set, h0]
      exact hv
  case pn_claim pre post t i node j hn hj hvis hth =>
    have hb : j < s.visited.length := by
      rcases Nat.lt_or_ge j s.visited.length with h1 | h1
      · exact h1
      · rw [List.getElem?_eq_none h1] at hvis; simp at hvis
    by_cases h0 : j = v
    · subst h0
      simp [create_task, List.getElem?_set, hb]
      simpa [hvis] using hv
    · simp [create_task, List.getElem?_set, h0]
      exact hv
  all_goals simpa [destroy_threadpool] using hv

theorem lt_of_getElem?_eq_some {α : Type} (l : List α) (k : Nat) (x : α)
    (h : l[k]? = some x) : k < l.length := by
  rcases Nat.lt_or_ge k l.length with h1 | h1
  · exact h1
  · rw [List.getElem?_eq_none h1] at h; simp at h

theorem done_of_scanning (g : os_graph_t) (s : State) (hi : GraphInv g s) (v : Nat)
    (h : 0 < tally (scanning_at v) s.threads) : s.visited[v]? = some .DONE :=
  hi.scan v h

theorem total_step (g : os_graph_t) (s s1 : State) {b : Bool} (h : Step g b s s1) (hi : GraphInv g s) :
    s1.sum = wrap_int (done_sum g.nodes s1.visited) := by
  have ht := hi.total
  cases h
  case claim_root hpc hb =>
    obtain ⟨x, hx⟩ : ∃ x, s.visited[0]? = some x := ⟨_, List.getElem?_eq_getElem hb⟩
    have hf := hi.fresh hpc 0 x hx
    subst hf
    simp only []
    rw [done_sum_set_same _ _ _ _ _ hx (by simp) (by simp)]
    exact ht
  case pn_visit pre post t node hn hb hth =>
    have hp := processing_of_pending g s hi t.argument (by rw [hth]; simp [pending_at])
    simp only []
    rw [done_sum_set_done _ _ _ _ _ hn hp (by simp), ht, wrap_int_add]
  case pn_claim pre post t i node j hn hj hvis hth =>
    simp only []
    rw [done_sum_set_same _ _ _ _ _ hvis (by simp) (by simp)]
    exact ht
  all_goals simpa [destroy_threadpool] using ht

theorem sound_step (g : os_graph_t) (s s1 : State) {b : Bool} (h : Step g b s s1) (hi : GraphInv g s) :
    ∀ v, s1.visited[v]? = some .PROCESSING ∨ s1.visited[v]? = some .DONE → Reach g v := by
  intro v
  have hs := hi.sound v
  cases h
  case claim_root hpc hb =>
    by_cases h0 : 0 = v
    · subst h0; intro _; exact Relation.ReflTransGen.refl
    · simpa [List.getElem?_set, h0] using hs
  case pn_visit pre post t node hn hb hth =>
    have hp := processing_of_pending g s hi t.argument (by rw [hth]; simp [pending_at])
    by_cases h0 : t.argument = v
    · subst h0; intro _; exact hs (Or.inl hp)
    · simpa [List.getElem?_set, h0] using hs
  case pn_claim pre post t i node j hn hj hvis hth =>
    have hd := done_of_scanning g s hi t.argument (by rw [hth]; simp [scanning_at])
    by_cases h0 : j = v
    · subst h0; intro _
      exact Relation.ReflTransGen.tail (hi.sound _ (Or.inr hd))
        ⟨node, hn, List.getElem?_mem hj⟩
    · simpa [List.getElem?_set, h0] using hs
  all_goals simpa [destroy_threadpool] using hs

theorem scanning_le_past_start (v : Nat) (pc : WorkerPc) :
    scanning_at v pc ≤ past_start pc := by
  cases pc <;> simp [scanning_at, past_start] <;> split <;> omega

theorem running_le_past_start (pc : WorkerPc) : running pc ≤ past_start pc := by
  cases pc with
  | loop_got t => cases t <;> simp [running, past_start]
  | _ => simp [running, past_start]

theorem scan_step (g : os_graph_t) (s s1 : State) {b : Bool} (h : Step g b s s1) (hi : GraphInv g s) :
    ∀ v, 0 < tally (scanning_at v) s1.threads → s1.visited[v]? = some .DONE := by
  intro v
  have hs := hi.scan v
  cases h
  case claim_root hpc hb =>
    intro h1
    have h2 := hi.fresh hpc v _ (hs h1)
    simp at h2
  case pn_visit pre post t node hn hb hth =>
    rw [hth] at hs
    by_cases h0 : t.argument = v
    · subst h0; intro _; simp [List.getElem?_set, hb]
    · simpa [List.getElem?_set, h0, scanning_at] using hs
  case pn_claim pre post t i node j hn hj hvis hth =>
    rw [hth] at hs
    by_cases h0 : j = v
    · subst h0
      intro h1
      simp [scanning_at] at hs h1
      have := hs h1
      rw [hvis] at this
      simp at this
    · simpa [List.getElem?_set, h0, scanning_at] using hs
  case loop_destroy pre post t hth =>
    rw [hth] at hs
    intro h1
    apply hs
    simp [scanning_at] at h1 ⊢
    omega
  all_goals simp_all [destroy_threadpool, scanning_at]

theorem root_step (g : os_graph_t) (s s1 : State) {b : Bool} (h : Step g b s s1) (hi : GraphInv g s) :
    s1.main_pc = .claim_root ∨ s1.visited[0]? = some .PROCESSING ∨
      s1.visited[0]? = some .DONE := by
  have hr := hi.root
  cases h
  case claim_root hpc hb => simp [List.getElem?_set, hb]
  case pn_visit pre post t node hn hb hth =>
    by_cases h0 : t.argument = 0
    · have h3 : 0 < s.visited.length := h0 ▸ hb
      simp [List.getElem?_set, h0, h3]
    · simpa [List.getElem?_set, h0] using hr
  case pn_claim pre post t i node j hn hj hvis hth =>
    by_cases h0 : j = 0
    · subst h0
      simp [List.getElem?_set, lt_of_getElem?_eq_some _ _ _ hvis]
    · simpa [List.getElem?_set, h0] using hr
  all_goals simp_all [destroy_threadpool]

theorem fresh_step (g : os_graph_t) (n : Nat) (s s1 : State) {b : Bool} (h : Step g b s s1)
    (hp : PoolInv n s) (hi : GraphInv g s) :
    s1.main_pc = .claim_root → ∀ (v : Nat) (x : Visit), s1.visited[v]? = some x →
      x = .NOT_VISITED := by
  have hf := hi.fresh
  have h1 := hp.started
  have h2 := hp.pre
  cases h
  case pn_visit pre post t node hn hb hth =>
    intro hpc
    rw [hth] at h2
    simp only [] at hpc
    simp [hpc, past_start] at h1 h2
    exact absurd h1 (by simp [h2])
  case pn_claim pre post t i node j hn hj hvis hth =>
    intro hpc
    rw [hth] at h2
    simp only [] at hpc
    simp [hpc, past_start] at h1 h2
    exact absurd h1 (by simp [h2])
  all_goals first | exact hf | simp [destroy_threadpool]

theorem tally_mid_mono (f : WorkerPc → Nat) (pre post pre1 post1 : List WorkerPc)
    (a b : WorkerPc) (h1 : tally f pre1 = tally f pre) (h2 : tally f post1 = tally f post)
    (h : 0 < tally f (pre ++ a :: post)) (hab : 0 < f a → 0 < f b) :
    0 < tally f (pre1 ++ b :: post1) := by
  simp only [tally_append, tally_cons] at h ⊢
  rcases Nat.eq_zero_or_pos (f a) with h0 | h0
  · omega
  · have := hab h0; omega

theorem closed_step (g : os_graph_t) (s s1 : State) {b : Bool} (h : Step g b s s1) (hi : GraphInv g s) :
    ∀ u node k j, s1.visited[u]? = some .DONE → g.nodes[u]? = some node →
      node.neighbours[k]? = some j → s1.visited[j]? = some .NOT_VISITED →
      0 < tally (scan_before u k) s1.threads := by
  intro u node k j
  have hc := hi.closed u node k j
  cases h
  case claim_root hpc hb =>
    intro h1 _ _ _
    by_cases h0 : 0 = u
    · subst h0; simp [List.getElem?_set, hb] at h1
    · simp [List.getElem?_set, h0] at h1
      have := hi.fresh hpc u _ h1
      simp at this
  case pn_visit pre post t node1 hn hb hth =>
    intro h1 h2 h3 h4
    rw [hth] at hc
    have hj : s.visited[j]? = some .NOT_VISITED := by
      by_cases h0 : t.argument = j
      · subst h0; simp [List.getElem?_set, hb] at h4
      · simpa [List.getElem?_set, h0] using h4
    by_cases h0 : t.argument = u
    · simp [scan_before, h0]
    · simp [List.getElem?_set, h0] at h1
      exact tally_mid_mono _ _ _ _ _ _ _ rfl rfl (hc h1 h2 h3 hj) (by simp [scan_before])
  case pn_claim pre post t i node1 j1 hn hj1 hvis hth =>
    intro h1 h2 h3 h4
    rw [hth] at hc
    have hb := lt_of_getElem?_eq_some _ _ _ hvis
    have hne : j1 ≠ j := by
      intro h0; subst h0; simp [List.getElem?_set, hb] at h4
    have hu : s.visited[u]? = some .DONE := by
      by_cases h0 : j1 = u
      · subst h0; simp [List.getElem?_set, hb] at h1
      · simpa [List.getElem?_set, h0] using h1
    have hj : s.visited[j]? = some .NOT_VISITED := by
      simpa [List.getElem?_set, hne] using h4
    refine tally_mid_mono _ _ _ _ _ _ _ rfl rfl (hc hu h2 h3 hj) ?_
    simp only [scan_before]
    split
    · rename_i h5
      intro _
      have h6 : i ≠ k := by
        intro h7; subst h7
        rw [h5.1, h2] at hn
        simp at hn; subst hn
        rw [h3] at hj1
        simp at hj1
        exact hne hj1.symm
      rw [if_pos ⟨h5.1, by omega⟩]
      omega
    · simp
  case pn_skip pre post t i node1 j1 v hn hj1 hne hvis hth =>
    intro h1 h2 h3 h4
    rw [hth] at hc
    refine tally_mid_mono _ _ _ _ _ _ _ rfl rfl (hc h1 h2 h3 h4) ?_
    simp only [scan_before]
    split
    · rename_i h5
      intro _
      have h6 : i ≠ k := by
        intro h7; subst h7
        rw [h5.1, h2] at hn
        simp at hn; subst hn
        rw [h3] at hj1
        simp at hj1; subst hj1
        simp only [] at h4
        rw [h4] at hvis
        simp at hvis
        exact hne hvis.symm
      rw [if_pos ⟨h5.1, by omega⟩]
      omega
    · simp
  case pn_loop_end pre post t i node1 hn hlen hth =>
    intro h1 h2 h3 h4
    rw [hth] at hc
    refine tally_mid_mono _ _ _ _ _ _ _ rfl rfl (hc h1 h2 h3 h4) ?_
    simp only [scan_before]
    split
    · rename_i h5
      rw [h5.1, h2] at hn
      simp at hn; subst hn
      have := lt_of_getElem?_eq_some _ _ _ h3
      omega
    · simp
  case pn_enqueue pre post t i nt hm hth =>
    intro h1 h2 h3 h4
    rw [hth] at hc
    exact tally_mid_mono _ _ _ _ _ _ _ rfl rfl (hc h1 h2 h3 h4) (by simp [scan_before])
  case pn_signal pre post b1 b2 t i hone hth =>
    intro h1 h2 h3 h4
    rw [hth] at hc
    refine tally_mid_mono _ _ _ _ _ _ _ (by simp) (by simp) (hc h1 h2 h3 h4) ?_
    simp only [scan_before]
    split
    · rename_i h5
      rw [if_pos ⟨h5.1, by omega⟩]
      simp
    · simp
  case dq_detect pre post hq hsw hcn hth =>
    intro h1 h2 h3 h4
    rw [hth] at hc
    exact tally_mid_mono _ _ _ _ _ _ _ (by simp) (by simp) (hc h1 h2 h3 h4)
      (by simp [scan_before])
  case broadcast hpc => simpa using hc
  case spurious bs => simpa using hc
  all_goals first
    | (rename_i hth; intro h1 h2 h3 h4; rw [hth] at hc;
       exact tally_mid_mono _ _ _ _ _ _ _ rfl rfl (hc h1 h2 h3 h4) (by simp [scan_before]))
    | simpa [destroy_threadpool] using hc

theorem tally_eq_length_of_all_exited (l : List WorkerPc)
    (h : ∀ k, k < l.length → l[k]? = some .exited) : tally got_null l = l.length := by
  induction l with
  | nil => simp
  | cons a l ih =>
    have h0 := h 0 (by simp)
    simp at h0
    subst h0
    have := ih (fun k hk => by simpa using h (k + 1) (by simpa using hk))
    simp [got_null, this]
    omega

/-- When `main` is past the joins of a pool with at least one worker, the task list is
empty and `still_working` is off. -/
theorem head_nil_of_joined (n : Nat) (s : State) (hn : 0 < n) (hp : PoolInv n s)
    (hj : joined n s.main_pc = n) : s.tp.still_working = false ∧ s.tp.head = [] := by
  have h1 := tally_eq_length_of_all_exited s.threads
    (fun k hk => hp.join k (by rw [hj, ← hp.len]; exact hk))
  have h2 := hp.null (by rw [h1, hp.len]; exact hn)
  exact ⟨h2, (hp.quiet h2).2.1⟩

theorem pend_step (g : os_graph_t) (n : Nat) (hn : 0 < n) (s s1 : State) {b : Bool} (h : Step g b s s1)
    (hp : PoolInv n s) (hi : GraphInv g s) :
    ∀ v, count_arg v s1.tp.head + main_pending v s1.main_pc +
      tally (pending_at v) s1.threads = if s1.visited[v]? = some .PROCESSING then 1 else 0 := by
  intro v
  have hv := hi.pend v
  cases h
  case claim_root hpc hb =>
    have hf := hi.fresh hpc
    rw [hpc] at hv
    by_cases h0 : 0 = v
    · subst h0
      obtain ⟨x, hx⟩ : ∃ x, s.visited[0]? = some x := ⟨_, List.getElem?_eq_getElem hb⟩
      have := hf 0 x hx
      subst this
      simp [hx] at hv
      simp [create_task, List.getElem?_set, hb, hv]
    · have h1 : ¬ (create_task s.next_id 0 true).argument = v := h0
      simp [List.getElem?_set, h0, h1]
      simpa using hv
  case destroy hpc =>
    have := (head_nil_of_joined n s hn hp (by simp [hpc, joined])).2
    simp [destroy_threadpool]
    simpa [hpc, this] using hv
  case pn_visit pre post t node hn1 hb hth =>
    have hp1 := processing_of_pending g s hi t.argument (by rw [hth]; simp [pending_at])
    rw [hth] at hv
    by_cases h0 : t.argument = v
    · subst h0
      simp [hp1, pending_at] at hv
      simp [List.getElem?_set, hb, pending_at]
      omega
    · simp [pending_at, h0] at hv
      simp [List.getElem?_set, h0, pending_at]
      exact hv
  case pn_claim pre post t i node j hn1 hj hvis hth =>
    have hb := lt_of_getElem?_eq_some _ _ _ hvis
    rw [hth] at hv
    by_cases h0 : j = v
    · subst h0
      simp [hvis, pending_at] at hv
      simp [List.getElem?_set, hb, pending_at, create_task, hv]
    · simp [pending_at] at hv
      simp [List.getElem?_set, h0, pending_at, create_task]
      exact hv
  case dq_take_task pre post t rest hq hth =>
    rw [hth, hq] at hv
    simp [pending_at] at hv ⊢
    omega
  all_goals first
    | (rename_i hth; rw [hth] at hv;
       simp [pending_at, enqueue_task, list_add_tail] at hv ⊢;
       omega)
    | (simp_all [enqueue_task, list_add_tail]; try omega)

theorem done_sum_replicate (nodes : List os_node_t) (k : Nat) :
    done_sum nodes (List.replicate k .NOT_VISITED) = 0 := by
  induction nodes generalizing k with
  | nil => cases k <;> simp [done_sum, List.replicate_succ]
  | cons n ns ih =>
    cases k with
    | zero => simp [done_sum]
    | succ k => simp [done_sum, List.replicate_succ, ih]

theorem graph_init (g : os_graph_t) (n : Nat) : GraphInv g (init g n) := by
  constructor
  · simp [init, os_graph_t.num_nodes]
  · intro v
    simp [init, create_threadpool, tally_replicate, pending_at, List.getElem?_replicate]
  · intro v
    simp [init, List.getElem?_replicate]
  · simp [init, done_sum_replicate, wrap_int]
  · intro v
    simp [init, List.getElem?_replicate]
  · intro v
    simp [init, tally_replicate, scanning_at]
  · intro u node k j
    simp [init, List.getElem?_replicate]
  · simp [init]
  · intro _ v x
    simp [init, List.getElem?_replicate]
    intro _ h; exact h.symm

theorem graph_step (g : os_graph_t) (n : Nat) (hn : 0 < n) (s s1 : State)
    (hp : PoolInv n s) (hi : GraphInv g s) {b : Bool} (h : Step g b s s1) : GraphInv g s1 where
  vlen := (vlen_step g s s1 h).trans hi.vlen
  pend := pend_step g n hn s s1 h hp hi
  made := made_step g s s1 h hi
  total := total_step g s s1 h hi
  sound := sound_step g s s1 h hi
  scan := scan_step g s s1 h hi
  closed := closed_step g s s1 h hi
  root := root_step g s s1 h hi
  fresh := fresh_step g n s s1 h hp hi

/-- The traversal invariant holds in every reachable state of a pool with at least one
worker. -/
theorem graph_inv (g : os_graph_t) (n : Nat) (hn : 0 < n) (s : State)
    (h : Reachable g n s) : GraphInv g s :=
  (reachable_induction g n (fun s => PoolInv n s ∧ GraphInv g s)
    ⟨pool_init g n, graph_init g n⟩
    (fun _ s s1 hi hs => ⟨pool_step g n s s1 hi.1 hs, graph_step g n hn s s1 hi.1 hi.2 hs⟩)
    s h).2

/-! ### The life of a task -/

@[simp] theorem count_id_nil (id : Nat) : count_id id [] = 0 := rfl

@[simp] theorem count_id_cons (id : Nat) (t : os_task_t) (l : List os_task_t) :
    count_id id (t :: l) = (if t.id = id then 1 else 0) + count_id id l := rfl

@[simp] theorem count_id_append (id : Nat) (l1 l2 : List os_task_t) :
    count_id id (l1 ++ l2) = count_id id l1 + count_id id l2 := by
  induction l1 with
  | nil => simp
  | cons a l ih => simp [ih, Nat.add_assoc]

@[simp] theorem count_null_nil : count_null [] = 0 := rfl

@[simp] theorem count_null_cons (t : os_task_t) (l : List os_task_t) :
    count_null (t :: l) = (if t.destroy_arg = false then 1 else 0) + count_null l := rfl

@[simp] theorem count_null_append (l1 l2 : List os_task_t) :
    count_null (l1 ++ l2) = count_null l1 + count_null l2 := by
  induction l1 with
  | nil => simp
  | cons a l ih => simp [ih, Nat.add_assoc]

@[simp] theorem main_held_claim_root : main_held .claim_root = [] := rfl

@[simp] theorem main_held_enqueue_root (t : os_task_t) :
    main_held (.enqueue_root t) = [t] := rfl

@[simp] theorem main_held_set_started : main_held .set_started = [] := rfl

@[simp] theorem main_held_broadcast : main_held .broadcast = [] := rfl

@[simp] theorem main_held_join (i : Nat) : main_held (.join i) = [] := rfl

@[simp] theorem main_held_destroy : main_held .destroy = [] := rfl

@[simp] theorem main_held_finished : main_held .finished = [] := rfl

@[simp] theorem held_wake (pc : WorkerPc) : held (wake pc) = held pc := by
  cases pc <;> rfl

@[simp] theorem tally_held_id_wake (id : Nat) (bs : List Bool) (l : List WorkerPc) :
    tally (held_id id) (wake_mask bs l) = tally (held_id id) l :=
  tally_wake_mask _ (fun pc => by simp [held_id]) bs l

@[simp] theorem tally_held_null_wake (bs : List Bool) (l : List WorkerPc) :
    tally held_null (wake_mask bs l) = tally held_null l :=
  tally_wake_mask _ (fun pc => by simp [held_null]) bs l

theorem count_null_eq_zero (l : List os_task_t) (h : count_null l = 0) (t : os_task_t)
    (ht : t ∈ l) : t.destroy_arg = true := by
  induction l with
  | nil => simp at ht
  | cons a l ih =>
    simp at h ht
    rcases ht with rfl | ht
    · exact h.1
    · exact ih h.2 ht

theorem count_destroy_loop (id : Nat) (l : List os_task_t) (freed : List Nat)
    (h : count_null l = 0) :
    (destroy_threadpool_loop l freed).count id = count_id id l + freed.count id := by
  induction l generalizing freed with
  | nil => simp [destroy_threadpool_loop]
  | cons a l ih =>
    simp at h
    simp only [destroy_threadpool_loop, destroy_task, h.1, if_true]
    rw [ih _ h.2]
    simp [List.count_append, List.count_cons]
    split <;> omega

theorem nonnull_step (g : os_graph_t) (s s1 : State) {b : Bool} (h : Step g b s s1)
    (hi : count_null s.tp.head + count_null (main_held s.main_pc) +
      tally held_null s.threads = 0) :
    count_null s1.tp.head + count_null (main_held s1.main_pc) +
      tally held_null s1.threads = 0 := by
  cases h <;>
    simp_all [held_null, held, enqueue_task, list_add_tail, create_task, destroy_threadpool]

theorem ids_step (g : os_graph_t) (s s1 : State) {b : Bool} (h : Step g b s s1) (hi : TaskInv s) :
    ∀ id, count_id id s1.tp.head + count_id id (main_held s1.main_pc) +
      tally (held_id id) s1.threads + s1.freed.count id =
        if id < s1.next_id then 1 else 0 := by
  intro id
  have hv := hi.ids id
  have hnn := hi.nonnull
  cases h
  case claim_root hpc hb =>
    rw [hpc] at hv
    simp [create_task] at hv ⊢
    by_cases h0 : s.next_id = id
    · subst h0; simp at hv ⊢; omega
    · have h1 : id < s.next_id + 1 ↔ id < s.next_id := by omega
      simp [h0, h1]; exact hv
  case destroy hpc =>
    rw [hpc] at hv hnn
    simp at hv hnn
    simp [destroy_threadpool, count_destroy_loop id _ _ hnn.1]
    omega
  case dq_take_task pre post t rest hq hth =>
    rw [hq, hth] at hv
    simp [held_id, held] at hv ⊢
    omega
  case pn_claim pre post t i node j hn hj hvis hth =>
    rw [hth] at hv
    simp [held_id, held, create_task] at hv ⊢
    by_cases h0 : s.next_id = id
    · subst h0; simp at hv; simp [hv]
    · have h1 : id < s.next_id + 1 ↔ id < s.next_id := by omega
      simp [h0, h1]; omega
  case loop_destroy pre post t hth =>
    rw [hth] at hv hnn
    simp [held_id, held, held_null] at hv hnn
    simp [held_id, held, destroy_task, hnn.2.2.1, List.count_append, List.count_cons]
    omega
  all_goals first
    | (rename_i hth; rw [hth] at hv;
       simp [held_id, held, enqueue_task, list_add_tail] at hv ⊢; omega)
    | (simp_all [enqueue_task, list_add_tail]; try omega)

theorem made_ids_step (g : os_graph_t) (s s1 : State) {b : Bool} (h : Step g b s s1)
    (hi : ∀ t, t ∈ s.created → t.id < s.next_id ∧ t.destroy_arg = true) :
    ∀ t, t ∈ s1.created → t.id < s1.next_id ∧ t.destroy_arg = true := by
  intro t
  have ht := hi t
  cases h
  case claim_root hpc hb =>
    simp [create_task]
    rintro (h1 | h1)
    · have := ht h1; exact ⟨by omega, this.2⟩
    · subst h1; simp
  case pn_claim pre post t0 i node j hn hj hvis hth =>
    simp [create_task]
    rintro (h1 | h1)
    · have := ht h1; exact ⟨by omega, this.2⟩
    · subst h1; simp
  all_goals simpa [destroy_threadpool] using ht

theorem fin_step (g : os_graph_t) (n : Nat) (s s1 : State) {b : Bool} (h : Step g b s s1)
    (hp : PoolInv n s) (hi : s.main_pc = .finished → s.tp.head = []) :
    s1.main_pc = .finished → s1.tp.head = [] := by
  have hj := hp.join
  have hl := hp.len
  cases h
  case pn_enqueue pre post t i nt hm hth =>
    intro hpc
    simp only [] at hpc
    have := hj (pre.length) (by rw [hpc, ← hl, hth]; simp [joined])
    rw [hth, getElem?_append_cons] at this
    simp at this
  all_goals simp_all [destroy_threadpool]

theorem task_init (g : os_graph_t) (n : Nat) : TaskInv (init g n) := by
  constructor
  · intro id
    simp [init, create_threadpool, tally_replicate, held_id, held]
  · simp [init, create_threadpool, tally_replicate, held_null, held]
  · simp [init]
  · simp [init]

theorem task_step (g : os_graph_t) (n : Nat) (s s1 : State) (hp : PoolInv n s)
    (hi : TaskInv s) {b : Bool} (h : Step g b s s1) : TaskInv s1 where
  ids := ids_step g s s1 h hi
  nonnull := nonnull_step g s s1 h hi.nonnull
  made_ids := made_ids_step g s s1 h hi.made_ids
  fin := fin_step g n s s1 h hp hi.fin

/-- The task invariant holds in every reachable state. -/
theorem task_inv (g : os_graph_t) (n : Nat) (s : State) (h : Reachable g n s) :
    TaskInv s :=
  (reachable_induction g n (fun s => PoolInv n s ∧ TaskInv s)
    ⟨pool_init g n, task_init g n⟩
    (fun _ s s1 hi hs => ⟨pool_step g n s s1 hi.1 hs, task_step g n s s1 hi.1 hi.2 hs⟩)
    s h).2

/-! ### Task arguments and array bounds -/

@[simp] theorem count_big_nil (m : Nat) : count_big m [] = 0 := rfl

@[simp] theorem count_big_cons (m : Nat) (t : os_task_t) (l : List os_task_t) :
    count_big m (t :: l) = (if m ≤ t.argument then 1 else 0) + count_big m l := rfl

@[simp] theorem count_big_append (m : Nat) (l1 l2 : List os_task_t) :
    count_big m (l1 ++ l2) = count_big m l1 + count_big m l2 := by
  induction l1 with
  | nil => simp
  | cons a l ih => simp [ih, Nat.add_assoc]

@[simp] theorem tally_held_big_wake (m : Nat) (bs : List Bool) (l : List WorkerPc) :
    tally (held_big m) (wake_mask bs l) = tally (held_big m) l :=
  tally_wake_mask _ (fun pc => by simp [held_big]) bs l

theorem args_step (g : os_graph_t) (s s1 : State) {b : Bool} (h : Step g b s s1) (hi : ArgInv g s) :
    count_big g.nodes.length s1.tp.head + count_big g.nodes.length (main_held s1.main_pc)
      + tally (held_big g.nodes.length) s1.threads = 0 := by
  have ha := hi.args
  have hl := hi.vlen
  cases h
  case claim_root hpc hb =>
    rw [hl] at hb
    have hne : g.nodes ≠ [] := List.ne_nil_of_length_pos hb
    simp_all [create_task]
  case pn_claim pre post t i node j hn hj hvis hth =>
    have hb := lt_of_getElem?_eq_some _ _ _ hvis
    rw [hl] at hb
    simp_all [held_big, held, create_task]
  all_goals
    simp_all [held_big, held, enqueue_task, list_add_tail, create_task, destroy_threadpool]

theorem made_args_step (g : os_graph_t) (s s1 : State) {b : Bool} (h : Step g b s s1)
    (hi : ArgInv g s) : ∀ t, t ∈ s1.created → t.argument < g.nodes.length := by
  intro t
  have ht := hi.made_args t
  have hl := hi.vlen
  cases h
  case claim_root hpc hb =>
    rw [hl] at hb
    simp [create_task]
    rintro (h1 | h1)
    · exact ht h1
    · subst h1; exact hb
  case pn_claim pre post t0 i node j hn hj hvis hth =>
    have hb := lt_of_getElem?_eq_some _ _ _ hvis
    rw [hl] at hb
    simp [create_task]
    rintro (h1 | h1)
    · exact ht h1
    · subst h1; exact hb
  all_goals simpa [destroy_threadpool] using ht

theorem arg_init (g : os_graph_t) (n : Nat) : ArgInv g (init g n) := by
  constructor
  · simp [init, os_graph_t.num_nodes]
  · simp [init, create_threadpool, tally_replicate, held_big, held]
  · simp [init]

theorem arg_step (g : os_graph_t) (s s1 : State) (hi : ArgInv g s) {b : Bool} (h : Step g b s s1) :
    ArgInv g s1 where
  vlen := (vlen_step g s s1 h).trans hi.vlen
  args := args_step g s s1 h hi
  made_args := made_args_step g s s1 h hi

/-- The argument invariant holds in every reachable state, whatever the pool size. -/
theorem arg_inv (g : os_graph_t) (n : Nat) (s : State) (h : Reachable g n s) :
    ArgInv g s :=
  reachable_induction g n (ArgInv g) (arg_init g n)
    (fun _ s s1 hi hs => arg_step g s s1 hi hs) s h

/-- A task held by a worker targets a node of the graph. -/
theorem held_arg_lt (g : os_graph_t) (s : State) (hi : ArgInv g s) (w : Nat)
    (pc : WorkerPc) (hw : s.threads[w]? = some pc) (t : os_task_t) (ht : t ∈ held pc) :
    t.argument < g.nodes.length := by
  have h1 : tally (held_big g.nodes.length) s.threads = 0 := by have := hi.args; omega
  have h2 := tally_eq_zero _ _ h1 pc (List.getElem?_mem hw)
  simp only [held_big] at h2
  generalize held pc = l at ht h2
  induction l with
  | nil => simp at ht
  | cons a l ih =>
    simp at h2 ht
    rcases ht with rfl | ht
    · omega
    · exact ih ht h2.2

/-- No step of a reachable state accesses an array outside its bounds, provided the graph
has a node 0 and its neighbour lists hold node ids only. -/
theorem no_out_of_bounds (g : os_graph_t) (n : Nat) (hv : valid_graph g)
    (h0 : 0 < g.nodes.length) (s : State) (hr : Reachable g n s) (e : Event) :
    step g s e ≠ .out_of_bounds := by
  have hi := arg_inv g n s hr
  have hl := hi.vlen
  cases e with
  | main_thread =>
    simp only [step, main]
    split
    · simp [hl, h0]
    · split <;> simp
    · simp
    · simp
    · simp only [wait_for_completion]
      split
      · split <;> simp
      · simp
    · simp
    · simp
  | spurious_wakeup w =>
    simp only [step]
    split
    · split <;> simp
    · simp
  | worker w pick =>
    simp only [step]
    split
    · rename_i pc hpc
      have harg := held_arg_lt g s hi w pc hpc
      cases pc with
      | pn_visit t =>
        have h1 : t.argument < g.nodes.length := harg t (by simp [held])
        simp only [thread_loop_function, process_node]
        rw [List.getElem?_eq_getElem h1]
        simp [hl, h1]
      | pn_loop t i =>
        have h1 : t.argument < g.nodes.length := harg t (by simp [held])
        simp only [thread_loop_function, process_node]
        rw [List.getElem?_eq_getElem h1]
        simp only []
        split
        · rename_i hi2
          simp only [os_node_t.num_neighbours] at hi2
          rw [List.getElem?_eq_getElem hi2]
          simp only []
          have h2 : (g.nodes[t.argument]).neighbours[i] < s.visited.length := by
            rw [hl]
            exact hv _ (List.getElem_mem _) _ (List.getElem_mem _)
          rw [List.getElem?_eq_getElem h2]
          simp only []
          split <;> simp
        · simp
      | pn_lock t => simp only [thread_loop_function, process_node]; split <;> simp
      | pn_enqueue t i nt => simp only [thread_loop_function, process_node]; split <;> simp
      | pn_signal t i => simp only [thread_loop_function, process_node]; split <;> simp
      | pn_unlock t => simp [thread_loop_function, process_node]
      | loop_got t => cases t <;> simp [thread_loop_function]
      | dq_lock => simp only [thread_loop_function, dequeue_task]; split <;> simp
      | dq_check_started => simp only [thread_loop_function, dequeue_task]; split <;> simp
      | dq_woken_start => simp only [thread_loop_function, dequeue_task]; split <;> simp
      | dq_woken_work => simp only [thread_loop_function, dequeue_task]; split <;> simp
      | dq_check_queue =>
        simp only [thread_loop_function, dequeue_task]
        split
        · split <;> simp
        · simp
      | _ => simp [thread_loop_function, dequeue_task]
    · simp

/-! ### The state after quiescence -/

theorem scan_before_le_running (u k : Nat) (pc : WorkerPc) :
    scan_before u k pc ≤ running pc := by
  cases pc <;> simp [scan_before, running] <;> split <;> omega

/-- Once `still_working` is off no node is `PROCESSING`. -/
theorem no_processing (g : os_graph_t) (n : Nat) (s : State) (hp : PoolInv n s)
    (hi : GraphInv g s) (hq : s.tp.still_working = false) (v : Nat) :
    s.visited[v]? ≠ some .PROCESSING := by
  obtain ⟨h1, h2, h3⟩ := hp.quiet hq
  have h4 := hi.pend v
  have h5 := tally_le_tally (pending_at v) running (pending_le_running v) s.threads
  have h6 : main_pending v s.main_pc = 0 := by
    have := hp.started
    rw [h1] at this
    cases hpc : s.main_pc <;> simp [hpc] at this <;> simp
  intro h7
  rw [if_pos h7, h2, h6] at h4
  simp at h4
  omega

/-- Once `still_working` is off every node reachable from node 0 is `DONE`. -/
theorem done_of_reach (g : os_graph_t) (n : Nat) (hv : valid_graph g) (s : State)
    (hp : PoolInv n s) (hi : GraphInv g s) (hq : s.tp.still_working = false) (v : Nat)
    (hr : Reach g v) : s.visited[v]? = some .DONE := by
  obtain ⟨h1, h2, h3⟩ := hp.quiet hq
  induction hr with
  | refl =>
    rcases hi.root with h | h | h
    · have := hp.started
      rw [h1, h] at this
      simp at this
    · exact absurd h (no_processing g n s hp hi hq 0)
    · exact h
  | @tail u w _ he ih =>
    obtain ⟨node, hn, hm⟩ := he
    obtain ⟨k, hk⟩ := List.mem_iff_getElem?.mp hm
    have hw : w < s.visited.length := by
      rw [hi.vlen]
      exact hv node (List.getElem?_mem hn) w hm
    have h4 := tally_le_tally (scan_before u k) running (scan_before_le_running u k) s.threads
    cases hx : s.visited[w] with
    | NOT_VISITED =>
      have := hi.closed u node k w ih hn hk (by rw [List.getElem?_eq_getElem hw, hx])
      omega
    | PROCESSING =>
      exact absurd (by rw [List.getElem?_eq_getElem hw, hx]) (no_processing g n s hp hi hq w)
    | DONE => rw [List.getElem?_eq_getElem hw, hx]

/-- Once `still_working` is off a node of the graph that is not reachable from node 0 is
still `NOT_VISITED`. -/
theorem not_visited_of_not_reach (g : os_graph_t) (n : Nat) (s : State) (hp : PoolInv n s)
    (hi : GraphInv g s) (hq : s.tp.still_working = false) (v : Nat)
    (hv : v < g.nodes.length) (hr : ¬ Reach g v) : s.visited[v]? = some .NOT_VISITED := by
  have hw : v < s.visited.length := by rw [hi.vlen]; exact hv
  cases hx : s.visited[v] with
  | NOT_VISITED => rw [List.getElem?_eq_getElem hw, hx]
  | PROCESSING =>
    exact absurd (by rw [List.getElem?_eq_getElem hw, hx]) (no_processing g n s hp hi hq v)
  | DONE =>
    exact absurd (hi.sound v (Or.inr (by rw [List.getElem?_eq_getElem hw, hx]))) hr

/-- When every worker of a non-empty pool has exited, `still_working` is off. -/
theorem quiet_of_all_exited (n : Nat) (hn : 0 < n) (s : State) (hp : PoolInv n s)
    (he : all_exited s) : s.tp.still_working = false := by
  apply hp.null
  have h1 : 0 < s.threads.length := by rw [hp.len]; exact hn
  obtain ⟨pc, hpc⟩ : ∃ pc, pc ∈ s.threads := List.exists_mem_of_length_pos h1
  exact tally_pos_of_mem got_null s.threads pc hpc (by rw [he pc hpc]; simp [got_null])

/-- When `main` has finished every worker has exited. -/
theorem all_exited_of_finished (n : Nat) (s : State) (hp : PoolInv n s)
    (hf : s.main_pc = .finished) : all_exited s := by
  intro pc hpc
  exact mem_eq_exited s.threads
    (fun k hk => hp.join k (by rw [hf]; simp [joined]; rw [← hp.len]; exact hk)) pc hpc

/-- The sum over the `DONE` nodes as a sum over the node ids. -/
theorem done_sum_eq_sum (nodes : List os_node_t) (vis : List Visit) :
    done_sum nodes vis = ∑ v ∈ Finset.range nodes.length,
      if vis[v]? = some .DONE then info_of ⟨nodes⟩ v else 0 := by
  induction nodes generalizing vis with
  | nil => cases vis <;> simp [done_sum]
  | cons a l ih =>
    cases vis with
    | nil => simp [done_sum]
    | cons x xs =>
      simp only [done_sum, List.length_cons]
      rw [Finset.sum_range_succ', ih xs]
      simp [info_of, add_comm]

theorem exec_append (g : os_graph_t) (s : State) (es1 es2 : List Event) (s1 : State)
    (h : exec g s es1 = .ok s1) : exec g s (es1 ++ es2) = exec g s1 es2 := by
  induction es1 generalizing s with
  | nil => simp [exec] at h; subst h; rfl
  | cons e es ih =>
    simp only [exec, List.cons_append] at h ⊢
    split at h
    · rename_i s2 hs2
      exact ih s2 h
    · rename_i hne
      exact absurd h (hne s1)

/-- A state reached from a reachable state is reachable. -/
theorem reachable_exec (g : os_graph_t) (n : Nat) (s s1 : State) (es : List Event)
    (hr : Reachable g n s) (h : exec g s es = .ok s1) : Reachable g n s1 := by
  obtain ⟨es0, h0⟩ := hr
  exact ⟨es0 ++ es, by rw [exec_append g _ es0 es s h0, h]⟩

/-! ### No deadlock with two or more workers: the invariant -/

@[simp] theorem main_broadcasted_claim_root : main_broadcasted .claim_root = false := rfl

@[simp] theorem main_broadcasted_enqueue_root (t : os_task_t) :
    main_broadcasted (.enqueue_root t) = false := rfl

@[simp] theorem main_broadcasted_set_started : main_broadcasted .set_started = false := rfl

@[simp] theorem main_broadcasted_broadcast : main_broadcasted .broadcast = false := rfl

@[simp] theorem main_broadcasted_join (i : Nat) : main_broadcasted (.join i) = true := rfl

@[simp] theorem main_broadcasted_destroy : main_broadcasted .destroy = true := rfl

@[simp] theorem main_broadcasted_finished : main_broadcasted .finished = true := rfl

theorem main_started_of_broadcasted (pc : MainPc) (h : main_broadcasted pc = true) :
    main_started pc = true := by
  cases pc <;> simp_all

@[simp] theorem at_wait_start_wake (pc : WorkerPc) :
    at_wait_start (wake pc) = at_wait_start pc := by
  cases pc <;> rfl

@[simp] theorem tally_at_wait_start_wake (bs : List Bool) (l : List WorkerPc) :
    tally at_wait_start (wake_mask bs l) = tally at_wait_start l :=
  tally_wake_mask _ at_wait_start_wake bs l

theorem tally_wake_mask_le (f : WorkerPc → Nat) (hf : ∀ pc, f (wake pc) ≤ f pc)
    (bs : List Bool) (l : List WorkerPc) : tally f (wake_mask bs l) ≤ tally f l := by
  induction l generalizing bs with
  | nil => simp
  | cons a l ih =>
    cases bs with
    | nil => simp
    | cons b bs =>
      have h1 := ih bs
      have h2 := hf a
      cases b <;> simp [wake_mask] <;> omega

theorem blocked_wake_le (pc : WorkerPc) : blocked (wake pc) ≤ blocked pc := by
  cases pc <;> simp [blocked, wake]

theorem start_stuck_wake_le (pc : WorkerPc) : start_stuck (wake pc) ≤ start_stuck pc := by
  cases pc <;> simp [start_stuck, wake]

theorem tally_blocked_wake_all (l : List WorkerPc) :
    tally blocked (wake_mask (List.replicate l.length true) l) = 0 := by
  induction l with
  | nil => simp
  | cons a l ih =>
    simp only [List.length_cons, List.replicate_succ, wake_mask, if_true, tally_cons, ih]
    cases a <;> simp [blocked, wake]

theorem tally_start_stuck_wake_all (l : List WorkerPc) :
    tally start_stuck (wake_mask (List.replicate l.length true) l) =
      tally at_wait_start l := by
  induction l with
  | nil => simp
  | cons a l ih =>
    simp only [List.length_cons, List.replicate_succ, wake_mask, if_true, tally_cons, ih]
    cases a <;> simp [start_stuck, at_wait_start, wake]

theorem at_wait_start_le (pc : WorkerPc) : at_wait_start pc ≤ holds_mutex pc := by
  cases pc <;> simp [at_wait_start, holds_mutex]

theorem blocked_le_waiting (pc : WorkerPc) : blocked pc ≤ waiting pc := by
  cases pc <;> simp [blocked, waiting]

theorem blocked_le_stuck_add_past (pc : WorkerPc) :
    blocked pc ≤ start_stuck pc + past_start pc := by
  cases pc <;> simp [blocked, start_stuck, past_start]

theorem tally_add (f k : WorkerPc → Nat) (l : List WorkerPc) :
    tally (fun pc => f pc + k pc) l = tally f l + tally k l := by
  induction l with
  | nil => simp
  | cons a l ih => simp [ih]; omega

theorem stuck_step (g : os_graph_t) (n : Nat) (s s1 : State) {b : Bool} (h : Step g b s s1)
    (hp : PoolInv n s) (hi : LiveInv n s) :
    main_broadcasted s1.main_pc = true → tally start_stuck s1.threads ≤ 1 := by
  have hs := hi.stuck
  have hst := hp.started
  have hm := hp.mtx
  cases h
  case broadcast hpc =>
    intro _
    have h1 := tally_le_tally at_wait_start holds_mutex at_wait_start_le s.threads
    simp only [tally_start_stuck_wake_all]
    split at hm <;> omega
  case spurious bs =>
    intro hb
    have := tally_wake_mask_le start_stuck start_stuck_wake_le bs s.threads
    have := hs hb
    simp only []
    omega
  case dq_detect pre post hq hsw hc hth =>
    intro hb
    have h1 := tally_wake_mask_le start_stuck start_stuck_wake_le
      (List.replicate pre.length true) pre
    have h2 := tally_wake_mask_le start_stuck start_stuck_wake_le
      (List.replicate post.length true) post
    have := hs hb
    rw [hth] at this
    simp [start_stuck] at this ⊢
    omega
  case pn_signal pre post b1 b2 t i hone hth =>
    intro hb
    have h1 := tally_wake_mask_le start_stuck start_stuck_wake_le b1 pre
    have h2 := tally_wake_mask_le start_stuck start_stuck_wake_le b2 post
    have := hs hb
    rw [hth] at this
    simp [start_stuck] at this ⊢
    omega
  case dq_not_started pre post hst0 hth =>
    intro hb
    simp only [] at hb
    have := main_started_of_broadcasted _ hb
    rw [← hst, hst0] at this
    simp at this
  all_goals first
    | (rename_i hth; intro hb; have := hs hb; rw [hth] at this;
       simp [start_stuck] at this ⊢; omega)
    | simp_all [enqueue_task, destroy_threadpool]

theorem fresh_wait_step (g : os_graph_t) (n : Nat) (s s1 : State) {b : Bool} (h : Step g b s s1)
    (hp : PoolInv n s) (hi : LiveInv n s) :
    0 < tally at_wait_start s1.threads → tally past_start s1.threads = 0 := by
  have hs := hi.fresh_wait
  have hpre := hp.pre
  have hm := hp.mtx
  cases h
  case dq_not_started pre post hst0 hth =>
    intro _
    have := hpre hst0
    rw [hth] at this
    simp [past_start] at this ⊢
    omega
  case dq_started pre post hst0 hth =>
    intro hw
    have h1 := tally_le_tally at_wait_start holds_mutex at_wait_start_le pre
    have h2 := tally_le_tally at_wait_start holds_mutex at_wait_start_le post
    rw [hth] at hm
    simp [holds_mutex, at_wait_start] at hm hw
    split at hm <;> omega
  case dq_detect pre post hq hsw hc hth =>
    rw [hth] at hs
    simp [at_wait_start, past_start] at hs ⊢
    exact hs
  case pn_signal pre post b1 b2 t i hone hth =>
    rw [hth] at hs
    simp [at_wait_start, past_start] at hs ⊢
    exact hs
  all_goals first
    | (rename_i hth; rw [hth] at hs; simp [at_wait_start, past_start] at hs ⊢;
       first | done | omega)
    | simp_all [enqueue_task, destroy_threadpool]

theorem quiet_awake_step (g : os_graph_t) (n : Nat) (s s1 : State) {b : Bool} (h : Step g b s s1)
    (hp : PoolInv n s) (hi : LiveInv n s) :
    s1.tp.still_working = false →
      tally at_wait_start s1.threads = 0 ∧ tally blocked s1.threads = 0 := by
  have hs := hi.quiet_awake
  have hq := hp.quiet
  have hm := hp.mtx
  cases h
  case spurious bs =>
    intro hsw
    have := tally_wake_mask_le blocked blocked_wake_le bs s.threads
    have := hs hsw
    simp only [tally_at_wait_start_wake]
    omega
  case broadcast hpc =>
    intro hsw
    have := hs hsw
    simp only [tally_at_wait_start_wake, tally_blocked_wake_all]
    exact ⟨this.1, trivial⟩
  case dq_detect pre post hq0 hsw hc hth =>
    intro _
    have h1 := tally_le_tally at_wait_start holds_mutex at_wait_start_le pre
    have h2 := tally_le_tally at_wait_start holds_mutex at_wait_start_le post
    rw [hth] at hm
    simp [holds_mutex] at hm
    simp [at_wait_start, blocked, tally_blocked_wake_all]
    split at hm <;> omega
  case pn_signal pre post b1 b2 t i hone hth =>
    intro hsw
    have h1 := tally_wake_mask_le blocked blocked_wake_le b1 pre
    have h2 := tally_wake_mask_le blocked blocked_wake_le b2 post
    have := hs hsw
    rw [hth] at this
    simp [at_wait_start, blocked] at this ⊢
    omega
  case dq_not_started pre post hst0 hth =>
    intro hsw
    have := (hq hsw).1
    rw [hst0] at this
    simp at this
  case dq_wait_start pre post hth =>
    intro hsw
    have := hs hsw
    rw [hth] at this
    simp [at_wait_start] at this
  case dq_wait_work pre post hq0 hsw0 hc hth =>
    intro hsw
    simp only [] at hsw
    rw [hsw0] at hsw
    simp at hsw
  all_goals first
    | (rename_i hth; intro hsw; have := hs hsw; rw [hth] at this;
       simp [at_wait_start, blocked] at this ⊢; omega)
    | simp_all [enqueue_task, destroy_threadpool]

theorem awake_step (g : os_graph_t) (n : Nat) (hn : 2 ≤ n) (s s1 : State)
    {b : Bool} (h : Step g b s s1) (hp : PoolInv n s) (hi : LiveInv n s) :
    main_broadcasted s1.main_pc = true → s1.tp.still_working = true →
      tally blocked s1.threads + 1 ≤ n := by
  have hs := hi.awake
  have hlen := hp.len
  have hcnt := hp.cnt
  have hnth := hp.nth
  cases h
  case broadcast hpc =>
    intro _ _
    simp only [tally_blocked_wake_all]
    omega
  case spurious bs =>
    intro hb hsw
    have := tally_wake_mask_le blocked blocked_wake_le bs s.threads
    have := hs hb hsw
    simp only []
    omega
  case dq_detect pre post hq0 hsw0 hc hth =>
    intro _ hsw
    simp at hsw
  case pn_signal pre post b1 b2 t i hone hth =>
    intro hb hsw
    have h1 := tally_wake_mask_le blocked blocked_wake_le b1 pre
    have h2 := tally_wake_mask_le blocked blocked_wake_le b2 post
    have := hs hb hsw
    rw [hth] at this
    simp [blocked] at this ⊢
    omega
  case dq_wait_work pre post hq0 hsw0 hc hth =>
    intro _ _
    have h1 := tally_le_tally blocked waiting blocked_le_waiting pre
    have h2 := tally_le_tally blocked waiting blocked_le_waiting post
    have h3 := tally_le_length waiting waiting_le_one pre
    have h4 := tally_le_length waiting waiting_le_one post
    rw [hth] at hlen hcnt
    simp [waiting] at hlen hcnt
    simp [blocked]
    omega
  case dq_wait_start pre post hth =>
    intro hb _
    have h1 := hi.stuck hb
    have h2 := hi.fresh_wait (by rw [hth]; simp [at_wait_start])
    have h3 := tally_le_tally blocked (fun pc => start_stuck pc + past_start pc)
      blocked_le_stuck_add_past pre
    have h4 := tally_le_tally blocked (fun pc => start_stuck pc + past_start pc)
      blocked_le_stuck_add_past post
    rw [tally_add] at h3 h4
    rw [hth] at h1 h2
    simp [start_stuck, past_start] at h1 h2
    simp [blocked]
    omega
  all_goals first
    | (rename_i hth; intro hb hsw; have := hs hb hsw; rw [hth] at this;
       simp [blocked] at this ⊢; omega)
    | simp_all [enqueue_task, destroy_threadpool]

theorem live_init (g : os_graph_t) (n : Nat) : LiveInv n (init g n) := by
  constructor <;>
    simp [init, create_threadpool, tally_replicate, at_wait_start, blocked, start_stuck]

theorem live_step (g : os_graph_t) (n : Nat) (hn : 2 ≤ n) (s s1 : State)
    (hp : PoolInv n s) (hi : LiveInv n s) {b : Bool} (h : Step g b s s1) : LiveInv n s1 where
  stuck := stuck_step g n s s1 h hp hi
  fresh_wait := fresh_wait_step g n s s1 h hp hi
  quiet_awake := quiet_awake_step g n s s1 h hp hi
  awake := awake_step g n hn s s1 h hp hi

/-- The liveness invariant holds in every reachable state of a pool with two or more
workers. -/
theorem live_inv (g : os_graph_t) (n : Nat) (hn : 2 ≤ n) (s : State)
    (h : Reachable g n s) : LiveInv n s :=
  (reachable_induction g n (fun s => PoolInv n s ∧ LiveInv n s)
    ⟨pool_init g n, live_init g n⟩
    (fun _ s s1 hi hs => ⟨pool_step g n s s1 hi.1 hs, live_step g n hn s s1 hi.1 hi.2 hs⟩)
    s h).2

/-! ### No deadlock with two or more workers -/

theorem exists_index_of_tally_pos (f : WorkerPc → Nat) (l : List WorkerPc)
    (h : 0 < tally f l) : ∃ (w : Nat) (pc : WorkerPc), l[w]? = some pc ∧ 0 < f pc := by
  obtain ⟨pc, hm, hp⟩ := exists_of_tally_pos f l h
  obtain ⟨w, hw⟩ := List.mem_iff_getElem?.mp hm
  exact ⟨w, pc, hw, hp⟩

theorem length_le_tally (f : WorkerPc → Nat) (l : List WorkerPc)
    (h : ∀ pc, pc ∈ l → 1 ≤ f pc) : l.length ≤ tally f l := by
  induction l with
  | nil => simp
  | cons a l ih =>
    have h1 := h a (List.mem_cons_self _ _)
    have h2 := ih (fun pc hpc => h pc (List.mem_cons_of_mem _ hpc))
    simp
    omega

theorem exists_index_of_tally_lt (f : WorkerPc → Nat) (l : List WorkerPc)
    (h : tally f l < l.length) :
    ∃ (w : Nat) (pc : WorkerPc), l[w]? = some pc ∧ f pc = 0 := by
  by_contra hc
  have : ∀ pc, pc ∈ l → 1 ≤ f pc := by
    intro pc hm
    obtain ⟨w, hw⟩ := List.mem_iff_getElem?.mp hm
    rcases Nat.eq_zero_or_pos (f pc) with h0 | h0
    · exact absurd ⟨w, pc, hw, h0⟩ hc
    · exact h0
  have := length_le_tally f l this
  omega

/-- A signal can always be delivered: some choice of the woken thread is possible. -/
theorem signal_enabled (l : List WorkerPc) :
    ∃ pick ths, pthread_cond_signal l pick = some ths := by
  by_cases h : l.all (fun pc => !is_blocked pc) = true
  · exact ⟨0, l, by simp only [pthread_cond_signal, h, if_true]⟩
  · have h2 : ∃ pc, pc ∈ l ∧ is_blocked pc = true := by
      simpa using h
    obtain ⟨pc, hm, hb⟩ := h2
    obtain ⟨w, hw⟩ := List.mem_iff_getElem?.mp hm
    refine ⟨w, l.set w (wake pc), ?_⟩
    simp only [pthread_cond_signal, h, hw, hb, if_true]
    simp

/-- The worker that holds the pool mutex can take a step. -/
theorem mutex_holder_enabled (g : os_graph_t) (s : State) (w : Nat) (pc : WorkerPc)
    (hw : s.threads[w]? = some pc) (hpc : 0 < holds_mutex pc) :
    ∃ s1, step g s (.worker w 0) = .ok s1 := by
  cases pc <;> simp [holds_mutex] at hpc
  · simp only [step, hw, thread_loop_function, dequeue_task]
    split <;> exact ⟨_, rfl⟩
  · simp only [step, hw, thread_loop_function, dequeue_task]
    exact ⟨_, rfl⟩
  · simp only [step, hw, thread_loop_function, dequeue_task]
    split
    · split <;> exact ⟨_, rfl⟩
    · exact ⟨_, rfl⟩
  · simp only [step, hw, thread_loop_function, dequeue_task]
    exact ⟨_, rfl⟩

/-- The worker that holds `graph_mutex` can take a step when the pool mutex is free. -/
theorem graph_holder_enabled (g : os_graph_t) (n : Nat) (hv : valid_graph g)
    (h0 : 0 < g.nodes.length) (s : State) (hr : Reachable g n s)
    (hm : s.tp.mutex = false) (w : Nat) (pc : WorkerPc)
    (hw : s.threads[w]? = some pc) (hpc : 0 < holds_graph pc) :
    ∃ pick s1, step g s (.worker w pick) = .ok s1 := by
  cases pc <;> simp [holds_graph] at hpc
  case pn_visit t =>
    have hno := no_out_of_bounds g n hv h0 s hr (.worker w 0)
    refine ⟨0, ?_⟩
    cases hres : step g s (.worker w 0) with
    | ok s1 => exact ⟨s1, rfl⟩
    | out_of_bounds => exact absurd hres hno
    | disabled =>
      simp only [step, hw, thread_loop_function, process_node] at hres
      split at hres
      · simp at hres
      · split at hres <;> simp at hres
  case pn_loop t i =>
    have hno := no_out_of_bounds g n hv h0 s hr (.worker w 0)
    refine ⟨0, ?_⟩
    cases hres : step g s (.worker w 0) with
    | ok s1 => exact ⟨s1, rfl⟩
    | out_of_bounds => exact absurd hres hno
    | disabled =>
      simp only [step, hw, thread_loop_function, process_node] at hres
      split at hres
      · simp at hres
      · split at hres
        · split at hres
          · simp at hres
          · split at hres
            · simp at hres
            · split at hres <;> simp at hres
        · simp at hres
  case pn_enqueue t i nt =>
    exact ⟨0, _, by simp only [step, hw, thread_loop_function, process_node, hm]; rfl⟩
  case pn_signal t i =>
    obtain ⟨pick, ths, hs⟩ := signal_enabled s.threads
    exact ⟨pick, _, by simp only [step, hw, thread_loop_function, process_node, hs]; rfl⟩
  case pn_unlock t =>
    exact ⟨0, _, by simp only [step, hw, thread_loop_function, process_node]; rfl⟩

/-- When the pool mutex is free and some worker is neither blocked nor gone, some worker
can take a step. -/
theorem active_enabled (g : os_graph_t) (n : Nat) (hv : valid_graph g)
    (h0 : 0 < g.nodes.length) (s : State) (hr : Reachable g n s)
    (hm : s.tp.mutex = false) (w : Nat) (pc : WorkerPc)
    (hw : s.threads[w]? = some pc) (hb : blocked pc = 0) (he : pc ≠ .exited) :
    ∃ w2 pick s1, step g s (.worker w2 pick) = .ok s1 := by
  have hp := pool_inv g n s hr
  by_cases hg : 0 < holds_graph pc
  · obtain ⟨pick, s1, h1⟩ := graph_holder_enabled g n hv h0 s hr hm w pc hw hg
    exact ⟨w, pick, s1, h1⟩
  by_cases hh : 0 < holds_mutex pc
  · obtain ⟨s1, h1⟩ := mutex_holder_enabled g s w pc hw hh
    exact ⟨w, 0, s1, h1⟩
  cases pc with
  | dq_lock =>
    exact ⟨w, 0, _, by simp only [step, hw, thread_loop_function, dequeue_task, hm]; rfl⟩
  | dq_woken_start =>
    exact ⟨w, 0, _, by simp only [step, hw, thread_loop_function, dequeue_task, hm]; rfl⟩
  | dq_woken_work =>
    exact ⟨w, 0, _, by simp only [step, hw, thread_loop_function, dequeue_task, hm]; rfl⟩
  | loop_got t =>
    cases t with
    | none => exact ⟨w, 0, _, by simp only [step, hw, thread_loop_function]; rfl⟩
    | some t => exact ⟨w, 0, _, by simp only [step, hw, thread_loop_function]; rfl⟩
  | loop_destroy t =>
    exact ⟨w, 0, _, by simp only [step, hw, thread_loop_function]; rfl⟩
  | pn_lock t =>
    by_cases hgm : s.graph_mutex = true
    · have h1 := hp.gmtx
      rw [if_pos hgm] at h1
      obtain ⟨w2, pc2, hw2, hpos⟩ := exists_index_of_tally_pos holds_graph s.threads
        (by omega)
      obtain ⟨pick, s1, h2⟩ := graph_holder_enabled g n hv h0 s hr hm w2 pc2 hw2 hpos
      exact ⟨w2, pick, s1, h2⟩
    · have hgm2 : s.graph_mutex = false := by simpa using hgm
      exact ⟨w, 0, _, by simp only [step, hw, thread_loop_function, process_node, hgm2]; rfl⟩
  | _ => simp [holds_graph, holds_mutex, blocked] at hg hh hb he

/-- With two or more workers (a graph with a node 0 and valid neighbour lists), no
reachable state is a deadlock: as long as `main` has not finished, the main thread or a
worker can take a step, without help from a spurious wake-up. -/
theorem no_deadlock_two_workers (g : os_graph_t) (n : Nat) (hv : valid_graph g)
    (h0 : 0 < g.nodes.length) (hn : 2 ≤ n) (s : State) (hr : Reachable g n s)
    (hf : s.main_pc ≠ .finished) :
    ∃ e s1, (∀ w, e ≠ .spurious_wakeup w) ∧ step g s e = .ok s1 := by
  have hp := pool_inv g n s hr
  have hl := live_inv g n hn s hr
  have ha := arg_inv g n s hr
  have worker_event : (∃ w2 pick s1, step g s (.worker w2 pick) = .ok s1) →
      ∃ e s1, (∀ w, e ≠ .spurious_wakeup w) ∧ step g s e = .ok s1 := by
    rintro ⟨w2, pick, s1, h1⟩
    exact ⟨.worker w2 pick, s1, fun _ => by simp, h1⟩
  have main_event : (∃ s1, step g s .main_thread = .ok s1) →
      ∃ e s1, (∀ w, e ≠ .spurious_wakeup w) ∧ step g s e = .ok s1 := by
    rintro ⟨s1, h1⟩
    exact ⟨.main_thread, s1, fun _ => by simp, h1⟩
  by_cases hm : s.tp.mutex = true
  · have h1 := hp.mtx
    rw [if_pos hm] at h1
    obtain ⟨w, pc, hw, hpos⟩ := exists_index_of_tally_pos holds_mutex s.threads (by omega)
    obtain ⟨s1, h2⟩ := mutex_holder_enabled g s w pc hw hpos
    exact worker_event ⟨w, 0, s1, h2⟩
  have hm2 : s.tp.mutex = false := by simpa using hm
  cases hpc : s.main_pc with
  | finished => exact absurd hpc hf
  | claim_root =>
    apply main_event
    have : 0 < s.visited.length := by rw [ha.vlen]; exact h0
    exact ⟨_, by simp only [step, main, hpc, this, if_true]; rfl⟩
  | enqueue_root t =>
    apply main_event
    exact ⟨_, by simp only [step, main, hpc, hm2]; rfl⟩
  | set_started => exact main_event ⟨_, by simp only [step, main, hpc]; rfl⟩
  | broadcast => exact main_event ⟨_, by simp only [step, main, hpc]; rfl⟩
  | destroy => exact main_event ⟨_, by simp only [step, main, hpc]; rfl⟩
  | join i =>
    by_cases hi : i < s.tp.num_threads
    · have hlt : i < s.threads.length := by rw [hp.len, ← hp.nth]; exact hi
      obtain ⟨pc, hw⟩ : ∃ pc, s.threads[i]? = some pc := ⟨_, List.getElem?_eq_getElem hlt⟩
      by_cases he : pc = .exited
      · subst he
        apply main_event
        exact ⟨_, by simp only [step, main, hpc, wait_for_completion, hi, if_true, hw]; rfl⟩
      by_cases hb : blocked pc = 0
      · exact worker_event (active_enabled g n hv h0 s hr hm2 i pc hw hb he)
      have hbpos : 0 < tally blocked s.threads :=
        tally_pos_of_mem blocked s.threads pc (List.getElem?_mem hw) (by omega)
      have hsw : s.tp.still_working = true := by
        cases hs : s.tp.still_working with
        | true => rfl
        | false => have := (hl.quiet_awake hs).2; omega
      have h1 := hl.awake (by rw [hpc]; rfl) hsw
      obtain ⟨w2, pc2, hw2, hz⟩ := exists_index_of_tally_lt blocked s.threads
        (by rw [hp.len]; omega)
      have he2 : pc2 ≠ .exited := by
        rintro rfl
        have := hp.null (tally_pos_of_mem got_null s.threads _ (List.getElem?_mem hw2)
          (by simp [got_null]))
        rw [hsw] at this
        simp at this
      exact worker_event (active_enabled g n hv h0 s hr hm2 w2 pc2 hw2 hz he2)
    · apply main_event
      exact ⟨_, by simp only [step, main, hpc, wait_for_completion, hi, if_false]; rfl⟩

/-! ### Every run is finite -/

theorem queue_cost_append (g : os_graph_t) (l1 l2 : List os_task_t) :
    queue_cost g (l1 ++ l2) = queue_cost g l1 + queue_cost g l2 := by
  induction l1 with
  | nil => simp [queue_cost]
  | cons a l ih => simp [queue_cost, ih, Nat.add_assoc]

theorem visit_cost_set_le (g : os_graph_t) (k : Nat) (l : List Visit) (j : Nat) (x : Visit)
    (hx : x ≠ .NOT_VISITED) : visit_cost g k (l.set j x) ≤ visit_cost g k l := by
  induction l generalizing k j with
  | nil => simp
  | cons a l ih =>
    cases j with
    | zero => simp [visit_cost, hx]
    | succ j =>
      have := ih (k + 1) j
      simp [visit_cost]
      omega

theorem visit_cost_set_claim (g : os_graph_t) (k : Nat) (l : List Visit) (j : Nat) (x : Visit)
    (hx : x ≠ .NOT_VISITED) (hj : l[j]? = some .NOT_VISITED) :
    visit_cost g k (l.set j x) + (19 + degree g (k + j)) = visit_cost g k l := by
  induction l generalizing k j with
  | nil => simp at hj
  | cons a l ih =>
    cases j with
    | zero =>
      simp at hj
      subst hj
      simp [visit_cost, hx]
      omega
    | succ j =>
      simp at hj
      have := ih (k + 1) j hj
      have e : k + 1 + j = k + (j + 1) := by omega
      rw [e] at this
      simp [visit_cost]
      omega

/-- A wake-up moves a blocked worker three ranks up. -/
theorem tally_rank_wake (g : os_graph_t) (bs : List Bool) (l : List WorkerPc) :
    tally (worker_rank g) (wake_mask bs l) + 3 * tally blocked (wake_mask bs l) =
      tally (worker_rank g) l + 3 * tally blocked l := by
  induction l generalizing bs with
  | nil => simp
  | cons a l ih =>
    cases bs with
    | nil => simp
    | cons b bs =>
      have := ih bs
      cases b
      · simp [wake_mask]; omega
      · cases a <;> simp [wake_mask, wake, worker_rank, blocked] <;> omega

theorem tally_blocked_le_length (l : List WorkerPc) : tally blocked l ≤ l.length :=
  tally_le_length blocked blocked_le_one l

theorem tally_rank_wake_le (g : os_graph_t) (bs : List Bool) (l : List WorkerPc) :
    tally (worker_rank g) (wake_mask bs l) ≤ tally (worker_rank g) l + 3 * l.length := by
  have h1 := tally_rank_wake g bs l
  have h2 := tally_blocked_le_length l
  omega

theorem degree_eq (g : os_graph_t) (v : Nat) (node : os_node_t)
    (h : g.nodes[v]? = some node) : degree g v = node.neighbours.length := by
  simp [degree, h]

theorem queue_cost_destroy (g : os_graph_t) (s : State) :
    queue_cost g (destroy_threadpool s).tp.head = 0 := by
  simp [destroy_threadpool, queue_cost]

/-- Every step other than a spurious wake-up decreases the measure. -/
theorem measure_step (g : os_graph_t) (s s1 : State) (h : Step g false s s1) :
    run_measure g s1 < run_measure g s := by
  cases h
  case claim_root hpc hb =>
    have := visit_cost_set_le g 0 s.visited 0 .PROCESSING (by simp)
    simp only [run_measure, hpc, main_rank, task_cost, create_task]
    omega
  case enqueue_root t hpc hm =>
    simp only [run_measure, hpc, main_rank, enqueue_task, list_add_tail, queue_cost_append,
      queue_cost]
    omega
  case set_started hpc =>
    simp only [run_measure, hpc, main_rank]
    omega
  case broadcast hpc =>
    have := tally_rank_wake_le g (List.replicate s.threads.length true) s.threads
    simp only [run_measure, hpc, main_rank, wake_mask_length]
    omega
  case join i hpc hi hex =>
    have := lt_of_getElem?_eq_some _ _ _ hex
    simp only [run_measure, hpc, main_rank]
    omega
  case join_end i hpc hi =>
    simp only [run_measure, hpc, main_rank]
    omega
  case destroy hpc =>
    simp only [run_measure, hpc, main_rank, destroy_threadpool, queue_cost]
    omega
  case dq_lock pre post hm hth =>
    simp [run_measure, hth, worker_rank]
  case dq_not_started pre post hst hth =>
    simp [run_measure, hth, worker_rank]
  case dq_started pre post hst hth =>
    simp [run_measure, hth, worker_rank]
  case dq_wait_start pre post hth =>
    simp [run_measure, hth, worker_rank]
  case dq_woken_start pre post hm hth =>
    simp [run_measure, hth, worker_rank]
  case dq_detect pre post hq hsw hc hth =>
    have h1 := tally_rank_wake_le g (List.replicate pre.length true) pre
    have h2 := tally_rank_wake_le g (List.replicate post.length true) post
    simp [run_measure, hth, worker_rank, still_cost, hsw]
    omega
  case dq_wait_work pre post hq hsw hc hth =>
    simp [run_measure, hth, worker_rank]
  case dq_leave_loop pre post hq hth =>
    simp [run_measure, hth, worker_rank]
  case dq_woken_work pre post hm hth =>
    simp [run_measure, hth, worker_rank]
  case dq_take_task pre post t rest hq hth =>
    simp [run_measure, hth, worker_rank, hq, queue_cost, task_cost]
    omega
  case dq_take_null pre post hq hth =>
    simp [run_measure, hth, worker_rank]
  case loop_exit pre post hth =>
    simp [run_measure, hth, worker_rank]
  case loop_run pre post t hth =>
    simp [run_measure, hth, worker_rank]
  case pn_lock pre post t hm hth =>
    simp [run_measure, hth, worker_rank]
  case pn_visit pre post t node hn hb hth =>
    have := visit_cost_set_le g 0 s.visited t.argument .DONE (by simp)
    simp [run_measure, hth, worker_rank]
    omega
  case pn_claim pre post t i node j hn hj hv hth =>
    have h1 := visit_cost_set_claim g 0 s.visited j .PROCESSING (by simp) hv
    have h2 := degree_eq g _ _ hn
    have h3 := lt_of_getElem?_eq_some _ _ _ hj
    simp [run_measure, hth, worker_rank, task_cost, create_task]
    simp at h1
    omega
  case pn_skip pre post t i node j v hn hj hv hne hth =>
    have h2 := degree_eq g _ _ hn
    have h3 := lt_of_getElem?_eq_some _ _ _ hj
    simp [run_measure, hth, worker_rank]
    omega
  case pn_loop_end pre post t i node hn hi hth =>
    simp [run_measure, hth, worker_rank]
    omega
  case pn_enqueue pre post t i nt hm hth =>
    simp [run_measure, hth, worker_rank, enqueue_task, list_add_tail, queue_cost_append,
      queue_cost]
    omega
  case pn_signal pre post b1 b2 t i hone hth =>
    have h1 := tally_rank_wake g b1 pre
    have h2 := tally_rank_wake g b2 post
    simp [run_measure, hth, worker_rank]
    omega
  case pn_unlock pre post t hth =>
    simp [run_measure, hth, worker_rank]
  case loop_destroy pre post t hth =>
    simp [run_measure, hth, worker_rank]

/-- A spurious wake-up raises the measure by at most three per worker. -/
theorem measure_spurious (g : os_graph_t) (s s1 : State) (h : Step g true s s1) :
    run_measure g s1 ≤ run_measure g s + 3 * s.threads.length := by
  cases h
  case spurious bs =>
    have := tally_rank_wake_le g bs s.threads
    simp only [run_measure, wake_mask_length]
    omega

theorem measure_any_step (g : os_graph_t) (s s1 : State) (e : Event)
    (h : step g s e = .ok s1) :
    1 + run_measure g s1 ≤
      run_measure g s + (3 * s.threads.length + 1) * (if e.is_spurious then 1 else 0) := by
  have hs := step_sound g s s1 e h
  cases hb : e.is_spurious
  · rw [hb] at hs
    have := measure_step g s s1 hs
    simp
    omega
  · rw [hb] at hs
    have := measure_spurious g s s1 hs
    simp
    omega

theorem length_step (g : os_graph_t) (s s1 : State) (e : Event)
    (h : step g s e = .ok s1) : s1.threads.length = s.threads.length :=
  (len_step g s s1 (step_sound g s s1 e h)).1

/-- The length of a run is bounded by the measure of its first state, plus `3 n + 1` for
every spurious wake-up. -/
theorem run_length_le (g : os_graph_t) (s s1 : State) (es : List Event)
    (h : exec g s es = .ok s1) :
    es.length + run_measure g s1 ≤
      run_measure g s + (3 * s.threads.length + 1) * count_spurious es := by
  induction es generalizing s with
  | nil =>
    simp [exec] at h
    subst h
    simp [count_spurious]
  | cons e es ih =>
    simp only [exec] at h
    split at h
    · rename_i s2 hs2
      have h1 := ih s2 h
      have h2 := measure_any_step g s s2 e hs2
      have h3 := length_step g s s2 e hs2
      rw [h3] at h1
      simp only [List.length_cons, count_spurious, Nat.mul_add]
      omega
    · rename_i hr
      exact absurd h (by
        intro h4
        exact hr s1 h4)

theorem count_spurious_zero (es : List Event) (h : no_spurious es) : count_spurious es = 0 := by
  induction es with
  | nil => rfl
  | cons e es ih =>
    have h1 := h e (List.mem_cons_self _ _)
    have h2 := ih (fun e1 he1 => h e1 (List.mem_cons_of_mem _ he1))
    simp [count_spurious, h1, h2]

/-- Every run without spurious wake-ups, from any state, is at most as long as the
measure of that state. -/
theorem run_bounded (g : os_graph_t) (s s1 : State) (es : List Event)
    (hns : no_spurious es) (h : exec g s es = .ok s1) :
    es.length ≤ run_measure g s := by
  have h1 := run_length_le g s s1 es h
  rw [count_spurious_zero es hns] at h1
  omega

/-- With two or more workers every reachable state can be run to the end: some schedule
without spurious wake-ups leads to a state in which `main` has finished. -/
theorem run_completes (g : os_graph_t) (n : Nat) (hv : valid_graph g)
    (h0 : 0 < g.nodes.length) (hn : 2 ≤ n) (s : State) (hr : Reachable g n s) :
    ∃ es s1, no_spurious es ∧ exec g s es = .ok s1 ∧ s1.main_pc = .finished := by
  generalize hm : run_measure g s = m
  induction m using Nat.strong_induction_on generalizing s with
  | _ m ih =>
    by_cases hf : s.main_pc = .finished
    · exact ⟨[], s, by intro e he; simp at he, rfl, hf⟩
    · obtain ⟨e, s1, he, hs⟩ := no_deadlock_two_workers g n hv h0 hn s hr hf
      have hsp : e.is_spurious = false := by
        cases e with
        | spurious_wakeup w => exact absurd rfl (he w)
        | main_thread => rfl
        | worker w pick => rfl
      have h1 := measure_any_step g s s1 e hs
      rw [hsp] at h1
      have hr1 : Reachable g n s1 := reachable_exec g n s s1 [e] hr (by simp [exec, hs])
      obtain ⟨es, s2, h2, h3, h4⟩ := ih (run_measure g s1) (by simp at h1; omega) s1 hr1 rfl
      refine ⟨e :: es, s2, ?_, ?_, h4⟩
      · intro e1 he1
        simp at he1
        rcases he1 with rfl | he1
        · exact hsp
        · exact h2 e1 he1
      · simp [exec, hs, h3]

/-! ### Concrete runs and the claims -/

theorem reach_root (g : os_graph_t) : Reach g 0 := Relation.ReflTransGen.refl

theorem reach_edge (g : os_graph_t) (u v : Nat) (node : os_node_t) (hu : Reach g u)
    (hn : g.nodes[u]? = some node) (hv : v ∈ node.neighbours) : Reach g v :=
  Relation.ReflTransGen.tail hu ⟨node, hn, hv⟩

/-- A set of nodes that holds node 0 and is closed under the edges holds every
reachable node. -/
theorem reach_subset (g : os_graph_t) (P : Nat → Prop) (h0 : P 0)
    (hstep : ∀ u v, P u → edge g u v → P v) (v : Nat) (hv : Reach g v) : P v := by
  induction hv with
  | refl => exact h0
  | tail _ he ih => exact hstep _ _ ih he

theorem reach_disconnected_one : Reach g_disconnected 1 :=
  reach_edge g_disconnected 0 1 ⟨3, [1]⟩ (reach_root _) rfl (by simp)

theorem not_reach_disconnected_two : ¬ Reach g_disconnected 2 := by
  intro h
  have := reach_subset g_disconnected (fun v => v < 2) (by decide) (by
    rintro u v hu ⟨node, hn, hm⟩
    have hu2 : u = 0 ∨ u = 1 := by omega
    rcases hu2 with rfl | rfl <;> simp [g_disconnected] at hn <;> subst hn <;>
      simp at hm <;> omega) 2 h
  omega

theorem reach_repeated_one : Reach g_repeated 1 :=
  reach_edge g_repeated 0 1 ⟨1, [1, 1, 0]⟩ (reach_root _) rfl (by simp)

theorem not_reach_repeated_two : ¬ Reach g_repeated 2 := by
  intro h
  have := reach_subset g_repeated (fun v => v < 2) (by decide) (by
    rintro u v hu ⟨node, hn, hm⟩
    have hu2 : u = 0 ∨ u = 1 := by omega
    rcases hu2 with rfl | rfl <;> simp [g_repeated] at hn <;> subst hn <;>
      simp at hm <;> omega) 2 h
  omega

theorem count_id_pos_of_mem (l : List os_task_t) (t : os_task_t) (h : t ∈ l) :
    0 < count_id t.id l := by
  induction l with
  | nil => simp at h
  | cons a l ih =>
    simp at h
    rcases h with rfl | h
    · simp
    · have := ih h; simp; omega

theorem held_id_pos_of_mem (pc : WorkerPc) (t : os_task_t) (h : t ∈ held pc) :
    0 < held_id t.id pc := count_id_pos_of_mem _ t h

theorem tally_pos_of_getElem? (f : WorkerPc → Nat) (l : List WorkerPc) (w : Nat)
    (pc : WorkerPc) (hw : l[w]? = some pc) (h : 0 < f pc) : 0 < tally f l :=
  tally_pos_of_mem f l pc (List.getElem?_mem hw) h

theorem count_arg_pos_of_mem (l : List os_task_t) (t : os_task_t) (h : t ∈ l) :
    0 < count_arg t.argument l := by
  induction l with
  | nil => simp at h
  | cons a l ih =>
    simp at h
    rcases h with rfl | h
    · simp
    · have := ih h; simp; omega

theorem tally_zero_of_all_exited (f : WorkerPc → Nat) (hf : f .exited = 0) (s : State)
    (he : all_exited s) : tally f s.threads = 0 := by
  rcases Nat.eq_zero_or_pos (tally f s.threads) with h0 | h0
  · exact h0
  · obtain ⟨pc, hm, hpos⟩ := exists_of_tally_pos f _ h0
    rw [he pc hm] at hpos
    omega

theorem mem_of_getElem?_append_cons (pre post : List WorkerPc) (a pc : WorkerPc) (k : Nat)
    (h : (pre ++ a :: post)[k]? = some pc) (hk : k ≠ pre.length) : pc ∈ pre ∨ pc ∈ post := by
  have hm := List.getElem?_mem h
  rcases Nat.lt_or_ge k pre.length with h1 | h1
  · rw [List.getElem?_append_left h1] at h
    exact Or.inl (List.getElem?_mem h)
  · rw [List.getElem?_append_right h1] at h
    obtain ⟨m, hm2⟩ : ∃ m, k - pre.length = m + 1 := ⟨k - pre.length - 1, by omega⟩
    rw [hm2] at h
    simp at h
    exact Or.inr (List.getElem?_mem h)

theorem waiting_cases (pc : WorkerPc) (h : waiting pc = 1) :
    pc = .dq_blocked_start ∨ pc = .dq_woken_start ∨ pc = .dq_blocked_work ∨
      pc = .dq_woken_work := by
  cases pc <;> simp_all [waiting]

/-- Once `still_working` is off it stays off and no task is created any more. -/
theorem after_quiet_step (g : os_graph_t) (n : Nat) (s s1 : State) (hp : PoolInv n s)
    (hq : s.tp.still_working = false) {b : Bool} (h : Step g b s s1) :
    s1.tp.still_working = false ∧ s1.created = s.created := by
  obtain ⟨h1, h2, h3⟩ := hp.quiet hq
  have h4 := hp.started
  cases h
  case claim_root hpc hb => rw [h1, hpc] at h4; simp at h4
  case pn_claim pre post t i node j hn hj hvis hth =>
    rw [hth] at h3; simp [running] at h3
  all_goals simp_all [enqueue_task, destroy_threadpool]

theorem after_quiet (g : os_graph_t) (n : Nat) (s s2 : State) (es : List Event)
    (hr : Reachable g n s) (hq : s.tp.still_working = false)
    (h : exec g s es = .ok s2) : s2.tp.still_working = false ∧ s2.created = s.created := by
  induction es generalizing s with
  | nil => simp [exec] at h; subst h; exact ⟨hq, rfl⟩
  | cons e es ih =>
    simp only [exec] at h
    split at h
    · rename_i s1 hs1
      have h1 := after_quiet_step g n s s1 (pool_inv g n s hr) hq (step_sound g s s1 e hs1)
      have h2 := ih s1 (reachable_exec g n s s1 [e] hr (by simp [exec, hs1])) h1.1 h
      exact ⟨h2.1, h2.2.trans h1.2⟩
    · rename_i hne
      exact absurd h (hne s2)

/-- C1, as stated, fails: on the two-node graph with values 2147483647 and 1 a complete
run ends with `sum = -2147483648`, which is not the sum over the reachable nodes 0 and 1. -/
theorem sum_overflow_counterexample :
    valid_graph g_overflow ∧ Reachable g_overflow 1 s_overflow ∧
    s_overflow.main_pc = .finished ∧
    ¬ ∃ R : Finset Nat, (∀ v, v ∈ R ↔ v < g_overflow.num_nodes ∧ Reach g_overflow v) ∧
        s_overflow.sum = ∑ v ∈ R, info_of g_overflow v := by
  refine ⟨by decide, ⟨sched_overflow, by rfl⟩, rfl, ?_⟩
  rintro ⟨R, hR, hs⟩
  have h1 : Reach g_overflow 1 :=
    reach_edge g_overflow 0 1 ⟨2147483647, [1]⟩ (reach_root _) rfl (by simp)
  have hR2 : R = {0, 1} := by
    ext v
    rw [hR]
    simp only [Finset.mem_insert, Finset.mem_singleton]
    constructor
    · rintro ⟨hlt, -⟩
      have : v < 2 := hlt
      omega
    · rintro (rfl | rfl)
      · exact ⟨by decide, reach_root _⟩
      · exact ⟨by decide, h1⟩
  subst hR2
  simp [s_overflow, info_of, g_overflow] at hs

/-- C1 (amended): with valid neighbour lists and at least one worker, when `main` has
finished, `sum` is the sum of `info` over exactly the nodes reachable from node 0, each
counted once, reduced to the range of `int` by wrap-around; it is that sum itself when the
sum lies in the range of `int`. -/
theorem sum_correct_modulo_wrap (g : os_graph_t) (n : Nat) (hv : valid_graph g)
    (hn : 0 < n) (s : State) (hr : Reachable g n s) (hf : s.main_pc = .finished) :
    ∃ R : Finset Nat, (∀ v, v ∈ R ↔ v < g.num_nodes ∧ Reach g v) ∧
      s.sum = wrap_int (∑ v ∈ R, info_of g v) ∧
      (-2147483648 ≤ ∑ v ∈ R, info_of g v → ∑ v ∈ R, info_of g v < 2147483648 →
        s.sum = ∑ v ∈ R, info_of g v) := by
  have hp := pool_inv g n s hr
  have hi := graph_inv g n hn s hr
  have hq := quiet_of_all_exited n hn s hp (all_exited_of_finished n s hp hf)
  refine ⟨(Finset.range g.nodes.length).filter (fun v => s.visited[v]? = some .DONE),
    ?_, ?_, ?_⟩
  · intro v
    simp only [Finset.mem_filter, Finset.mem_range, os_graph_t.num_nodes]
    constructor
    · rintro ⟨h1, h2⟩
      exact ⟨h1, hi.sound v (Or.inr h2)⟩
    · rintro ⟨h1, h2⟩
      exact ⟨h1, done_of_reach g n hv s hp hi hq v h2⟩
  · rw [hi.total, done_sum_eq_sum, Finset.sum_filter]
  · intro h1 h2
    rw [hi.total, done_sum_eq_sum, ← Finset.sum_filter]
    exact wrap_int_of_range _ h1 h2

/-- The amended C1 on the triangle: a complete run ends with `sum = 6`. -/
theorem sum_correct_modulo_wrap_witness :
    valid_graph g_triangle ∧ 0 < 1 ∧ Reachable g_triangle 1 s_triangle ∧
    s_triangle.main_pc = .finished ∧ s_triangle.sum = 6 ∧
    ∃ R : Finset Nat, (∀ v, v ∈ R ↔ v < g_triangle.num_nodes ∧ Reach g_triangle v) ∧
      s_triangle.sum = wrap_int (∑ v ∈ R, info_of g_triangle v) ∧
      (-2147483648 ≤ ∑ v ∈ R, info_of g_triangle v →
        ∑ v ∈ R, info_of g_triangle v < 2147483648 →
        s_triangle.sum = ∑ v ∈ R, info_of g_triangle v) :=
  ⟨by decide, by decide, ⟨sched_triangle, by rfl⟩, rfl, rfl,
    sum_correct_modulo_wrap g_triangle 1 (by decide) (by decide) s_triangle
      ⟨sched_triangle, by rfl⟩ rfl⟩

/-- C2: with valid neighbour lists and at least one worker, once every worker has
received "no task" and exited, every node reachable from node 0 is `DONE`, every other
node of the graph is still `NOT_VISITED`, and no node is `PROCESSING`. -/
theorem exactly_once_visitation (g : os_graph_t) (n : Nat) (hv : valid_graph g)
    (hn : 0 < n) (s : State) (hr : Reachable g n s) (he : all_exited s) (v : Nat)
    (hlt : v < g.num_nodes) :
    (Reach g v → s.visited[v]? = some .DONE) ∧
    (¬ Reach g v → s.visited[v]? = some .NOT_VISITED) ∧
    s.visited[v]? ≠ some .PROCESSING := by
  have hp := pool_inv g n s hr
  have hi := graph_inv g n hn s hr
  have hq := quiet_of_all_exited n hn s hp he
  exact ⟨done_of_reach g n hv s hp hi hq v,
    not_visited_of_not_reach g n s hp hi hq v hlt,
    no_processing g n s hp hi hq v⟩

/-- C2 on the disconnected graph: node 1 ends `DONE`, node 2 stays `NOT_VISITED`. -/
theorem exactly_once_visitation_witness :
    valid_graph g_disconnected ∧ 0 < 1 ∧ Reachable g_disconnected 1 s_disconnected ∧
    all_exited s_disconnected ∧ 2 < g_disconnected.num_nodes ∧
    Reach g_disconnected 1 ∧ ¬ Reach g_disconnected 2 ∧
    s_disconnected.visited[1]? = some .DONE ∧
    s_disconnected.visited[2]? = some .NOT_VISITED ∧
    s_disconnected.visited[2]? ≠ some .PROCESSING :=
  ⟨by decide, by decide, ⟨sched_disconnected, by rfl⟩, by decide, by decide,
    reach_disconnected_one, not_reach_disconnected_two,
    (exactly_once_visitation g_disconnected 1 (by decide) (by decide) s_disconnected
      ⟨sched_disconnected, by rfl⟩ (by decide) 1 (by decide)).1 reach_disconnected_one,
    (exactly_once_visitation g_disconnected 1 (by decide) (by decide) s_disconnected
      ⟨sched_disconnected, by rfl⟩ (by decide) 2 (by decide)).2.1
        not_reach_disconnected_two,
    (exactly_once_visitation g_disconnected 1 (by decide) (by decide) s_disconnected
      ⟨sched_disconnected, by rfl⟩ (by decide) 2 (by decide)).2.2⟩

/-- C3, as stated, fails: node 2 of the disconnected graph is a node of the graph, and at
the end of a complete run no task that targets it has been created. -/
theorem unreachable_node_counterexample :
    valid_graph g_disconnected ∧ Reachable g_disconnected 1 s_disconnected ∧
    s_disconnected.main_pc = .finished ∧ 2 < g_disconnected.num_nodes ∧
    count_arg 2 s_disconnected.created = 0 ∧ count_arg 2 s_disconnected.created ≠ 1 :=
  ⟨by decide, ⟨sched_disconnected, by rfl⟩, rfl, by decide, by decide, by decide⟩

/-- C3 (amended): with at least one worker, in every reachable state at most one task has
been created for any node, and only for nodes reachable from node 0; once every worker has
exited (valid neighbour lists assumed) exactly one task has been created for every
reachable node and none for any other node. -/
theorem no_duplicate_scheduling (g : os_graph_t) (n : Nat) (hn : 0 < n) (s : State)
    (hr : Reachable g n s) (v : Nat) :
    count_arg v s.created ≤ 1 ∧
    (0 < count_arg v s.created → v < g.num_nodes ∧ Reach g v) ∧
    (valid_graph g → all_exited s →
      (Reach g v → count_arg v s.created = 1) ∧
      (¬ Reach g v → count_arg v s.created = 0)) := by
  have hp := pool_inv g n s hr
  have hi := graph_inv g n hn s hr
  have hm := hi.made v
  refine ⟨?_, ?_, ?_⟩
  · rw [hm]; split <;> omega
  · intro h1
    rw [hm] at h1
    split at h1
    · rename_i h2
      refine ⟨?_, hi.sound v h2⟩
      rw [os_graph_t.num_nodes, ← hi.vlen]
      rcases h2 with h2 | h2 <;> exact lt_of_getElem?_eq_some _ _ _ h2
    · omega
  · intro hv he
    have hq := quiet_of_all_exited n hn s hp he
    constructor
    · intro h1
      rw [hm, if_pos (Or.inr (done_of_reach g n hv s hp hi hq v h1))]
    · intro h1
      rw [hm, if_neg]
      rintro (h2 | h2)
      · exact h1 (hi.sound v (Or.inl h2))
      · exact h1 (hi.sound v (Or.inr h2))

/-- The amended C3 on a graph with a repeated neighbour and self-loops: one task for
node 1, none for the unreachable node 2. -/
theorem no_duplicate_scheduling_witness :
    0 < 1 ∧ Reachable g_repeated 1 s_repeated ∧ valid_graph g_repeated ∧
    all_exited s_repeated ∧ Reach g_repeated 1 ∧ ¬ Reach g_repeated 2 ∧
    count_arg 1 s_repeated.created ≤ 1 ∧
    (0 < count_arg 1 s_repeated.created → 1 < g_repeated.num_nodes ∧ Reach g_repeated 1) ∧
    count_arg 1 s_repeated.created = 1 ∧ count_arg 2 s_repeated.created = 0 :=
  ⟨by decide, ⟨sched_repeated, by rfl⟩, by decide, by decide, reach_repeated_one,
    not_reach_repeated_two,
    (no_duplicate_scheduling g_repeated 1 (by decide) s_repeated
      ⟨sched_repeated, by rfl⟩ 1).1,
    (no_duplicate_scheduling g_repeated 1 (by decide) s_repeated
      ⟨sched_repeated, by rfl⟩ 1).2.1,
    ((no_duplicate_scheduling g_repeated 1 (by decide) s_repeated
      ⟨sched_repeated, by rfl⟩ 1).2.2 (by decide) (by decide)).1 reach_repeated_one,
    ((no_duplicate_scheduling g_repeated 1 (by decide) s_repeated
      ⟨sched_repeated, by rfl⟩ 2).2.2 (by decide) (by decide)).2 not_reach_repeated_two⟩

/-- C4 fails for a pool of one worker: after `sched_lost_wakeup` the root task is queued,
`still_working` is on, the worker is blocked in the first `pthread_cond_wait` of
`dequeue_task`, `main` is blocked in `pthread_join`, and no thread can take a step (only a
spurious wake-up could end the wait). -/
theorem lost_wakeup_deadlock :
    exec g_single (init g_single 1) sched_lost_wakeup = .ok s_lost_wakeup ∧
    s_lost_wakeup.tp.head = [⟨0, 0, true⟩] ∧
    s_lost_wakeup.tp.still_working = true ∧
    s_lost_wakeup.threads = [.dq_blocked_start] ∧
    s_lost_wakeup.main_pc = .join 0 ∧
    ∀ e, (∀ w, e ≠ .spurious_wakeup w) → step g_single s_lost_wakeup e = .disabled := by
  refine ⟨by rfl, rfl, rfl, rfl, rfl, ?_⟩
  intro e he
  cases e with
  | main_thread => rfl
  | worker w pick =>
    cases w with
    | zero => rfl
    | succ w => simp [step, s_lost_wakeup]
  | spurious_wakeup w => exact absurd rfl (he w)

/-- C5: `enqueue_task` appends at the tail and leaves the queued tasks as they are,
`dequeue_task` takes the head, and over any sequence of enqueues and dequeues the tasks
returned, followed by those still queued, are the tasks queued at the start followed by
the enqueued ones, in order. -/
theorem fifo_queue (tp : os_threadpool_t) :
    (∀ t, (enqueue_task tp t).head = tp.head ++ [t]) ∧
    (∀ t rest, dequeue_task_take { tp with head := t :: rest } =
      (some t, { tp with head := rest })) ∧
    dequeue_task_take { tp with head := [] } = (none, { tp with head := [] }) ∧
    (∀ ops, (run_queue_ops tp ops).1 ++ (run_queue_ops tp ops).2.head =
      tp.head ++ enqueued ops) := by
  refine ⟨fun t => rfl, fun t rest => rfl, rfl, ?_⟩
  intro ops
  induction ops generalizing tp with
  | nil => simp [run_queue_ops, enqueued]
  | cons op ops ih =>
    cases op with
    | enqueue t =>
      simp only [run_queue_ops, enqueued]
      rw [ih]
      simp [enqueue_task, list_add_tail]
    | dequeue =>
      simp only [run_queue_ops, enqueued]
      cases hq : tp.head with
      | nil =>
        have h1 : dequeue_task_take tp = (none, tp) := by
          simp [dequeue_task_take, queue_is_empty, list_empty, hq]
        rw [h1]
        simp only []
        rw [ih, hq]
      | cons t rest =>
        have h1 : dequeue_task_take tp = (some t, { tp with head := rest }) := by
          simp [dequeue_task_take, queue_is_empty, list_empty, hq, list_entry_next,
            list_del_next]
        rw [h1]
        simp only []
        rw [List.cons_append, ih]
        simp

/-- C6: in a reachable state a worker at the end of `dequeue_task` returns: either the
list is not empty, the call returns its head, the head is removed, is nowhere else in the
list and is held by no other worker; or the list is empty, `still_working` is off and the
call returns `NULL`. -/
theorem dequeue_task_result (g : os_graph_t) (n : Nat) (s : State) (hr : Reachable g n s)
    (w pick : Nat) (hw : s.threads[w]? = some .dq_take) :
    ∃ s1, step g s (.worker w pick) = .ok s1 ∧
      ((∃ t rest, s.tp.head = t :: rest ∧ s1.threads[w]? = some (.loop_got (some t)) ∧
          s1.tp.head = rest ∧ t ∉ rest ∧
          ∀ w2 pc, s1.threads[w2]? = some pc → t ∈ held pc → w2 = w) ∨
       (s.tp.head = [] ∧ s.tp.still_working = false ∧
          s1.threads[w]? = some (.loop_got none) ∧ s1.tp.head = [])) := by
  have hp := pool_inv g n s hr
  have ht := task_inv g n s hr
  have hlt := lt_of_getElem?_eq_some _ _ _ hw
  have hstep : step g s (.worker w pick) =
      .ok (set_pc { s with tp := { (dequeue_task_take s.tp).2 with mutex := false } } w
        (.loop_got (dequeue_task_take s.tp).1)) := by
    simp only [step, hw, thread_loop_function, dequeue_task]
  refine ⟨_, hstep, ?_⟩
  cases hq : s.tp.head with
  | nil =>
    right
    have h1 := hp.take (tally_pos_of_getElem? at_take _ w _ hw (by simp [at_take]))
    simp [hq] at h1
    simp [dequeue_task_take, queue_is_empty, list_empty, hq, set_pc, hlt, h1]
  | cons t rest =>
    left
    refine ⟨t, rest, rfl, ?_, ?_, ?_, ?_⟩
    · simp [dequeue_task_take, queue_is_empty, list_empty, hq, set_pc, hlt,
        list_entry_next]
    · simp [dequeue_task_take, queue_is_empty, list_empty, hq, set_pc, list_del_next]
    · intro hmem
      have h1 := ht.ids t.id
      have h2 := count_id_pos_of_mem rest t hmem
      rw [hq] at h1
      simp at h1
      split at h1 <;> omega
    · intro w2 pc hw2 hmem
      by_contra hne
      simp only [set_pc] at hw2
      rw [List.getElem?_set_ne (Ne.symm hne)] at hw2
      have h1 := ht.ids t.id
      have h2 := tally_pos_of_getElem? (held_id t.id) _ w2 pc hw2
        (held_id_pos_of_mem pc t hmem)
      rw [hq] at h1
      simp at h1
      split at h1 <;> omega

/-- C6 on the single node: the worker takes the root task. -/
theorem dequeue_task_result_witness :
    Reachable g_single 1 s_take ∧ s_take.threads[0]? = some .dq_take ∧
    ∃ s1, step g_single s_take (.worker 0 0) = .ok s1 ∧
      ((∃ t rest, s_take.tp.head = t :: rest ∧
          s1.threads[0]? = some (.loop_got (some t)) ∧
          s1.tp.head = rest ∧ t ∉ rest ∧
          ∀ w2 pc, s1.threads[w2]? = some pc → t ∈ held pc → w2 = 0) ∨
       (s_take.tp.head = [] ∧ s_take.tp.still_working = false ∧
          s1.threads[0]? = some (.loop_got none) ∧ s1.tp.head = [])) :=
  ⟨⟨sched_take, by rfl⟩, rfl,
    dequeue_task_result g_single 1 s_take ⟨sched_take, by rfl⟩ 0 0 rfl⟩

/-- C7: in every reachable state `destroy_arg` has been called at most once on the
argument of any created task, and not at all for a task that is still queued or held by
a worker; a step calls it only in `destroy_task` after the action has returned or in
`destroy_threadpool`, which leaves the list empty; when `main` has finished it has been
called exactly once for every created task. -/
theorem argument_released_once (g : os_graph_t) (n : Nat) (s : State)
    (hr : Reachable g n s) :
    (∀ t, t ∈ s.created → t.destroy_arg = true → s.freed.count t.id ≤ 1) ∧
    (∀ t, t ∈ s.tp.head → s.freed.count t.id = 0) ∧
    (∀ (w : Nat) (pc : WorkerPc) (t : os_task_t), s.threads[w]? = some pc → t ∈ held pc →
      s.freed.count t.id = 0) ∧
    (∀ e s1, step g s e = .ok s1 → s1.freed = s.freed ∨
      (∃ (w : Nat) (t : os_task_t), s.threads[w]? = some (.loop_destroy t) ∧ s1.threads[w]? = some .dq_lock ∧
        s1.freed = destroy_task t s.freed) ∨
      (s.main_pc = .destroy ∧ s1 = { destroy_threadpool s with main_pc := .finished })) ∧
    (destroy_threadpool s).tp.head = [] ∧
    (∀ id, (destroy_threadpool s).freed.count id = count_id id s.tp.head + s.freed.count id) ∧
    (s.main_pc = .finished → s.tp.head = [] ∧
      ∀ t, t ∈ s.created → t.destroy_arg = true → s.freed.count t.id = 1) := by
  have hp := pool_inv g n s hr
  have ht := task_inv g n s hr
  refine ⟨?_, ?_, ?_, ?_, rfl, ?_, ?_⟩
  · intro t hm _
    have h1 := ht.ids t.id
    rw [if_pos (ht.made_ids t hm).1] at h1
    omega
  · intro t hm
    have h1 := ht.ids t.id
    have h2 := count_id_pos_of_mem _ t hm
    split at h1 <;> omega
  · intro w pc t hw hm
    have h1 := ht.ids t.id
    have h2 := tally_pos_of_getElem? (held_id t.id) _ w pc hw (held_id_pos_of_mem pc t hm)
    split at h1 <;> omega
  · intro e s1 hstep
    have hs := step_sound g s s1 e hstep
    generalize Event.is_spurious e = sp at hs
    clear hstep
    cases hs
    case loop_destroy pre post t hth =>
      right; left
      refine ⟨pre.length, t, ?_, ?_, rfl⟩
      · rw [hth]; exact getElem?_append_cons _ _ _
      · exact getElem?_append_cons _ _ _
    case destroy hpc =>
      right; right
      exact ⟨hpc, rfl⟩
    all_goals left; rfl
  · intro id
    have h1 := ht.nonnull
    exact count_destroy_loop id _ _ (by omega)
  · intro hf
    refine ⟨ht.fin hf, ?_⟩
    intro t hm _
    have h1 := ht.ids t.id
    have h2 := tally_all_exited (held_id t.id) (by simp [held_id, held]) s.threads
      (fun k hk => hp.join k (by rw [hf]; simp [joined]; rw [← hp.len]; exact hk))
    rw [if_pos (ht.made_ids t hm).1, ht.fin hf, hf, h2] at h1
    simpa using h1

/-- C7 at the end of a run on the triangle: each of the three arguments has been released
once. -/
theorem argument_released_once_witness :
    Reachable g_triangle 1 s_triangle ∧ s_triangle.freed = [0, 1, 2] ∧
    ((∀ t, t ∈ s_triangle.created → t.destroy_arg = true →
        s_triangle.freed.count t.id ≤ 1) ∧
    (∀ t, t ∈ s_triangle.tp.head → s_triangle.freed.count t.id = 0) ∧
    (∀ (w : Nat) (pc : WorkerPc) (t : os_task_t), s_triangle.threads[w]? = some pc →
        t ∈ held pc →
        s_triangle.freed.count t.id = 0) ∧
    (∀ e s1, step g_triangle s_triangle e = .ok s1 → s1.freed = s_triangle.freed ∨
      (∃ (w : Nat) (t : os_task_t), s_triangle.threads[w]? = some (.loop_destroy t) ∧
        s1.threads[w]? = some .dq_lock ∧ s1.freed = destroy_task t s_triangle.freed) ∨
      (s_triangle.main_pc = .destroy ∧
        s1 = { destroy_threadpool s_triangle with main_pc := .finished })) ∧
    (destroy_threadpool s_triangle).tp.head = [] ∧
    (∀ id, (destroy_threadpool s_triangle).freed.count id =
      count_id id s_triangle.tp.head + s_triangle.freed.count id) ∧
    (s_triangle.main_pc = .finished → s_triangle.tp.head = [] ∧
      ∀ t, t ∈ s_triangle.created → t.destroy_arg = true →
        s_triangle.freed.count t.id = 1)) :=
  ⟨⟨sched_triangle, by rfl⟩, rfl,
    argument_released_once g_triangle 1 s_triangle ⟨sched_triangle, by rfl⟩⟩

/-- C8: when a step of a reachable state turns `still_working` off, it is the step of a
worker in the second loop of `dequeue_task` that found the list empty and
`aux_wait_cnt = num_threads - 1`; every other worker is then inside `pthread_cond_wait`
and none holds a task; from then on the list stays empty and no task is created, and when
all workers have exited every task created in the run has been run and destroyed. -/
theorem quiescence_detector_sound (g : os_graph_t) (n : Nat) (s : State)
    (hr : Reachable g n s) (e : Event) (s1 : State) (hstep : step g s e = .ok s1)
    (hsw : s.tp.still_working = true) (hsw1 : s1.tp.still_working = false) :
    ∃ w : Nat, s.threads[w]? = some .dq_check_queue ∧
      s1.threads[w]? = some .dq_check_queue ∧
      s.tp.head = [] ∧ s.tp.aux_wait_cnt = s.tp.num_threads - 1 ∧
      (∀ (w2 : Nat) (pc : WorkerPc), w2 ≠ w → s.threads[w2]? = some pc →
        pc = .dq_blocked_start ∨ pc = .dq_woken_start ∨ pc = .dq_blocked_work ∨
          pc = .dq_woken_work) ∧
      (∀ pc, pc ∈ s.threads → running pc = 0) ∧
      (∀ es s2, exec g s1 es = .ok s2 →
        s2.tp.head = [] ∧ s2.created = s.created ∧
        (all_exited s2 → ∀ t, t ∈ s2.created →
          s2.visited[t.argument]? = some .DONE ∧ s2.freed.count t.id = 1)) := by
  have hp := pool_inv g n s hr
  have hr1 : Reachable g n s1 := reachable_exec g n s s1 [e] hr (by simp [exec, hstep])
  have hS := step_sound g s s1 e hstep
  generalize Event.is_spurious e = sp at hS
  clear hstep
  cases hS
  case dq_detect pre post hq hsw0 hc hth =>
    have hlen := hp.len
    have hcnt := hp.cnt
    have hnth := hp.nth
    rw [hth] at hlen hcnt
    simp [waiting] at hlen hcnt
    have hn : 0 < n := by omega
    have e1 := tally_le_length waiting waiting_le_one pre
    have e2 := tally_le_length waiting waiting_le_one post
    have e3 := tally_add_le_length running waiting waiting_running_le pre
    have e4 := tally_add_le_length running waiting waiting_running_le post
    have hwpre : tally waiting pre = pre.length := by omega
    have hwpost : tally waiting post = post.length := by omega
    refine ⟨pre.length, ?_, ?_, hq, hc, ?_, ?_, ?_⟩
    · rw [hth]; exact getElem?_append_cons _ _ _
    · have := getElem?_append_cons (wake_mask (List.replicate pre.length true) pre)
        (wake_mask (List.replicate post.length true) post) .dq_check_queue
      simpa using this
    · intro w2 pc hne hw2
      rw [hth] at hw2
      rcases mem_of_getElem?_append_cons _ _ _ _ _ hw2 hne with hm | hm
      · exact waiting_cases pc (tally_eq_length waiting waiting_le_one pre hwpre pc hm)
      · exact waiting_cases pc (tally_eq_length waiting waiting_le_one post hwpost pc hm)
    · intro pc hm
      rw [hth] at hm
      simp at hm
      rcases hm with hm | rfl | hm
      · exact tally_eq_zero running pre (by omega) pc hm
      · simp [running]
      · exact tally_eq_zero running post (by omega) pc hm
    · intro es s2 hes
      have hr2 := reachable_exec g n _ s2 es hr1 hes
      have hp2 := pool_inv g n s2 hr2
      have hi2 := graph_inv g n hn s2 hr2
      have ht2 := task_inv g n s2 hr2
      have haq := after_quiet g n _ s2 es hr1 rfl hes
      obtain ⟨q1, q2, q3⟩ := hp2.quiet haq.1
      refine ⟨q2, haq.2, ?_⟩
      intro he t hm
      constructor
      · have h1 := hi2.made t.argument
        have h2 := count_arg_pos_of_mem _ t hm
        split at h1
        · rename_i h3
          rcases h3 with h3 | h3
          · exact absurd h3 (no_processing g n s2 hp2 hi2 haq.1 _)
          · exact h3
        · omega
      · have h1 := ht2.ids t.id
        have h2 := tally_zero_of_all_exited (held_id t.id) (by simp [held_id, held]) s2 he
        have h3 : main_held s2.main_pc = [] := by
          have := hp2.started
          rw [q1] at this
          cases hpc : s2.main_pc <;> simp [hpc] at this <;> simp
        rw [if_pos (ht2.made_ids t hm).1, q2, h2, h3] at h1
        simpa using h1
  all_goals simp_all [enqueue_task, destroy_threadpool]

/-- C8 on the single node with two workers: worker 0 declares quiescence while worker 1
is blocked in `pthread_cond_wait`. -/
theorem quiescence_detector_sound_witness :
    Reachable g_single 2 s_detect ∧
    step g_single s_detect (.worker 0 0) = .ok s_detected ∧
    s_detect.tp.still_working = true ∧ s_detected.tp.still_working = false ∧
    s_detect.threads = [.dq_check_queue, .dq_blocked_work] ∧
    ∃ w : Nat, s_detect.threads[w]? = some .dq_check_queue ∧
      s_detected.threads[w]? = some .dq_check_queue ∧
      s_detect.tp.head = [] ∧ s_detect.tp.aux_wait_cnt = s_detect.tp.num_threads - 1 ∧
      (∀ (w2 : Nat) (pc : WorkerPc), w2 ≠ w → s_detect.threads[w2]? = some pc →
        pc = .dq_blocked_start ∨ pc = .dq_woken_start ∨ pc = .dq_blocked_work ∨
          pc = .dq_woken_work) ∧
      (∀ pc, pc ∈ s_detect.threads → running pc = 0) ∧
      (∀ es s2, exec g_single s_detected es = .ok s2 →
        s2.tp.head = [] ∧ s2.created = s_detect.created ∧
        (all_exited s2 → ∀ t, t ∈ s2.created →
          s2.visited[t.argument]? = some .DONE ∧ s2.freed.count t.id = 1)) :=
  ⟨⟨sched_detect, by rfl⟩, by rfl, rfl, rfl, rfl,
    quiescence_detector_sound g_single 2 s_detect ⟨sched_detect, by rfl⟩ (.worker 0 0)
      s_detected (by rfl) rfl rfl⟩

/-- C9, as stated, fails: on the single node there is a reachable state in which the task
for node 0 is running, in the neighbour loop of `process_node`, and node 0 is `DONE`, not
`PROCESSING`. -/
theorem running_task_done_counterexample :
    Reachable g_single 1 s_scan ∧
    s_scan.threads[0]? = some (.pn_loop ⟨0, 0, true⟩ 0) ∧
    s_scan.visited[(⟨0, 0, true⟩ : os_task_t).argument]? = some .DONE ∧
    s_scan.visited[(⟨0, 0, true⟩ : os_task_t).argument]? ≠ some .PROCESSING :=
  ⟨⟨sched_scan, by rfl⟩, rfl, rfl, by decide⟩

/-- C9 (amended): with at least one worker, in every reachable state a queued task, the
root task `main` is about to enqueue, a dequeued task that has not reached line 39 of
`process_node` and a new task about to be enqueued target a `PROCESSING` node, and a
running task past line 39 targets a `DONE` node; a step leaves the state of a node as it
is, or moves it from `NOT_VISITED` to `PROCESSING` (the claim by `main` or by the
neighbour loop), or from `PROCESSING` to `DONE` (line 39 of `process_node` on it). -/
theorem monotone_visitation (g : os_graph_t) (n : Nat) (hn : 0 < n) (s : State)
    (hr : Reachable g n s) :
    (∀ t, t ∈ s.tp.head → s.visited[t.argument]? = some .PROCESSING) ∧
    (∀ t, s.main_pc = .enqueue_root t → s.visited[t.argument]? = some .PROCESSING) ∧
    (∀ (w : Nat) (pc : WorkerPc) (v : Nat), s.threads[w]? = some pc →
      0 < pending_at v pc → s.visited[v]? = some .PROCESSING) ∧
    (∀ (w : Nat) (pc : WorkerPc) (v : Nat), s.threads[w]? = some pc →
      0 < scanning_at v pc → s.visited[v]? = some .DONE) ∧
    (∀ e s1, step g s e = .ok s1 → ∀ v,
      s1.visited[v]? = s.visited[v]? ∨
      (s.visited[v]? = some .NOT_VISITED ∧ s1.visited[v]? = some .PROCESSING ∧
        ((s.main_pc = .claim_root ∧ v = 0) ∨
          ∃ (w : Nat) (t : os_task_t) (i : Nat) (nt : os_task_t),
            s.threads[w]? = some (.pn_loop t i) ∧
            s1.threads[w]? = some (.pn_enqueue t i nt) ∧ nt.argument = v)) ∨
      (s.visited[v]? = some .PROCESSING ∧ s1.visited[v]? = some .DONE ∧
        ∃ (w : Nat) (t : os_task_t), s.threads[w]? = some (.pn_visit t) ∧
          s1.threads[w]? = some (.pn_loop t 0) ∧ t.argument = v)) := by
  have hp := pool_inv g n s hr
  have hi := graph_inv g n hn s hr
  refine ⟨?_, ?_, ?_, ?_, ?_⟩
  · intro t hm
    have := count_arg_pos_of_mem _ t hm
    exact processing_of_pending g s hi _ (by omega)
  · intro t hpc
    exact processing_of_pending g s hi _ (by rw [hpc]; simp)
  · intro w pc v hw hpos
    have := tally_pos_of_getElem? (pending_at v) _ w pc hw hpos
    exact processing_of_pending g s hi _ (by omega)
  · intro w pc v hw hpos
    exact hi.scan v (tally_pos_of_getElem? (scanning_at v) _ w pc hw hpos)
  · intro e s1 hstep v
    have hS := step_sound g s s1 e hstep
    generalize Event.is_spurious e = sp at hS
    clear hstep
    cases hS
    case claim_root hpc hb =>
      by_cases h0 : 0 = v
      · subst h0
        right; left
        obtain ⟨x, hx⟩ : ∃ x, s.visited[0]? = some x := ⟨_, List.getElem?_eq_getElem hb⟩
        have := hi.fresh hpc 0 x hx
        subst this
        exact ⟨hx, by simp [List.getElem?_set, hb], Or.inl ⟨hpc, rfl⟩⟩
      · left; simp [List.getElem?_set, h0]
    case pn_visit pre post t node hnd hb hth =>
      by_cases h0 : t.argument = v
      · subst h0
        right; right
        have h1 := processing_of_pending g s hi t.argument (by rw [hth]; simp [pending_at])
        refine ⟨h1, by simp [List.getElem?_set, hb], pre.length, t, ?_, ?_, rfl⟩
        · rw [hth]; exact getElem?_append_cons _ _ _
        · exact getElem?_append_cons _ _ _
      · left; simp [List.getElem?_set, h0]
    case pn_claim pre post t i node j hnd hj hvis hth =>
      by_cases h0 : j = v
      · subst h0
        right; left
        have hb := lt_of_getElem?_eq_some _ _ _ hvis
        refine ⟨hvis, by simp [List.getElem?_set, hb], 
          Or.inr ⟨pre.length, t, i, create_task s.next_id j true, ?_, ?_, rfl⟩⟩
        · rw [hth]; exact getElem?_append_cons _ _ _
        · exact getElem?_append_cons _ _ _
      · left; simp [List.getElem?_set, h0]
    all_goals left; rfl

/-- The amended C9 on the single node: the running task past line 39 targets the `DONE`
node 0. -/
theorem monotone_visitation_witness :
    0 < 1 ∧ Reachable g_single 1 s_scan ∧
    s_scan.threads[0]? = some (.pn_loop ⟨0, 0, true⟩ 0) ∧
    s_scan.visited[0]? = some .DONE ∧
    (∀ t, t ∈ s_scan.tp.head → s_scan.visited[t.argument]? = some .PROCESSING) ∧
    (∀ e s1, step g_single s_scan e = .ok s1 → ∀ v,
      s1.visited[v]? = s_scan.visited[v]? ∨
      (s_scan.visited[v]? = some .NOT_VISITED ∧ s1.visited[v]? = some .PROCESSING ∧
        ((s_scan.main_pc = .claim_root ∧ v = 0) ∨
          ∃ (w : Nat) (t : os_task_t) (i : Nat) (nt : os_task_t),
            s_scan.threads[w]? = some (.pn_loop t i) ∧
            s1.threads[w]? = some (.pn_enqueue t i nt) ∧ nt.argument = v)) ∨
      (s_scan.visited[v]? = some .PROCESSING ∧ s1.visited[v]? = some .DONE ∧
        ∃ (w : Nat) (t : os_task_t), s_scan.threads[w]? = some (.pn_visit t) ∧
          s1.threads[w]? = some (.pn_loop t 0) ∧ t.argument = v)) :=
  ⟨by decide, ⟨sched_scan, by rfl⟩, rfl,
    (monotone_visitation g_single 1 (by decide) s_scan ⟨sched_scan, by rfl⟩).2.2.2.1
      0 _ 0 rfl (by decide),
    (monotone_visitation g_single 1 (by decide) s_scan ⟨sched_scan, by rfl⟩).1,
    (monotone_visitation g_single 1 (by decide) s_scan ⟨sched_scan, by rfl⟩).2.2.2.2⟩

/-- C10: when the graph has a node 0 and every neighbour list holds node ids only, every
task ever created has an argument below the number of nodes and no step of `main` or of a
worker accesses `nodes` or `visited` outside its bounds; on a graph without nodes the
first step of `main`, the write to `visited[0]`, is out of bounds. -/
theorem index_safety (g : os_graph_t) (n : Nat) :
    (valid_graph g → 0 < g.num_nodes → ∀ s, Reachable g n s →
      (∀ t, t ∈ s.created → t.argument < g.num_nodes) ∧
      (∀ e, step g s e ≠ .out_of_bounds)) ∧
    (g.num_nodes = 0 → step g (init g n) .main_thread = .out_of_bounds) := by
  constructor
  · intro hv h0 s hr
    exact ⟨(arg_inv g n s hr).made_args, no_out_of_bounds g n hv h0 s hr⟩
  · intro h0
    simp [step, main, init, h0]

/-- C10 on the triangle and on the graph without nodes. -/
theorem index_safety_witness :
    valid_graph g_triangle ∧ 0 < g_triangle.num_nodes ∧
    Reachable g_triangle 1 s_triangle ∧ g_empty.num_nodes = 0 ∧
    ((∀ t, t ∈ s_triangle.created → t.argument < g_triangle.num_nodes) ∧
      (∀ e, step g_triangle s_triangle e ≠ .out_of_bounds)) ∧
    step g_empty (init g_empty 4) .main_thread = .out_of_bounds :=
  ⟨by decide, by decide, ⟨sched_triangle, by rfl⟩, rfl,
    (index_safety g_triangle 1).1 (by decide) (by decide) s_triangle
      ⟨sched_triangle, by rfl⟩,
    (index_safety g_empty 4).2 rfl⟩

end ParallelGraph
